import Mathlib

/-!
Verification of the dependency graph analysis engine of `ldesign-analyzer`.

The definitions below are a shallow embedding of the TypeScript sources:
`src/utils/graphUtils.ts` (detectCycles, topologicalSort,
findStronglyConnectedComponents), `src/analyzers/dependency/DependencyGraphBuilder.ts`,
`src/analyzers/dependency/DuplicateDetector.ts`,
`src/analyzers/dependency/DependencyTreeBuilder.ts` and
`src/analyzers/dependency/CircularDependencyDetector.ts`.

JavaScript `Map` objects are embedded as association lists that keep the
insertion order (set replaces in place, new keys append at the end), and
JavaScript `Set` objects as lists without duplicates (add appends when new).
A non-null assertion `map.get(k)!` on an absent key throws in TypeScript;
functions able to reach such an access return `Option`, with `none` for the
thrown `TypeError`.  Depth-first traversals are written with an explicit
fuel argument; fuel sufficiency is proved where a claim depends on it.
-/

namespace LdesignAnalyzer

/-! ### Association-list model of JavaScript `Map` -/

def mapGet? {α : Type} (m : List (String × α)) (k : String) : Option α :=
  match m with
  | [] => none
  | (k', v) :: rest => if k' = k then some v else mapGet? rest k

def mapSet {α : Type} (m : List (String × α)) (k : String) (v : α) :
    List (String × α) :=
  match m with
  | [] => [(k, v)]
  | (k', v') :: rest =>
    if k' = k then (k, v) :: rest else (k', v') :: mapSet rest k v

def mapKeys {α : Type} (m : List (String × α)) : List String :=
  m.map (·.1)

/-- `Set.add`: append the element when it is not yet present. -/
def addIfNew (x : String) (s : List String) : List String :=
  if x ∈ s then s else s ++ [x]

/-! ### Basic lemmas about the map model -/

theorem mapGet?_mapSet_self {α : Type} (m : List (String × α)) (k : String) (v : α) :
    mapGet? (mapSet m k v) k = some v := by
  induction m with
  | nil => simp [mapSet, mapGet?]
  | cons p rest ih =>
    obtain ⟨k', v'⟩ := p
    by_cases h : k' = k
    · simp [mapSet, h, mapGet?]
    · simp [mapSet, h, mapGet?, ih]

theorem mapGet?_mapSet_ne {α : Type} (m : List (String × α)) (k k' : String) (v : α)
    (h : k ≠ k') : mapGet? (mapSet m k v) k' = mapGet? m k' := by
  induction m with
  | nil => simp [mapSet, mapGet?, h]
  | cons p rest ih =>
    obtain ⟨k₀, v₀⟩ := p
    by_cases h0 : k₀ = k
    · subst h0
      simp [mapSet, mapGet?, h]
    · simp [mapSet, h0, mapGet?, ih]

theorem mapKeys_cons {α : Type} (k₀ : String) (v₀ : α) (rest : List (String × α)) :
    mapKeys ((k₀, v₀) :: rest) = k₀ :: mapKeys rest := rfl

theorem mapKeys_mapSet_mem {α : Type} (m : List (String × α)) (k : String) (v : α)
    (h : k ∈ mapKeys m) : mapKeys (mapSet m k v) = mapKeys m := by
  induction m with
  | nil => simp [mapKeys] at h
  | cons p rest ih =>
    obtain ⟨k₀, v₀⟩ := p
    by_cases h0 : k₀ = k
    · simp [mapSet, h0, mapKeys]
    · rw [mapKeys_cons] at h
      rcases List.mem_cons.mp h with h | h
      · exact absurd h.symm h0
      · simp only [mapSet, if_neg h0, mapKeys_cons, ih h]

theorem mapKeys_mapSet_not_mem {α : Type} (m : List (String × α)) (k : String) (v : α)
    (h : k ∉ mapKeys m) : mapKeys (mapSet m k v) = mapKeys m ++ [k] := by
  induction m with
  | nil => simp [mapSet, mapKeys]
  | cons p rest ih =>
    obtain ⟨k₀, v₀⟩ := p
    rw [mapKeys_cons] at h
    have h1 : k₀ ≠ k := fun hk => h (hk ▸ List.mem_cons_self _ _)
    have h2 : k ∉ mapKeys rest := fun hk => h (List.mem_cons_of_mem _ hk)
    simp only [mapSet, if_neg h1, mapKeys_cons, ih h2, List.cons_append]

theorem mapGet?_eq_none_of_not_mem {α : Type} (m : List (String × α)) (k : String)
    (h : k ∉ mapKeys m) : mapGet? m k = none := by
  induction m with
  | nil => rfl
  | cons p rest ih =>
    obtain ⟨k₀, v₀⟩ := p
    rw [mapKeys_cons] at h
    have h1 : k₀ ≠ k := fun hk => h (hk ▸ List.mem_cons_self _ _)
    have h2 : k ∉ mapKeys rest := fun hk => h (List.mem_cons_of_mem _ hk)
    simp [mapGet?, h1, ih h2]

theorem mapGet?_isSome_of_mem {α : Type} (m : List (String × α)) (k : String)
    (h : k ∈ mapKeys m) : (mapGet? m k).isSome = true := by
  induction m with
  | nil => simp [mapKeys] at h
  | cons p rest ih =>
    obtain ⟨k₀, v₀⟩ := p
    by_cases h0 : k₀ = k
    · simp [mapGet?, h0]
    · rw [mapKeys_cons] at h
      rcases List.mem_cons.mp h with h | h
      · exact absurd h.symm h0
      · simpa [mapGet?, h0] using ih h

/-! ### Substring containment (`String.prototype.includes`) -/

def isPre (needle hay : List Char) : Bool :=
  match needle, hay with
  | [], _ => true
  | _ :: _, [] => false
  | a :: n', b :: h' => a = b && isPre n' h'

def listContainsSub (needle hay : List Char) : Bool :=
  isPre needle hay ||
    match hay with
    | [] => false
    | _ :: t => listContainsSub needle t

def strContains (s pat : String) : Bool :=
  listContainsSub pat.data s.data

/-! ### Data model (`src/types/index.ts`) -/

structure ModuleInfo where
  id : String
  name : String
  size : Int
  path : Option String
  dependencies : List String
deriving DecidableEq

inductive NodeType where
  | package : NodeType
  | module : NodeType
deriving DecidableEq

structure DependencyNode where
  id : String
  name : String
  size : Option Int
  type : NodeType
deriving DecidableEq

structure DependencyEdge where
  source : String
  target : String
deriving DecidableEq

inductive Severity where
  | error : Severity
  | warning : Severity
deriving DecidableEq

structure CircularDependency where
  cycle : List String
  severity : Severity
deriving DecidableEq

structure DuplicateDependency where
  name : String
  versions : List String
  locations : List String
  totalSize : Int
deriving DecidableEq

structure VersionConflict where
  package : String
  versions : List (String × List String)
  recommended : Option String
deriving DecidableEq

structure DependencyGraph where
  nodes : List DependencyNode
  edges : List DependencyEdge
  circular : List CircularDependency
  duplicates : List DuplicateDependency
  versionConflicts : List VersionConflict
deriving DecidableEq

/-! ### DependencyGraphBuilder (`src/analyzers/dependency/DependencyGraphBuilder.ts`)

`analyze` never throws: it builds one node per input module and one
deduplicated edge per resolvable dependency reference.  Deduplication uses
the key string `source ++ "->" ++ target`, exactly as in the source. -/

def mkNode (m : ModuleInfo) : DependencyNode :=
  { id := m.id
    name := m.name
    size := some m.size
    type := if strContains m.name "node_modules" then .package else .module }

def resolveDep (modules : List ModuleInfo) (depName : String) : Option ModuleInfo :=
  modules.find? (fun m => m.name = depName || m.id = depName)

def edgeKey (s t : String) : String :=
  s ++ "->" ++ t

/-- One iteration of the inner `for (const depName of module.dependencies)` loop:
state is the pair (edges so far, edge-key set so far). -/
def depStep (allMods : List ModuleInfo) (srcId : String)
    (st : List DependencyEdge × List String) (depName : String) :
    List DependencyEdge × List String :=
  match resolveDep allMods depName with
  | some depModule =>
    let k := edgeKey srcId depModule.id
    if k ∈ st.2 then st
    else (st.1 ++ [{ source := srcId, target := depModule.id }], st.2 ++ [k])
  | none => st

def buildEdges (modules : List ModuleInfo) : List DependencyEdge :=
  (modules.foldl
    (fun st m => m.dependencies.foldl (depStep modules m.id) st)
    ([], [])).1

def graphAnalyze (modules : List ModuleInfo) : DependencyGraph :=
  if modules.isEmpty then
    { nodes := [], edges := [], circular := [], duplicates := [], versionConflicts := [] }
  else
    { nodes := modules.map mkNode
      edges := buildEdges modules
      circular := []
      duplicates := []
      versionConflicts := [] }

/-! ### Invariants of the edge-building fold -/

def keyOf (e : DependencyEdge) : String :=
  edgeKey e.source e.target

def pairOf (e : DependencyEdge) : String × String :=
  (e.source, e.target)

/-- Invariant carried through the dependency-resolution folds. -/
def EdgeInv (modules : List ModuleInfo) (st : List DependencyEdge × List String) : Prop :=
  (st.1.map keyOf).Nodup ∧
  (∀ e ∈ st.1, keyOf e ∈ st.2) ∧
  (∀ e ∈ st.1, (∃ m ∈ modules, m.id = e.source) ∧ ∃ m ∈ modules, m.id = e.target)

theorem resolveDep_mem {modules : List ModuleInfo} {d : String} {dm : ModuleInfo}
    (h : resolveDep modules d = some dm) : dm ∈ modules :=
  List.mem_of_find?_eq_some h

theorem depStep_inv {modules : List ModuleInfo} {srcId : String}
    {st : List DependencyEdge × List String} (d : String)
    (hsrc : ∃ m ∈ modules, m.id = srcId) (hinv : EdgeInv modules st) :
    EdgeInv modules (depStep modules srcId st d) ∧
      (depStep modules srcId st d).1.length ≤ st.1.length + 1 := by
  obtain ⟨hnd, hkeys, hends⟩ := hinv
  unfold depStep
  cases hres : resolveDep modules d with
  | none => exact ⟨⟨hnd, hkeys, hends⟩, Nat.le_succ_of_le le_rfl⟩
  | some dm =>
    by_cases hk : edgeKey srcId dm.id ∈ st.2
    · simp only [if_pos hk]
      exact ⟨⟨hnd, hkeys, hends⟩, Nat.le_succ_of_le le_rfl⟩
    · simp only [if_neg hk]
      refine ⟨⟨?_, ?_, ?_⟩, by simp⟩
      · rw [List.map_append]
        refine List.Nodup.append hnd (by simp) ?_
        intro x hx hx'
        simp only [List.map_cons, List.map_nil, List.mem_singleton] at hx'
        rcases List.mem_map.mp hx with ⟨e, he, rfl⟩
        have : keyOf e = edgeKey srcId dm.id := by
          simpa [keyOf] using hx'
        exact hk (this ▸ hkeys e he)
      · intro e he
        rcases List.mem_append.mp he with he | he
        · exact List.mem_append_left _ (hkeys e he)
        · simp only [List.mem_singleton] at he
          subst he
          simp [keyOf, edgeKey]
      · intro e he
        rcases List.mem_append.mp he with he | he
        · exact hends e he
        · simp only [List.mem_singleton] at he
          subst he
          exact ⟨hsrc, dm, resolveDep_mem hres, rfl⟩

theorem depFold_inv {modules : List ModuleInfo} {srcId : String}
    (deps : List String) (st : List DependencyEdge × List String)
    (hsrc : ∃ m ∈ modules, m.id = srcId) (hinv : EdgeInv modules st) :
    EdgeInv modules (deps.foldl (depStep modules srcId) st) ∧
      (deps.foldl (depStep modules srcId) st).1.length ≤ st.1.length + deps.length := by
  induction deps generalizing st with
  | nil => exact ⟨hinv, le_rfl⟩
  | cons d rest ih =>
    obtain ⟨h1, h2⟩ := depStep_inv d hsrc hinv
    obtain ⟨h3, h4⟩ := ih _ h1
    refine ⟨h3, ?_⟩
    simp only [List.foldl_cons, List.length_cons]
    omega

theorem modFold_inv {modules : List ModuleInfo}
    (l : List ModuleInfo) (st : List DependencyEdge × List String)
    (hl : ∀ m ∈ l, m ∈ modules) (hinv : EdgeInv modules st) :
    EdgeInv modules (l.foldl (fun st m => m.dependencies.foldl (depStep modules m.id) st) st) ∧
      (l.foldl (fun st m => m.dependencies.foldl (depStep modules m.id) st) st).1.length ≤
        st.1.length + (l.map (fun m => m.dependencies.length)).sum := by
  induction l generalizing st with
  | nil => exact ⟨hinv, le_rfl⟩
  | cons m rest ih =>
    have hm : m ∈ modules := hl m (List.mem_cons_self _ _)
    obtain ⟨h1, h2⟩ := depFold_inv m.dependencies st ⟨m, hm, rfl⟩ hinv
    obtain ⟨h3, h4⟩ := ih _ (fun x hx => hl x (List.mem_cons_of_mem _ hx)) h1
    refine ⟨h3, ?_⟩
    simp only [List.foldl_cons, List.map_cons, List.sum_cons]
    omega

theorem buildEdges_inv (modules : List ModuleInfo) :
    EdgeInv modules (buildEdges modules, (modules.foldl
      (fun st m => m.dependencies.foldl (depStep modules m.id) st) ([], [])).2) ∧
      (buildEdges modules).length ≤ (modules.map (fun m => m.dependencies.length)).sum := by
  have h := @modFold_inv modules modules ([], [])
    (fun m hm => hm) ⟨by simp, by simp, by simp⟩
  simpa [buildEdges] using h

/-- C3 — The edge list built by `DependencyGraphBuilder.analyze` has no
duplicated `(source, target)` pair, its length is bounded by the total number
of dependency references of the input modules, and both endpoints of every
edge are ids of returned nodes.  Unresolved references are silently dropped
(`graphAnalyze` is a total function) and a self-referencing dependency is
processed like any other edge. -/
theorem builder_edge_invariants (ms : List ModuleInfo) :
    ((graphAnalyze ms).edges.map pairOf).Nodup ∧
      (graphAnalyze ms).edges.length ≤ (ms.map (fun m => m.dependencies.length)).sum ∧
      ∀ e ∈ (graphAnalyze ms).edges,
        (∃ n ∈ (graphAnalyze ms).nodes, n.id = e.source) ∧
          ∃ n ∈ (graphAnalyze ms).nodes, n.id = e.target := by
  obtain ⟨⟨hnd, _, hends⟩, hlen⟩ := buildEdges_inv ms
  by_cases hempty : ms.isEmpty
  · simp [graphAnalyze, hempty]
  · have hedges : (graphAnalyze ms).edges = buildEdges ms := by
      simp [graphAnalyze, hempty]
    have hnodes : (graphAnalyze ms).nodes = ms.map mkNode := by
      simp [graphAnalyze, hempty]
    refine ⟨?_, ?_, ?_⟩
    · rw [hedges]
      have : (buildEdges ms).map keyOf =
          ((buildEdges ms).map pairOf).map (fun p => edgeKey p.1 p.2) := by
        simp [keyOf, pairOf, Function.comp]
      exact List.Nodup.of_map _ (by rw [← this]; exact hnd)
    · rw [hedges]; exact hlen
    · intro e he
      rw [hedges] at he
      obtain ⟨⟨m1, hm1, hid1⟩, m2, hm2, hid2⟩ := hends e he
      rw [hnodes]
      exact ⟨⟨mkNode m1, List.mem_map_of_mem _ hm1, hid1⟩,
        mkNode m2, List.mem_map_of_mem _ hm2, hid2⟩

/-- C4 (counterexample) — Two modules sharing the id `"dup"` are processed
without any validation failure: `graphAnalyze` returns a normal graph with one
node per module, so no validation error naming the offending module is ever
raised. -/
theorem builder_accepts_duplicate_ids :
    graphAnalyze [⟨"dup", "a", 1, none, []⟩, ⟨"dup", "b", 2, none, []⟩] =
      { nodes := [mkNode ⟨"dup", "a", 1, none, []⟩, mkNode ⟨"dup", "b", 2, none, []⟩]
        edges := []
        circular := []
        duplicates := []
        versionConflicts := [] } ∧
      (⟨"dup", "a", 1, none, []⟩ : ModuleInfo).id = (⟨"dup", "b", 2, none, []⟩ : ModuleInfo).id := by
  constructor
  · rfl
  · rfl

/-- C4 (amended) — The engine performs no input-contract validation at all:
`graphAnalyze` is total, never signals an error, and produces exactly one node
per input module even when ids are missing (empty) or duplicated. -/
theorem builder_never_raises (ms : List ModuleInfo) :
    (graphAnalyze ms).nodes.length = ms.length := by
  by_cases hempty : ms.isEmpty
  · rw [List.isEmpty_iff] at hempty
    simp [graphAnalyze, hempty]
  · simp [graphAnalyze, hempty]

/-- C6 (counterexample) — A module whose `path` contains the dependency
directory marker but whose `name` does not is classified as `module`, because
the code scans `name`, not `path`. -/
theorem node_type_ignores_path :
    (graphAnalyze [⟨"m1", "app", 1, some "node_modules/x", []⟩]).nodes.map
        (fun n => n.type) = [NodeType.module] ∧
      strContains "node_modules/x" "node_modules" = true := by
  constructor
  · rfl
  · rfl

/-- C6 (amended) — Node `type` is `package` exactly when the module **name**
contains the substring `"node_modules"`; the `path` field is never consulted. -/
theorem node_type_from_name (ms : List ModuleInfo) :
    (graphAnalyze ms).nodes = ms.map mkNode ∧
      ∀ m : ModuleInfo,
        ((mkNode m).type = NodeType.package ↔ strContains m.name "node_modules" = true) := by
  constructor
  · by_cases hempty : ms.isEmpty
    · rw [List.isEmpty_iff] at hempty
      simp [graphAnalyze, hempty]
    · simp [graphAnalyze, hempty]
  · intro m
    unfold mkNode
    by_cases h : strContains m.name "node_modules" = true
    · simp [h]
    · simp only [Bool.not_eq_true] at h
      simp [h]

/-! ### DuplicateDetector (`src/analyzers/dependency/DuplicateDetector.ts`)

`extractPackageName` embeds the regular expression
`node_modules\/(@?[^/]+(?:\/[^/]+)?)` (the optional `@` is itself a
non-slash character, so the capture is the maximal non-slash run after the
marker, optionally followed by `/` and a second non-slash run), falling back
to the part of the name before the first `/`.  `extractVersion` embeds
`@([\d.]+)`: the first `@` followed by at least one digit-or-dot character. -/

def takeNonSlash (l : List Char) : List Char :=
  l.takeWhile (fun c => c ≠ '/')

def capAfter (t : List Char) : Option (List Char) :=
  let s1 := takeNonSlash t
  if s1 = [] then none
  else
    match t.drop s1.length with
    | '/' :: r2 =>
      let s2 := takeNonSlash r2
      if s2 = [] then some s1 else some (s1 ++ '/' :: s2)
    | _ => some s1

def markerChars : List Char :=
  "node_modules/".data

def findCap : List Char → Option (List Char)
  | [] => none
  | c :: t =>
    if isPre markerChars (c :: t) then
      match capAfter ((c :: t).drop markerChars.length) with
      | some cap => some cap
      | none => findCap t
    else findCap t

/-- `String.prototype.split('/')` on the character list. -/
def splitSlashAux : List Char → List Char → List (List Char)
  | [], cur => [cur.reverse]
  | c :: t, cur =>
    if c = '/' then cur.reverse :: splitSlashAux t [] else splitSlashAux t (c :: cur)

def extractPackageName (moduleName : String) : String :=
  match findCap moduleName.data with
  | some cap => String.mk cap
  | none =>
    match splitSlashAux moduleName.data [] with
    | [] => moduleName
    | p0 :: _ => if p0 = [] then moduleName else String.mk p0

def isVerChar (c : Char) : Bool :=
  c.isDigit || c = '.'

def findVer : List Char → Option (List Char)
  | [] => none
  | c :: t =>
    if c = '@' then
      let run := t.takeWhile isVerChar
      if run = [] then findVer t else some run
    else findVer t

def extractVersion (moduleName : String) : String :=
  match findVer moduleName.data with
  | some run => String.mk run
  | none => "unknown"

/-- `module.path || module.name` (an empty-string path is falsy in JS). -/
def locOf (m : ModuleInfo) : String :=
  match m.path with
  | some p => if p = "" then m.name else p
  | none => m.name

def dupStep (g : List (String × List ModuleInfo)) (m : ModuleInfo) :
    List (String × List ModuleInfo) :=
  match mapGet? g (extractPackageName m.name) with
  | some l => mapSet g (extractPackageName m.name) (l ++ [m])
  | none => mapSet g (extractPackageName m.name) [m]

def dupGroups (ms : List ModuleInfo) : List (String × List ModuleInfo) :=
  ms.foldl dupStep []

def dedupAux : List String → List String → List String
  | _, [] => []
  | seen, x :: r => if x ∈ seen then dedupAux seen r else x :: dedupAux (seen ++ [x]) r

/-- `Array.from(new Set(l))`: deduplicate keeping first occurrences. -/
def dedupKeepFirst (l : List String) : List String :=
  dedupAux [] l

def mkReportOf (group : List ModuleInfo) (name : String) : DuplicateDependency :=
  { name := name
    versions := dedupKeepFirst (group.map (fun m => extractVersion m.name))
    locations := group.map locOf
    totalSize := group.foldl (fun s m => s + m.size) 0 }

/-- Comparator `(a, b) => b.totalSize - a.totalSize`: non-increasing order. -/
def dupGE (a b : DuplicateDependency) : Prop :=
  b.totalSize ≤ a.totalSize

instance : DecidableRel dupGE := fun a b => inferInstanceAs (Decidable (b.totalSize ≤ a.totalSize))

instance : IsTotal DuplicateDependency dupGE :=
  ⟨fun a b => le_total b.totalSize a.totalSize⟩

instance : IsTrans DuplicateDependency dupGE :=
  ⟨fun _ _ _ h1 h2 => le_trans h2 h1⟩

def dupReportsRaw (ms : List ModuleInfo) : List DuplicateDependency :=
  (dupGroups ms).foldl
    (fun acc kg => if 1 < kg.2.length then acc ++ [mkReportOf kg.2 kg.1] else acc) []

def dupAnalyze (ms : List ModuleInfo) : List DuplicateDependency :=
  if ms.isEmpty then []
  else List.insertionSort dupGE (dupReportsRaw ms)

/-- The group a package-identity key collects: all modules whose extracted
package name equals the key, in input order. -/
def groupOf (ms : List ModuleInfo) (k : String) : List ModuleInfo :=
  ms.filter (fun m => extractPackageName m.name = k)

/-! ### Lemmas about the grouping fold of DuplicateDetector -/

theorem mapKeys_nodup_mapSet {α : Type} {m : List (String × α)} (k : String) (v : α)
    (h : (mapKeys m).Nodup) : (mapKeys (mapSet m k v)).Nodup := by
  by_cases hk : k ∈ mapKeys m
  · rwa [mapKeys_mapSet_mem m k v hk]
  · rw [mapKeys_mapSet_not_mem m k v hk, List.nodup_append]
    refine ⟨h, List.nodup_singleton k, ?_⟩
    intro a ha hb
    rw [List.mem_singleton] at hb
    subst hb
    exact hk ha

theorem mem_of_mapGet?_eq_some {α : Type} {m : List (String × α)} {k : String} {v : α}
    (h : mapGet? m k = some v) : (k, v) ∈ m := by
  induction m with
  | nil => simp [mapGet?] at h
  | cons p rest ih =>
    obtain ⟨k₀, v₀⟩ := p
    by_cases h0 : k₀ = k
    · subst h0
      have hv : v₀ = v := by simpa [mapGet?] using h
      subst hv
      exact List.mem_cons_self _ _
    · simp only [mapGet?, if_neg h0] at h
      exact List.mem_cons_of_mem _ (ih h)

theorem mapGet?_eq_some_of_mem {α : Type} {m : List (String × α)} {k : String} {v : α}
    (hnd : (mapKeys m).Nodup) (h : (k, v) ∈ m) : mapGet? m k = some v := by
  induction m with
  | nil => simp at h
  | cons p rest ih =>
    obtain ⟨k₀, v₀⟩ := p
    rw [mapKeys_cons] at hnd
    rcases List.mem_cons.mp h with h | h
    · rw [Prod.mk.injEq] at h
      simp [mapGet?, h.1, h.2]
    · have hk : k₀ ≠ k := by
        intro hkk
        subst hkk
        exact (List.nodup_cons.mp hnd).1 (by
          simpa [mapKeys] using List.mem_map_of_mem Prod.fst h)
      simp only [mapGet?, if_neg hk]
      exact ih (List.nodup_cons.mp hnd).2 h

theorem dupGroups_aux_keys_nodup (ms : List ModuleInfo)
    (g : List (String × List ModuleInfo)) (h : (mapKeys g).Nodup) :
    (mapKeys (ms.foldl dupStep g)).Nodup := by
  induction ms generalizing g with
  | nil => exact h
  | cons m rest ih =>
    refine ih _ ?_
    unfold dupStep
    cases mapGet? g (extractPackageName m.name) with
    | some l => exact mapKeys_nodup_mapSet _ _ h
    | none => exact mapKeys_nodup_mapSet _ _ h

theorem groupOf_cons (m : ModuleInfo) (rest : List ModuleInfo) (k : String) :
    groupOf (m :: rest) k =
      if extractPackageName m.name = k then m :: groupOf rest k else groupOf rest k := by
  unfold groupOf
  by_cases h : extractPackageName m.name = k
  · simp [List.filter_cons, h]
  · simp [List.filter_cons, h]

theorem dupGroups_aux_get (ms : List ModuleInfo)
    (g : List (String × List ModuleInfo)) (k : String) :
    mapGet? (ms.foldl dupStep g) k =
      match mapGet? g k with
      | some l => some (l ++ groupOf ms k)
      | none => if groupOf ms k = [] then none else some (groupOf ms k) := by
  induction ms generalizing g with
  | nil =>
    simp only [List.foldl_nil]
    cases h : mapGet? g k with
    | some l => simp [groupOf]
    | none => simp [groupOf]
  | cons m rest ih =>
    simp only [List.foldl_cons]
    rw [ih (dupStep g m), groupOf_cons]
    by_cases hkm : extractPackageName m.name = k
    · rw [if_pos hkm]
      unfold dupStep
      rw [hkm]
      cases hg : mapGet? g k with
      | some l =>
        rw [mapGet?_mapSet_self]
        simp
      | none =>
        rw [mapGet?_mapSet_self]
        simp
    · rw [if_neg hkm]
      unfold dupStep
      cases hg : mapGet? g (extractPackageName m.name) with
      | some l => rw [mapGet?_mapSet_ne _ _ _ _ hkm]
      | none => rw [mapGet?_mapSet_ne _ _ _ _ hkm]

theorem dupGroups_get (ms : List ModuleInfo) (k : String) :
    mapGet? (dupGroups ms) k =
      if groupOf ms k = [] then none else some (groupOf ms k) := by
  unfold dupGroups
  rw [dupGroups_aux_get]
  rfl

theorem dupRaw_mem_aux (gs : List (String × List ModuleInfo))
    (acc : List DuplicateDependency) (d : DuplicateDependency) :
    (d ∈ gs.foldl
        (fun acc kg => if 1 < kg.2.length then acc ++ [mkReportOf kg.2 kg.1] else acc) acc) ↔
      d ∈ acc ∨ ∃ kg ∈ gs, 1 < kg.2.length ∧ d = mkReportOf kg.2 kg.1 := by
  induction gs generalizing acc with
  | nil => simp
  | cons kg rest ih =>
    simp only [List.foldl_cons]
    rw [ih]
    by_cases h : 1 < kg.2.length
    · simp only [if_pos h, List.mem_append, List.mem_singleton]
      constructor
      · rintro ((hd | hd) | ⟨kg', hkg', hlen', hd⟩)
        · exact Or.inl hd
        · exact Or.inr ⟨kg, List.mem_cons_self _ _, h, hd⟩
        · exact Or.inr ⟨kg', List.mem_cons_of_mem _ hkg', hlen', hd⟩
      · rintro (hd | ⟨kg', hkg', hlen', hd⟩)
        · exact Or.inl (Or.inl hd)
        · rcases List.mem_cons.mp hkg' with h' | h'
          · subst h'
            exact Or.inl (Or.inr hd)
          · exact Or.inr ⟨kg', h', hlen', hd⟩
    · simp only [if_neg h]
      constructor
      · rintro (hd | ⟨kg', hkg', hlen', hd⟩)
        · exact Or.inl hd
        · exact Or.inr ⟨kg', List.mem_cons_of_mem _ hkg', hlen', hd⟩
      · rintro (hd | ⟨kg', hkg', hlen', hd⟩)
        · exact Or.inl hd
        · rcases List.mem_cons.mp hkg' with h' | h'
          · subst h'
            exact absurd hlen' h
          · exact Or.inr ⟨kg', h', hlen', hd⟩

/-- C5 (counterexample) — Two modules with the same name `"a"`, whose paths
carry two *different* package identities and versions, produce one report with
a single extracted version `"unknown"`: the detector groups by the identity
extracted from `name` (not `path`) and reports any group with two or more
members, not only groups with more than one distinct version. -/
theorem dup_report_without_version_conflict :
    dupAnalyze [⟨"1", "a", 10, some "node_modules/p@1.0.0/i", []⟩,
        ⟨"2", "a", 20, some "node_modules/q@2.0.0/i", []⟩] =
      [{ name := "a", versions := ["unknown"],
         locations := ["node_modules/p@1.0.0/i", "node_modules/q@2.0.0/i"],
         totalSize := 30 }] ∧
      extractPackageName "node_modules/p@1.0.0/i" ≠
        extractPackageName "node_modules/q@2.0.0/i" := by
  constructor
  · decide
  · decide

/-- C5 (amended) — `DuplicateDetector.analyze` reports a package-identity
group (keyed by the identity extracted from the module **name**) iff the group
has more than one member, regardless of how many distinct versions it has;
each report carries the distinct extracted versions, the locations
(`path || name`), and `totalSize` equal to the sum of the sizes of all modules
of the group. -/
theorem dup_report_iff (ms : List ModuleInfo) (d : DuplicateDependency) :
    d ∈ dupAnalyze ms ↔
      1 < (groupOf ms d.name).length ∧ d = mkReportOf (groupOf ms d.name) d.name := by
  unfold dupAnalyze
  by_cases hempty : ms.isEmpty = true
  · rw [List.isEmpty_iff] at hempty
    subst hempty
    simp [groupOf]
  · rw [if_neg hempty]
    rw [(List.perm_insertionSort dupGE (dupReportsRaw ms)).mem_iff]
    unfold dupReportsRaw
    rw [dupRaw_mem_aux]
    simp only [List.not_mem_nil, false_or]
    constructor
    · rintro ⟨⟨k, gr⟩, hmem, hlen, hd⟩
      have hnd : (mapKeys (dupGroups ms)).Nodup :=
        dupGroups_aux_keys_nodup ms [] (by simp [mapKeys])
      have hget : mapGet? (dupGroups ms) k = some gr :=
        mapGet?_eq_some_of_mem hnd hmem
      rw [dupGroups_get] at hget
      by_cases hgo : groupOf ms k = []
      · rw [if_pos hgo] at hget
        exact absurd hget (by simp)
      · rw [if_neg hgo] at hget
        have hgr : gr = groupOf ms k := by
          injection hget with h
          exact h.symm
        subst hgr
        have hname : d.name = k := by rw [hd]; rfl
        rw [hname]
        exact ⟨hlen, hd⟩
    · rintro ⟨hlen, hd⟩
      have hgo : groupOf ms d.name ≠ [] := by
        intro h
        rw [h] at hlen
        simp at hlen
      have hget : mapGet? (dupGroups ms) d.name = some (groupOf ms d.name) := by
        rw [dupGroups_get, if_neg hgo]
      exact ⟨(d.name, groupOf ms d.name), mem_of_mapGet?_eq_some hget, hlen, hd⟩

/-- C9 — The duplicate-dependency reports are returned sorted by
non-increasing `totalSize` (the final `sort((a, b) => b.totalSize -
a.totalSize)`), not in the insertion order of the input modules. -/
theorem dup_reports_sorted (ms : List ModuleInfo) :
    List.Sorted dupGE (dupAnalyze ms) := by
  unfold dupAnalyze
  by_cases hempty : ms.isEmpty = true
  · simp [hempty]
  · rw [if_neg hempty]
    exact List.sorted_insertionSort dupGE _

/-! ### DependencyTreeBuilder (`src/analyzers/dependency/DependencyTreeBuilder.ts`)

`buildTree` copies the visited set per branch (`new Set(visited)`), which is
automatic with value semantics, and cuts recursion at `depth > 20`.  Since
every recursive call increases `depth` by one and the root calls start at
depth 0, a fuel of 22 is never exhausted; this is proved as
`buildTree_canon` (the result is fuel-independent above the bound). -/

structure DependencyTree where
  name : String
  id : String
  size : Option Int
  children : List DependencyTree
  depth : Nat

/-- Adjacency map of DependencyTreeBuilder (keys created on demand). -/
def treeAdj (edges : List DependencyEdge) : List (String × List String) :=
  edges.foldl
    (fun m e =>
      match mapGet? m e.source with
      | some l => mapSet m e.source (l ++ [e.target])
      | none => mapSet m e.source [e.target]) []

def buildTree :
    Nat → String → List DependencyNode → List (String × List String) →
      List String → Nat → Option DependencyTree
  | 0, _, _, _, _, _ => none
  | fuel + 1, nodeId, nodes, adj, visited, depth =>
    if 20 < depth ∨ nodeId ∈ visited then none
    else
      match nodes.find? (fun n => n.id = nodeId) with
      | none => none
      | some node =>
        some
          { name := node.name
            id := node.id
            size := node.size
            children := ((mapGet? adj nodeId).getD []).filterMap
              (fun c => buildTree fuel c nodes adj (addIfNew nodeId visited) (depth + 1))
            depth := depth }

/-- The top-level loop over the chosen roots: the visited set is shared
between the root calls (each completed call adds exactly its root id). -/
def treeRootsFold (fuel : Nat) (nodes : List DependencyNode)
    (adj : List (String × List String)) :
    List DependencyNode → List String → List DependencyTree → List DependencyTree
  | [], _, trees => trees
  | r :: rest, visited, trees =>
    match buildTree fuel r.id nodes adj visited 0 with
    | some t => treeRootsFold fuel nodes adj rest (addIfNew r.id visited) (trees ++ [t])
    | none => treeRootsFold fuel nodes adj rest visited trees

def treeAnalyzeF (fuel : Nat) (g : DependencyGraph) : List DependencyTree :=
  match g.nodes with
  | [] => []
  | n0 :: _ =>
    let hasIncomingEdge := g.edges.map (fun e => e.target)
    let roots := g.nodes.filter (fun n => !(hasIncomingEdge.contains n.id))
    let roots := if roots.isEmpty then [n0] else roots
    treeRootsFold fuel g.nodes (treeAdj g.edges) roots [] []

def treeAnalyze (g : DependencyGraph) : List DependencyTree :=
  treeAnalyzeF 22 g

mutual

def depthsLE (b : Nat) : DependencyTree → Bool
  | ⟨_, _, _, cs, d⟩ => decide (d ≤ b) && depthsLEList b cs

def depthsLEList (b : Nat) : List DependencyTree → Bool
  | [] => true
  | t :: r => depthsLE b t && depthsLEList b r

end

theorem depthsLEList_iff (b : Nat) (cs : List DependencyTree) :
    depthsLEList b cs = true ↔ ∀ t ∈ cs, depthsLE b t = true := by
  induction cs with
  | nil => simp [depthsLEList]
  | cons t r ih =>
    rw [depthsLEList, Bool.and_eq_true, ih]
    constructor
    · rintro ⟨h1, h2⟩ t' ht'
      rcases List.mem_cons.mp ht' with h | h
      · exact h ▸ h1
      · exact h2 t' h
    · intro h
      exact ⟨h t (List.mem_cons_self _ _), fun t' ht' => h t' (List.mem_cons_of_mem _ ht')⟩

/-- Above the structural bound 22 − depth, the fuel argument of `buildTree`
is irrelevant: the depth guard alone stops the recursion.  This is the
termination of `DependencyTreeBuilder.buildTree` expressed on the embedding. -/
theorem buildTree_canon (f : Nat) :
    ∀ nodeId nodes adj visited d, 21 - d < f →
      buildTree f nodeId nodes adj visited d = buildTree (22 - d) nodeId nodes adj visited d := by
  induction f using Nat.strong_induction_on with
  | _ f ih =>
    intro nodeId nodes adj visited d hf
    obtain ⟨g, rfl⟩ : ∃ g, f = g + 1 := ⟨f - 1, by omega⟩
    by_cases hd : 20 < d
    · rcases Nat.lt_or_ge d 22 with hd2 | hd2
      · have h1 : 22 - d = 1 := by omega
        rw [h1]
        simp [buildTree, hd]
      · have h0 : 22 - d = 0 := by omega
        rw [h0]
        simp [buildTree, hd]
    · push_neg at hd
      have h21 : 22 - d = (21 - d) + 1 := by omega
      rw [h21]
      simp only [buildTree]
      by_cases hv : nodeId ∈ visited
      · rw [if_pos (Or.inr hv), if_pos (Or.inr hv)]
      · have hguard : ¬(20 < d ∨ nodeId ∈ visited) := by
          rintro (h | h)
          · omega
          · exact hv h
        rw [if_neg hguard, if_neg hguard]
        cases hfind : nodes.find? (fun n => n.id = nodeId) with
        | none => rfl
        | some node =>
          have hch :
              (fun c => buildTree g c nodes adj (addIfNew nodeId visited) (d + 1)) =
                (fun c => buildTree (21 - d) c nodes adj (addIfNew nodeId visited) (d + 1)) := by
            funext c
            have e1 : buildTree g c nodes adj (addIfNew nodeId visited) (d + 1) =
                buildTree (22 - (d + 1)) c nodes adj (addIfNew nodeId visited) (d + 1) :=
              ih g (by omega) c nodes adj (addIfNew nodeId visited) (d + 1) (by omega)
            rw [e1]
            congr 1
            omega
          rw [hch]

/-- Every tree emitted by `buildTree` keeps all of its depths at most 20. -/
theorem buildTree_depth (f : Nat) :
    ∀ nodeId nodes adj visited d t,
      buildTree f nodeId nodes adj visited d = some t → depthsLE 20 t = true := by
  induction f using Nat.strong_induction_on with
  | _ f ih =>
    intro nodeId nodes adj visited d t ht
    match f, ht with
    | g + 1, ht =>
      rw [buildTree] at ht
      by_cases hguard : 20 < d ∨ nodeId ∈ visited
      · rw [if_pos hguard] at ht
        exact absurd ht (by simp)
      · rw [if_neg hguard] at ht
        cases hfind : nodes.find? (fun n => n.id = nodeId) with
        | none =>
          rw [hfind] at ht
          exact absurd ht (by simp)
        | some node =>
          rw [hfind] at ht
          have hd : d ≤ 20 := by
            rcases Nat.lt_or_ge 20 d with h | h
            · exact absurd (Or.inl h) hguard
            · exact h
          injection ht with ht
          subst ht
          rw [depthsLE, Bool.and_eq_true]
          refine ⟨by simpa using hd, ?_⟩
          rw [depthsLEList_iff]
          intro t' ht'
          rcases List.mem_filterMap.mp ht' with ⟨c, _, hc⟩
          exact ih g (Nat.lt_succ_self g) c nodes adj (addIfNew nodeId visited) (d + 1) t' hc

theorem treeRootsFold_canon {fuel : Nat} (hf : 22 ≤ fuel) (nodes : List DependencyNode)
    (adj : List (String × List String)) (roots : List DependencyNode) :
    ∀ visited trees,
      treeRootsFold fuel nodes adj roots visited trees =
        treeRootsFold 22 nodes adj roots visited trees := by
  induction roots with
  | nil => intro visited trees; rfl
  | cons r rest ih =>
    intro visited trees
    rw [treeRootsFold, treeRootsFold,
      buildTree_canon fuel r.id nodes adj visited 0 (by omega)]
    have h22 : (22 : Nat) - 0 = 22 := rfl
    rw [h22]
    cases buildTree 22 r.id nodes adj visited 0 with
    | some t => exact ih _ _
    | none => exact ih _ _

theorem treeRootsFold_depth (fuel : Nat) (nodes : List DependencyNode)
    (adj : List (String × List String)) (roots : List DependencyNode) :
    ∀ visited trees, (∀ t ∈ trees, depthsLE 20 t = true) →
      ∀ t ∈ treeRootsFold fuel nodes adj roots visited trees, depthsLE 20 t = true := by
  induction roots with
  | nil => intro visited trees h; exact h
  | cons r rest ih =>
    intro visited trees h
    rw [treeRootsFold]
    cases hb : buildTree fuel r.id nodes adj visited 0 with
    | some t =>
      refine ih _ _ ?_
      intro t' ht'
      rcases List.mem_append.mp ht' with h' | h'
      · exact h t' h'
      · rw [List.mem_singleton] at h'
        subst h'
        exact buildTree_depth fuel r.id nodes adj visited 0 t' hb
    | none => exact ih _ _ h

/-- C7 — `DependencyTreeBuilder` terminates on every graph, cyclic ones
included: above the structural bound the fuel is irrelevant (first conjunct,
the depth guard alone stops recursion), and every node of every emitted tree
has depth at most 20 (second conjunct). -/
theorem tree_builder_bounded (g : DependencyGraph) (fuel : Nat) (hfuel : 22 ≤ fuel) :
    treeAnalyzeF fuel g = treeAnalyze g ∧
      ∀ t ∈ treeAnalyzeF fuel g, depthsLE 20 t = true := by
  constructor
  · unfold treeAnalyze treeAnalyzeF
    cases g.nodes with
    | nil => rfl
    | cons n0 rest => exact treeRootsFold_canon hfuel _ _ _ _ _
  · unfold treeAnalyzeF
    cases g.nodes with
    | nil => simp
    | cons n0 rest =>
      exact treeRootsFold_depth fuel _ _ _ _ _ (by simp)

/-- Witness for C7 at a fully cyclic two-node graph with fuel 23. -/
theorem tree_builder_bounded_witness :
    treeAnalyzeF 23
        { nodes := [⟨"a", "a", none, .module⟩, ⟨"b", "b", none, .module⟩]
          edges := [⟨"a", "b"⟩, ⟨"b", "a"⟩]
          circular := [], duplicates := [], versionConflicts := [] } =
      treeAnalyze
        { nodes := [⟨"a", "a", none, .module⟩, ⟨"b", "b", none, .module⟩]
          edges := [⟨"a", "b"⟩, ⟨"b", "a"⟩]
          circular := [], duplicates := [], versionConflicts := [] } ∧
      ∀ t ∈ treeAnalyzeF 23
        { nodes := [⟨"a", "a", none, .module⟩, ⟨"b", "b", none, .module⟩]
          edges := [⟨"a", "b"⟩, ⟨"b", "a"⟩]
          circular := [], duplicates := [], versionConflicts := [] },
        depthsLE 20 t = true :=
  tree_builder_bounded _ 23 (by omega)

/-! ### Graph utilities (`src/utils/graphUtils.ts`) -/

structure GraphNode where
  id : String
deriving DecidableEq

structure GraphEdge where
  source : String
  target : String
deriving DecidableEq

structure Graph where
  nodes : List GraphNode
  edges : List GraphEdge
deriving DecidableEq

def idList (g : Graph) : List String :=
  g.nodes.map (fun n => n.id)

/-- Adjacency map built on demand (`if (!adjacency.has(src)) set(src, [])`). -/
def adjBuild (edges : List GraphEdge) : List (String × List String) :=
  edges.foldl
    (fun m e =>
      match mapGet? m e.source with
      | some l => mapSet m e.source (l ++ [e.target])
      | none => mapSet m e.source [e.target]) []

/-- `adjacency.get(node) || []`. -/
def adjGetD (adj : List (String × List String)) (k : String) : List String :=
  (mapGet? adj k).getD []

def posOf? : List String → String → Option Nat
  | [], _ => none
  | x :: r, y => if x = y then some 0 else (posOf? r y).map (· + 1)

/-! #### detectCycles -/

structure DetSt where
  visited : List String
  recStack : List String
  cycles : List (List String)
deriving DecidableEq

/-- One neighbour of the `detectCycles` DFS, when it is already visited:
emit a cycle when it also sits on the recursion stack and occurs in `path`. -/
def detVisitedStep (path : List String) (st : DetSt) (nb : String) : DetSt :=
  if nb ∈ st.recStack then
    match posOf? path nb with
    | some j => { st with cycles := st.cycles ++ [path.drop j ++ [nb]] }
    | none => st
  else st

def dfsD (adj : List (String × List String)) :
    Nat → String → List String → DetSt → DetSt
  | 0, _, _, st => st
  | f + 1, node, path, st =>
    let st1 : DetSt :=
      { st with visited := addIfNew node st.visited
                recStack := addIfNew node st.recStack }
    let st2 := (adjGetD adj node).foldl
      (fun st nb =>
        if nb ∈ st.visited then detVisitedStep (path ++ [node]) st nb
        else dfsD adj f nb (path ++ [node]) st) st1
    { st2 with recStack := st2.recStack.erase node }

def detFuel (g : Graph) : Nat :=
  g.nodes.length + g.edges.length + 1

def detectRun (g : Graph) : DetSt :=
  g.nodes.foldl
    (fun st n =>
      if n.id ∈ st.visited then st
      else dfsD (adjBuild g.edges) (detFuel g) n.id [] st)
    ⟨[], [], []⟩

def detectCyclesRun (g : Graph) : List (List String) :=
  (detectRun g).cycles

/-! #### CircularDependencyDetector
(`src/analyzers/dependency/CircularDependencyDetector.ts`) -/

def mkCirc (cycle : List String) : CircularDependency :=
  { cycle := cycle, severity := if 5 < cycle.length then .error else .warning }

def circAnalyze (dg : DependencyGraph) : List CircularDependency :=
  if dg.nodes.isEmpty then []
  else
    (detectCyclesRun
        ⟨dg.nodes.map (fun n => ⟨n.id⟩), dg.edges.map (fun e => ⟨e.source, e.target⟩)⟩).map
      mkCirc

/-! #### findStronglyConnectedComponents -/

def sccInit (nodes : List GraphNode) : List (String × List String) :=
  nodes.foldl (fun m n => mapSet m n.id []) []

/-- One edge of the Kosaraju build: `adjacency.get(e.source)!.push(e.target)`
then `reverseAdjacency.get(e.target)!.push(e.source)`; a missing key throws. -/
def sccAddEdge (st : List (String × List String) × List (String × List String))
    (e : GraphEdge) :
    Option (List (String × List String) × List (String × List String)) :=
  match mapGet? st.1 e.source with
  | none => none
  | some l =>
    match mapGet? st.2 e.target with
    | none => none
    | some r =>
      some (mapSet st.1 e.source (l ++ [e.target]), mapSet st.2 e.target (r ++ [e.source]))

def sccBuild : List GraphEdge →
    List (String × List String) × List (String × List String) →
    Option (List (String × List String) × List (String × List String))
  | [], st => some st
  | e :: rest, st =>
    match sccAddEdge st e with
    | some st' => sccBuild rest st'
    | none => none

def dfs1 (adj : List (String × List String)) :
    Nat → String → List String × List String → List String × List String
  | 0, _, vs => vs
  | f + 1, node, vs =>
    let vs2 := (adjGetD adj node).foldl
      (fun vs nb => if nb ∈ vs.1 then vs else dfs1 adj f nb vs)
      (addIfNew node vs.1, vs.2)
    (vs2.1, vs2.2 ++ [node])

def dfs2 (radj : List (String × List String)) :
    Nat → String → List String × List String → List String × List String
  | 0, _, vc => vc
  | f + 1, node, vc =>
    (adjGetD radj node).foldl
      (fun vc nb => if nb ∈ vc.1 then vc else dfs2 radj f nb vc)
      (addIfNew node vc.1, vc.2 ++ [node])

/-- The second Kosaraju pass: pop the stack (the argument is the reversed
stack), run `dfs2` on still-unvisited nodes, keep components of size > 1. -/
def pass2 (radj : List (String × List String)) (fuel : Nat) :
    List String → List String → List (List String) → List (List String)
  | [], _, comps => comps
  | n :: rest, visited, comps =>
    if n ∈ visited then pass2 radj fuel rest visited comps
    else
      let vc := dfs2 radj fuel n (visited, [])
      pass2 radj fuel rest vc.1 (if 1 < vc.2.length then comps ++ [vc.2] else comps)

def sccFuel (g : Graph) : Nat :=
  g.nodes.length + 1

def findSCCE (g : Graph) : Option (List (List String)) :=
  match sccBuild g.edges (sccInit g.nodes, sccInit g.nodes) with
  | none => none
  | some (adj, radj) =>
    let vs := g.nodes.foldl
      (fun vs n => if n.id ∈ vs.1 then vs else dfs1 adj (sccFuel g) n.id vs) ([], [])
    some (pass2 radj (sccFuel g) vs.2.reverse [] [])

/-! #### topologicalSort (Kahn's algorithm) -/

def kahnInitAdj (nodes : List GraphNode) : List (String × List String) :=
  nodes.foldl (fun m n => mapSet m n.id []) []

def kahnInitDeg (nodes : List GraphNode) : List (String × Int) :=
  nodes.foldl (fun m n => mapSet m n.id 0) []

/-- The edge loop: `adjacency.get(e.source)!.push(e.target)` (throws on a
missing source key) and `inDegree.set(e.target, (inDegree.get(e.target) || 0) + 1)`
(which creates the key when absent). -/
def kahnBuild : List GraphEdge →
    List (String × List String) × List (String × Int) →
    Option (List (String × List String) × List (String × Int))
  | [], st => some st
  | e :: rest, st =>
    match mapGet? st.1 e.source with
    | none => none
    | some l =>
      kahnBuild rest
        (mapSet st.1 e.source (l ++ [e.target]),
          mapSet st.2 e.target ((mapGet? st.2 e.target).getD 0 + 1))

/-- Decrement the in-degree of each neighbor, enqueueing those that reach 0;
`inDegree.get(neighbor)!` throws when the key is absent. -/
def decNbs : List String → List (String × Int) × List String →
    Option (List (String × Int) × List String)
  | [], st => some st
  | nb :: rest, (deg, queue) =>
    match mapGet? deg nb with
    | none => none
    | some dcur =>
      decNbs rest
        (mapSet deg nb (dcur - 1), if dcur - 1 = 0 then queue ++ [nb] else queue)

def kahnLoop (adj : List (String × List String)) :
    Nat → List (String × Int) → List String → List String → Option (List String)
  | 0, _, _, _ => none
  | fuel + 1, deg, queue, result =>
    match queue with
    | [] => some result
    | n :: rest =>
      match decNbs (adjGetD adj n) (deg, rest) with
      | none => none
      | some (deg', queue') => kahnLoop adj fuel deg' queue' (result ++ [n])

def kahnFuel (g : Graph) : Nat :=
  g.nodes.length + g.edges.length + 1

def topologicalSortE (g : Graph) : Option (Option (List String)) :=
  match kahnBuild g.edges (kahnInitAdj g.nodes, kahnInitDeg g.nodes) with
  | none => none
  | some (adj, deg) =>
    match kahnLoop adj (kahnFuel g) deg
        ((deg.filter (fun kv => decide (kv.2 = 0))).map (fun kv => kv.1)) [] with
    | none => none
    | some result =>
      some (if result.length = g.nodes.length then some result else none)

/-- C8 — Every cycle reported by `CircularDependencyDetector` has severity
`error` exactly when the emitted cycle array (which repeats the closing node)
is longer than 5, and `warning` otherwise. -/
theorem circ_severity_iff (dg : DependencyGraph) :
    ∀ c ∈ circAnalyze dg, (c.severity = Severity.error ↔ 5 < c.cycle.length) := by
  intro c hc
  unfold circAnalyze at hc
  by_cases he : dg.nodes.isEmpty = true
  · rw [if_pos he] at hc
    exact absurd hc (List.not_mem_nil c)
  · rw [if_neg he] at hc
    rcases List.mem_map.mp hc with ⟨cycle, _, rfl⟩
    unfold mkCirc
    by_cases h5 : 5 < cycle.length
    · simp [h5]
    · simp only [if_neg h5]
      constructor
      · intro h
        exact absurd h (by simp)
      · intro h
        exact absurd h h5

/-- A six-node cyclic dependency graph used as the C8 witness input. -/
def c8Graph : DependencyGraph :=
  { nodes := [⟨"a1", "a1", none, .module⟩, ⟨"a2", "a2", none, .module⟩,
      ⟨"a3", "a3", none, .module⟩, ⟨"a4", "a4", none, .module⟩,
      ⟨"a5", "a5", none, .module⟩, ⟨"a6", "a6", none, .module⟩]
    edges := [⟨"a1", "a2"⟩, ⟨"a2", "a3"⟩, ⟨"a3", "a4"⟩, ⟨"a4", "a5"⟩,
      ⟨"a5", "a6"⟩, ⟨"a6", "a1"⟩]
    circular := [], duplicates := [], versionConflicts := [] }

/-- Witness for C8: a six-node cycle produces one report whose emitted cycle
array has length 7, and the equivalence holds there. -/
theorem circ_severity_iff_witness :
    ∃ c ∈ circAnalyze c8Graph, (c.severity = Severity.error ↔ 5 < c.cycle.length) := by
  have h : mkCirc ["a1", "a2", "a3", "a4", "a5", "a6", "a1"] ∈ circAnalyze c8Graph := by
    decide
  exact ⟨_, h, circ_severity_iff c8Graph _ h⟩

/-- C2 (counterexample) — On the one-node graph with the single self-loop
edge `(a, a)`, `detectCycles` reports the cycle `[a, a]` while
`findStronglyConnectedComponents` reports no component (singleton components
are filtered by `component.length > 1`): a non-empty cycle list with an empty
SCC list, refuting the claimed equivalence and its `zero SCCs implies zero
cycles` direction. -/
theorem selfloop_cycle_without_scc :
    detectCyclesRun ⟨[⟨"a"⟩], [⟨"a", "a"⟩]⟩ = [["a", "a"]] ∧
      findSCCE ⟨[⟨"a"⟩], [⟨"a", "a"⟩]⟩ = some [] := by
  constructor
  · decide
  · decide

/-! ### Abstract graph notions used to state C1/C2/C10 -/

/-- `edgeRel g a b`: the graph has an edge from `a` to `b`. -/
def edgeRel (g : Graph) (a b : String) : Prop :=
  ∃ e ∈ g.edges, e.source = a ∧ e.target = b

/-- A graph is acyclic when no node reaches itself through a non-empty
walk (this counts self-loops as cycles). -/
def Acyclic (g : Graph) : Prop :=
  ∀ n, ¬ Relation.TransGen (edgeRel g) n n

/-- The GraphModel invariants of the specification: unique node ids, edge
endpoints referencing existing nodes, no duplicated `(source, target)` pair. -/
def ValidGraph (g : Graph) : Prop :=
  (idList g).Nodup ∧
    (∀ e ∈ g.edges, e.source ∈ idList g ∧ e.target ∈ idList g) ∧
    (g.edges.map (fun e => (e.source, e.target))).Nodup

def targetList (g : Graph) : List String :=
  g.edges.map (fun e => e.target)

/-- Denotation of the adjacency map: successors of `k` in edge order. -/
def adjF (g : Graph) (k : String) : List String :=
  (g.edges.filter (fun e => decide (e.source = k))).map (fun e => e.target)

def inCount (g : Graph) (k : String) : Nat :=
  g.edges.countP (fun e => decide (e.target = k))

def procCount (g : Graph) (result : List String) (k : String) : Nat :=
  g.edges.countP (fun e => decide (e.target = k) && decide (e.source ∈ result))

def cntFromTo (g : Graph) (n k : String) : Nat :=
  g.edges.countP (fun e => decide (e.source = n) && decide (e.target = k))

/-- `Array.prototype.indexOf` as a total function (length when absent). -/
def posOf : List String → String → Nat
  | [], _ => 0
  | a :: r, x => if a = x then 0 else posOf r x + 1

theorem posOf_append_mem (l l' : List String) (x : String) (h : x ∈ l) :
    posOf (l ++ l') x = posOf l x := by
  induction l with
  | nil => simp at h
  | cons a r ih =>
    by_cases ha : a = x
    · simp [posOf, ha]
    · rcases List.mem_cons.mp h with h' | h'
      · exact absurd h'.symm ha
      · simp [posOf, ha, ih h']

theorem posOf_append_self (l : List String) (x : String) (h : x ∉ l) :
    posOf (l ++ [x]) x = l.length := by
  induction l with
  | nil => simp [posOf]
  | cons a r ih =>
    have ha : a ≠ x := fun hax => h (hax ▸ List.mem_cons_self _ _)
    have h' : x ∉ r := fun hx => h (List.mem_cons_of_mem _ hx)
    simp [posOf, ha, ih h']

theorem posOf_lt_length (l : List String) (x : String) (h : x ∈ l) :
    posOf l x < l.length := by
  induction l with
  | nil => simp at h
  | cons a r ih =>
    by_cases ha : a = x
    · simp [posOf, ha]
    · rcases List.mem_cons.mp h with h' | h'
      · exact absurd h'.symm ha
      · simpa [posOf, ha] using ih h'

/-- In any list annotated with a strict-monotone position, transitive
reachability is position-increasing; used to turn a full topological order
into acyclicity. -/
theorem transGen_posOf_lt (g : Graph) (l : List String)
    (hresp : ∀ e ∈ g.edges, posOf l e.source < posOf l e.target) :
    ∀ a b, Relation.TransGen (edgeRel g) a b → posOf l a < posOf l b := by
  intro a b h
  induction h with
  | single h1 =>
    rcases h1 with ⟨e, he, hs, ht⟩
    exact hs ▸ ht ▸ hresp e he
  | tail _ h2 ih =>
    rcases h2 with ⟨e, he, hs, ht⟩
    exact lt_trans ih (hs ▸ ht ▸ hresp e he)

/-- Every member of a non-empty finite set with a predecessor inside the set
lies on a cycle-bearing chain: the graph restricted to `R` cannot be
well-founded, so some node reaches itself. -/
theorem cycle_of_all_pred {E : String → String → Prop} (R : List String) (hne : R ≠ [])
    (h : ∀ r ∈ R, ∃ r' ∈ R, E r' r) : ∃ x, Relation.TransGen E x x := by
  classical
  obtain ⟨r₀, hr₀⟩ : ∃ r, r ∈ R := by
    cases R with
    | nil => exact absurd rfl hne
    | cons a l => exact ⟨a, List.mem_cons_self _ _⟩
  have hex : ∀ r : String, ∃ r', r ∈ R → r' ∈ R ∧ E r' r := by
    intro r
    by_cases hr : r ∈ R
    · obtain ⟨r', hr', hE⟩ := h r hr
      exact ⟨r', fun _ => ⟨hr', hE⟩⟩
    · exact ⟨r₀, fun hc => absurd hc hr⟩
  choose f hf using hex
  set seq : Nat → String := fun n => f^[n] r₀ with hseq
  have hmem : ∀ n, seq n ∈ R := by
    intro n
    induction n with
    | zero => simpa [hseq] using hr₀
    | succ n ih =>
      have : seq (n + 1) = f (seq n) := by
        simp [hseq, Function.iterate_succ_apply']
      rw [this]
      exact (hf (seq n) ih).1
  have hstep : ∀ n, E (seq (n + 1)) (seq n) := by
    intro n
    have : seq (n + 1) = f (seq n) := by
      simp [hseq, Function.iterate_succ_apply']
    rw [this]
    exact (hf (seq n) (hmem n)).2
  have hchain : ∀ i j, i < j → Relation.TransGen E (seq j) (seq i) := by
    intro i j
    induction j with
    | zero => omega
    | succ j ih =>
      intro hij
      rcases Nat.lt_or_ge i j with h' | h'
      · exact (ih h').head (hstep j)
      · have : i = j := by omega
        subst this
        exact Relation.TransGen.single (hstep i)
  have hmaps : ∀ n ∈ Finset.range (R.length + 1), seq n ∈ R.toFinset := by
    intro n _
    simpa using hmem n
  have hcard : R.toFinset.card < (Finset.range (R.length + 1)).card := by
    rw [Finset.card_range]
    exact Nat.lt_succ_of_le (R.toFinset_card_le)
  obtain ⟨i, _, j, _, hij, heq⟩ :=
    Finset.exists_ne_map_eq_of_card_lt_of_maps_to hcard hmaps
  rcases Nat.lt_or_ge i j with h' | h'
  · exact ⟨seq i, heq ▸ hchain i j h'⟩
  · have h'' : j < i := by omega
    exact ⟨seq j, heq ▸ hchain j i h''⟩

/-! ### Characterisation of the Kahn build phase -/

theorem mem_mapKeys_iff {α : Type} (m : List (String × α)) (k : String) :
    k ∈ mapKeys m ↔ (mapGet? m k).isSome = true := by
  constructor
  · exact mapGet?_isSome_of_mem m k
  · intro h
    by_contra hk
    rw [mapGet?_eq_none_of_not_mem m k hk] at h
    simp at h

theorem mapKeys_mapSet_length {α : Type} (m : List (String × α)) (k : String) (v : α) :
    (mapKeys (mapSet m k v)).length ≤ (mapKeys m).length + 1 := by
  by_cases hk : k ∈ mapKeys m
  · rw [mapKeys_mapSet_mem m k v hk]
    omega
  · rw [mapKeys_mapSet_not_mem m k v hk]
    simp

theorem initFold_get {α : Type} (c : α) (nodes : List GraphNode)
    (m₀ : List (String × α)) (k : String) :
    mapGet? (nodes.foldl (fun m n => mapSet m n.id c) m₀) k =
      if k ∈ nodes.map (fun n => n.id) then some c else mapGet? m₀ k := by
  induction nodes generalizing m₀ with
  | nil => simp
  | cons n rest ih =>
    simp only [List.foldl_cons, List.map_cons]
    rw [ih]
    by_cases hrest : k ∈ rest.map (fun n => n.id)
    · rw [if_pos hrest, if_pos (List.mem_cons_of_mem _ hrest)]
    · rw [if_neg hrest]
      by_cases hn : n.id = k
      · have h1 : mapSet m₀ n.id c = mapSet m₀ k c := by rw [hn]
        rw [h1, mapGet?_mapSet_self, if_pos (List.mem_cons.mpr (Or.inl hn.symm))]
      · rw [mapGet?_mapSet_ne _ _ _ _ hn, if_neg]
        intro hc
        rcases List.mem_cons.mp hc with h | h
        · exact hn h.symm
        · exact hrest h

theorem initFold_keys_nodup {α : Type} (c : α) (nodes : List GraphNode)
    (m₀ : List (String × α)) (h : (mapKeys m₀).Nodup) :
    (mapKeys (nodes.foldl (fun m n => mapSet m n.id c) m₀)).Nodup := by
  induction nodes generalizing m₀ with
  | nil => exact h
  | cons n rest ih => exact ih _ (mapKeys_nodup_mapSet _ _ h)

def srcTargets (edges : List GraphEdge) (k : String) : List String :=
  (edges.filter (fun e => decide (e.source = k))).map (fun e => e.target)

theorem adjF_eq_srcTargets (g : Graph) (k : String) :
    adjF g k = srcTargets g.edges k := rfl

def tcount (edges : List GraphEdge) (k : String) : Nat :=
  edges.countP (fun e => decide (e.target = k))

theorem inCount_eq_tcount (g : Graph) (k : String) :
    inCount g k = tcount g.edges k := rfl

theorem kahnBuild_some (edges : List GraphEdge)
    (st : List (String × List String) × List (String × Int))
    (h : ∀ e ∈ edges, e.source ∈ mapKeys st.1) :
    ∃ st', kahnBuild edges st = some st' := by
  induction edges generalizing st with
  | nil => exact ⟨st, rfl⟩
  | cons e rest ih =>
    have hsrc : e.source ∈ mapKeys st.1 := h e (List.mem_cons_self _ _)
    obtain ⟨l, hl⟩ : ∃ l, mapGet? st.1 e.source = some l := by
      have hs := (mem_mapKeys_iff st.1 e.source).mp hsrc
      cases hg : mapGet? st.1 e.source with
      | some l => exact ⟨l, rfl⟩
      | none => rw [hg] at hs; simp at hs
    rw [kahnBuild, hl]
    refine ih _ ?_
    intro e' he'
    simp only
    rw [mapKeys_mapSet_mem _ _ _ hsrc]
    exact h e' (List.mem_cons_of_mem _ he')

theorem srcTargets_cons (e : GraphEdge) (rest : List GraphEdge) (k : String) :
    srcTargets (e :: rest) k =
      if e.source = k then e.target :: srcTargets rest k else srcTargets rest k := by
  unfold srcTargets
  by_cases h : e.source = k
  · simp [List.filter_cons, h]
  · simp [List.filter_cons, h]

theorem tcount_cons (e : GraphEdge) (rest : List GraphEdge) (k : String) :
    tcount (e :: rest) k =
      if e.target = k then tcount rest k + 1 else tcount rest k := by
  unfold tcount
  by_cases h : e.target = k
  · simp [List.countP_cons, h]
  · simp [List.countP_cons, h]

theorem kahnBuild_adjKeys (edges : List GraphEdge)
    (st : List (String × List String) × List (String × Int))
    (st' : List (String × List String) × List (String × Int))
    (h : kahnBuild edges st = some st') : mapKeys st'.1 = mapKeys st.1 := by
  induction edges generalizing st with
  | nil =>
    rw [kahnBuild] at h
    injection h with h
    rw [h]
  | cons e rest ih =>
    rw [kahnBuild] at h
    cases hget : mapGet? st.1 e.source with
    | none =>
      rw [hget] at h
      exact absurd h (by simp)
    | some l =>
      rw [hget] at h
      rw [ih _ h]
      exact mapKeys_mapSet_mem _ _ _ ((mem_mapKeys_iff _ _).mpr (by rw [hget]; rfl))

theorem kahnBuild_adjGet (edges : List GraphEdge)
    (st st' : List (String × List String) × List (String × Int))
    (h : kahnBuild edges st = some st') :
    ∀ k, mapGet? st'.1 k = (mapGet? st.1 k).map (fun l => l ++ srcTargets edges k) := by
  induction edges generalizing st with
  | nil =>
    rw [kahnBuild] at h
    injection h with h
    intro k
    rw [h]
    cases hm : mapGet? st'.1 k with
    | none => rfl
    | some l => simp [srcTargets]
  | cons e rest ih =>
    rw [kahnBuild] at h
    cases hget : mapGet? st.1 e.source with
    | none =>
      rw [hget] at h
      exact absurd h (by simp)
    | some l =>
      rw [hget] at h
      intro k
      rw [ih _ h k, srcTargets_cons]
      by_cases hk : e.source = k
      · have h1 : mapSet st.1 e.source (l ++ [e.target]) = mapSet st.1 k (l ++ [e.target]) := by
          rw [hk]
        simp only
        rw [h1, mapGet?_mapSet_self, if_pos hk]
        have h2 : mapGet? st.1 k = some l := by rw [← hk, hget]
        rw [h2]
        simp
      · simp only
        rw [mapGet?_mapSet_ne _ _ _ _ hk, if_neg hk]

theorem kahnBuild_degGet (edges : List GraphEdge)
    (st st' : List (String × List String) × List (String × Int))
    (h : kahnBuild edges st = some st') :
    ∀ k, mapGet? st'.2 k =
      match mapGet? st.2 k with
      | some d => some (d + (tcount edges k : Int))
      | none =>
        if tcount edges k = 0 then none else some ((tcount edges k : Int)) := by
  induction edges generalizing st with
  | nil =>
    rw [kahnBuild] at h
    injection h with h
    intro k
    rw [h]
    cases hm : mapGet? st'.2 k with
    | none => simp [tcount]
    | some d => simp [tcount]
  | cons e rest ih =>
    rw [kahnBuild] at h
    cases hget : mapGet? st.1 e.source with
    | none =>
      rw [hget] at h
      exact absurd h (by simp)
    | some l =>
      rw [hget] at h
      intro k
      rw [ih _ h k, tcount_cons]
      by_cases hk : e.target = k
      · have h1 : mapSet st.2 e.target ((mapGet? st.2 e.target).getD 0 + 1) =
            mapSet st.2 k ((mapGet? st.2 k).getD 0 + 1) := by rw [hk]
        simp only
        rw [h1, mapGet?_mapSet_self, if_pos hk]
        cases hd : mapGet? st.2 k with
        | some d =>
          simp only [hd, Option.getD_some]
          push_cast
          congr 1
          ring
        | none =>
          simp only [hd, Option.getD_none]
          rw [if_neg (by omega)]
          push_cast
          congr 1
          ring
      · simp only
        rw [mapGet?_mapSet_ne _ _ _ _ hk, if_neg hk]

theorem kahnBuild_degKeysNodup (edges : List GraphEdge)
    (st st' : List (String × List String) × List (String × Int))
    (h : kahnBuild edges st = some st') (hnd : (mapKeys st.2).Nodup) :
    (mapKeys st'.2).Nodup := by
  induction edges generalizing st with
  | nil =>
    rw [kahnBuild] at h
    injection h with h
    subst h
    exact hnd
  | cons e rest ih =>
    rw [kahnBuild] at h
    cases hget : mapGet? st.1 e.source with
    | none =>
      rw [hget] at h
      exact absurd h (by simp)
    | some l =>
      rw [hget] at h
      exact ih _ h (mapKeys_nodup_mapSet _ _ hnd)

theorem kahnBuild_degKeysLength (edges : List GraphEdge)
    (st st' : List (String × List String) × List (String × Int))
    (h : kahnBuild edges st = some st') :
    (mapKeys st'.2).length ≤ (mapKeys st.2).length + edges.length := by
  induction edges generalizing st with
  | nil =>
    rw [kahnBuild] at h
    injection h with h
    rw [h]
    simp
  | cons e rest ih =>
    rw [kahnBuild] at h
    cases hget : mapGet? st.1 e.source with
    | none =>
      rw [hget] at h
      exact absurd h (by simp)
    | some l =>
      rw [hget] at h
      have h1 := ih _ h
      have h2 := mapKeys_mapSet_length st.2 e.target ((mapGet? st.2 e.target).getD 0 + 1)
      simp only at h1
      simp only [List.length_cons]
      omega

/-! ### Counting lemmas for the in-degree bookkeeping -/

theorem procCount_nil (g : Graph) (k : String) : procCount g [] k = 0 := by
  unfold procCount
  induction g.edges with
  | nil => rfl
  | cons e rest ih => simp [List.countP_cons, ih]

theorem procCount_append (g : Graph) (result : List String) (n k : String)
    (hn : n ∉ result) :
    procCount g (result ++ [n]) k = procCount g result k + cntFromTo g n k := by
  unfold procCount cntFromTo
  induction g.edges with
  | nil => rfl
  | cons e rest ih =>
    rw [List.countP_cons, List.countP_cons, List.countP_cons, ih]
    have h1 : ((if (decide (e.target = k) && decide (e.source ∈ result ++ [n])) = true
          then 1 else 0) : Nat) =
        (if (decide (e.target = k) && decide (e.source ∈ result)) = true then 1 else 0) +
          (if (decide (e.source = n) && decide (e.target = k)) = true then 1 else 0) := by
      by_cases htk : e.target = k
      · by_cases hsn : e.source = n
        · have hsr : e.source ∉ result := fun hc => hn (hsn ▸ hc)
          have hin : e.source ∈ result ++ [n] := by simp [hsn]
          simp [htk, hsn, hsr, hin, hn]
        · by_cases hsr : e.source ∈ result
          · have hin : e.source ∈ result ++ [n] := List.mem_append_left _ hsr
            simp [htk, hsn, hsr, hin]
          · have hin : e.source ∉ result ++ [n] := by simp [hsr, hsn]
            simp [htk, hsn, hsr, hin]
      · simp [htk]
    omega

theorem countP_and_le {α : Type} (l : List α) (p q : α → Bool) :
    l.countP (fun a => p a && q a) ≤ l.countP p := by
  induction l with
  | nil => simp
  | cons a rest ih =>
    rw [List.countP_cons, List.countP_cons]
    have h1 : ((if (p a && q a) = true then 1 else 0) : Nat) ≤
        if p a = true then 1 else 0 := by
      by_cases hp : p a = true
      · by_cases hq : q a = true
        · simp [hp, hq]
        · simp [hp, hq]
      · simp [hp]
    omega

theorem procCount_le_inCount (g : Graph) (result : List String) (k : String) :
    procCount g result k ≤ inCount g k := by
  unfold procCount inCount
  have h := countP_and_le g.edges (fun e => decide (e.target = k))
    (fun e => decide (e.source ∈ result))
  exact h

theorem countP_and_eq_full {α : Type} (l : List α) (p q : α → Bool)
    (h : l.countP (fun a => p a && q a) = l.countP p) :
    ∀ a ∈ l, p a = true → q a = true := by
  induction l with
  | nil => simp
  | cons a rest ih =>
    rw [List.countP_cons, List.countP_cons] at h
    have hle := countP_and_le rest p q
    by_cases hp : p a = true
    · by_cases hq : q a = true
      · intro x hx hpx
        rcases List.mem_cons.mp hx with h' | h'
        · exact h' ▸ hq
        · have hrest : rest.countP (fun a => p a && q a) = rest.countP p := by
            simp only [hp, hq, Bool.and_self, if_pos rfl] at h
            omega
          exact ih hrest x h' hpx
      · exfalso
        have hA : ((if (p a && q a) = true then 1 else 0) : Nat) = 0 := by
          simp [hp, hq]
        have hB : ((if p a = true then 1 else 0) : Nat) = 1 := by
          simp [hp]
        omega
    · intro x hx hpx
      rcases List.mem_cons.mp hx with h' | h'
      · exact absurd (h' ▸ hpx) hp
      · have hA : ((if (p a && q a) = true then 1 else 0) : Nat) = 0 := by
          simp [hp]
        have hB : ((if p a = true then 1 else 0) : Nat) = 0 := by
          simp [hp]
        have hrest : rest.countP (fun a => p a && q a) = rest.countP p := by
          omega
        exact ih hrest x h' hpx

theorem count_srcTargets (edges : List GraphEdge) (n k : String) :
    (srcTargets edges n).count k =
      edges.countP (fun e => decide (e.source = n) && decide (e.target = k)) := by
  induction edges with
  | nil => rfl
  | cons e rest ih =>
    rw [srcTargets_cons, List.countP_cons]
    by_cases hs : e.source = n
    · rw [if_pos hs]
      by_cases ht : e.target = k
      · simp [List.count_cons, ih, hs, ht]
      · simp [List.count_cons, ih, hs, ht]
    · rw [if_neg hs, ih]
      simp [hs]

theorem mem_srcTargets (edges : List GraphEdge) (n k : String) :
    k ∈ srcTargets edges n ↔ ∃ e ∈ edges, e.source = n ∧ e.target = k := by
  unfold srcTargets
  constructor
  · intro h
    rcases List.mem_map.mp h with ⟨e, he, hk⟩
    rcases List.mem_filter.mp he with ⟨he', hs⟩
    exact ⟨e, he', by simpa using hs, hk⟩
  · rintro ⟨e, he, hs, ht⟩
    exact List.mem_map.mpr ⟨e, List.mem_filter.mpr ⟨he, by simpa using hs⟩, ht⟩

theorem tcount_pos_iff (edges : List GraphEdge) (k : String) :
    0 < tcount edges k ↔ k ∈ edges.map (fun e => e.target) := by
  unfold tcount
  rw [List.countP_pos_iff]
  constructor
  · rintro ⟨e, he, ht⟩
    exact List.mem_map.mpr ⟨e, he, by simpa using ht⟩
  · intro h
    rcases List.mem_map.mp h with ⟨e, he, ht⟩
    exact ⟨e, he, by simpa using ht⟩

/-! ### Characterisation of the neighbour-decrement step of Kahn's loop -/

theorem decNbs_spec :
    ∀ (nbs : List String) (deg : List (String × Int)) (queue : List String),
      (∀ k ∈ nbs, ∃ d, mapGet? deg k = some d ∧ (nbs.count k : Int) ≤ d) →
      ∃ deg' pushed,
        decNbs nbs (deg, queue) = some (deg', queue ++ pushed) ∧
          mapKeys deg' = mapKeys deg ∧
          (∀ k, mapGet? deg' k = (mapGet? deg k).map (fun d => d - (nbs.count k : Int))) ∧
          pushed.Nodup ∧
          (∀ k, k ∈ pushed ↔ (k ∈ nbs ∧ mapGet? deg k = some ((nbs.count k : Int)))) := by
  intro nbs
  induction nbs with
  | nil =>
    intro deg queue _
    refine ⟨deg, [], by simp [decNbs], rfl, ?_, List.nodup_nil, ?_⟩
    · intro k
      cases mapGet? deg k <;> simp
    · intro k
      simp
  | cons nb rest ih =>
    intro deg queue hkeys
    obtain ⟨d, hd, hcnt⟩ := hkeys nb (List.mem_cons_self _ _)
    have hcnt_cons : (nb :: rest).count nb = rest.count nb + 1 := by
      simp [List.count_cons]
    have hcnt' : ((rest.count nb : Int)) + 1 ≤ d := by
      rw [hcnt_cons] at hcnt
      push_cast at hcnt
      omega
    have hnbkeys : nb ∈ mapKeys deg := (mem_mapKeys_iff _ _).mpr (by rw [hd]; rfl)
    have hkeys₁ : mapKeys (mapSet deg nb (d - 1)) = mapKeys deg :=
      mapKeys_mapSet_mem _ _ _ hnbkeys
    have hget₁ : ∀ k, mapGet? (mapSet deg nb (d - 1)) k =
        if nb = k then some (d - 1) else mapGet? deg k := by
      intro k
      by_cases hk : nb = k
      · subst hk
        rw [mapGet?_mapSet_self, if_pos rfl]
      · rw [mapGet?_mapSet_ne _ _ _ _ hk, if_neg hk]
    have hcount_ne : ∀ k, nb ≠ k → (nb :: rest).count k = rest.count k := by
      intro k hk
      have hk' : (k = nb) ↔ False := ⟨fun h => hk h.symm, False.elim⟩
      simp [List.count_cons, hk']
    have hkeys' : ∀ k ∈ rest, ∃ d', mapGet? (mapSet deg nb (d - 1)) k = some d' ∧
        (rest.count k : Int) ≤ d' := by
      intro k hk
      by_cases hknb : nb = k
      · subst hknb
        exact ⟨d - 1, by rw [hget₁, if_pos rfl], by omega⟩
      · obtain ⟨d', hd', hc'⟩ := hkeys k (List.mem_cons_of_mem _ hk)
        refine ⟨d', by rw [hget₁, if_neg hknb]; exact hd', ?_⟩
        rwa [hcount_ne k hknb] at hc'
    have hstep : decNbs (nb :: rest) (deg, queue) =
        decNbs rest (mapSet deg nb (d - 1), if d - 1 = 0 then queue ++ [nb] else queue) := by
      rw [decNbs, hd]
    obtain ⟨deg', pushed', hrun, hkeysF, hgetF, hnodupF, hmemF⟩ :=
      ih (mapSet deg nb (d - 1)) (if d - 1 = 0 then queue ++ [nb] else queue) hkeys'
    by_cases hzero : d - 1 = 0
    · have hd1 : d = 1 := by omega
      have hrest0 : rest.count nb = 0 := by omega
      have hnbrest : nb ∉ rest := by
        rw [← List.count_pos_iff]
        omega
      refine ⟨deg', nb :: pushed', ?_, by rw [hkeysF, hkeys₁], ?_, ?_, ?_⟩
      · rw [hstep]
        rw [if_pos hzero] at hrun ⊢
        rw [hrun, List.append_assoc]
        rfl
      · intro k
        rw [hgetF k, hget₁ k]
        by_cases hk : nb = k
        · subst hk
          rw [if_pos rfl, hd]
          show some (d - 1 - (rest.count nb : Int)) = some (d - ((nb :: rest).count nb : Int))
          congr 1
          rw [hcnt_cons, hrest0]
          push_cast
          ring
        · rw [if_neg hk, hcount_ne k hk]
      · refine List.nodup_cons.mpr ⟨?_, hnodupF⟩
        intro hc
        exact hnbrest ((hmemF nb).mp hc).1
      · intro k
        by_cases hk : nb = k
        · subst hk
          have hRHS : mapGet? deg nb = some (((nb :: rest).count nb : Int)) := by
            rw [hd, hcnt_cons, hrest0, hd1]
            norm_num
          constructor
          · intro _
            exact ⟨List.mem_cons_self _ _, hRHS⟩
          · intro _
            exact List.mem_cons_self _ _
        · rw [List.mem_cons]
          constructor
          · rintro (h | h)
            · exact absurd h.symm hk
            · obtain ⟨hmem, hval⟩ := (hmemF k).mp h
              refine ⟨List.mem_cons_of_mem _ hmem, ?_⟩
              rw [hget₁ k, if_neg hk] at hval
              rwa [hcount_ne k hk]
          · rintro ⟨hmem, hval⟩
            rcases List.mem_cons.mp hmem with h | h
            · exact absurd h.symm hk
            · refine Or.inr ((hmemF k).mpr ⟨h, ?_⟩)
              rw [hget₁ k, if_neg hk]
              rwa [hcount_ne k hk] at hval
    · refine ⟨deg', pushed', ?_, by rw [hkeysF, hkeys₁], ?_, hnodupF, ?_⟩
      · rw [hstep]
        rw [if_neg hzero] at hrun ⊢
        exact hrun
      · intro k
        rw [hgetF k, hget₁ k]
        by_cases hk : nb = k
        · subst hk
          rw [if_pos rfl, hd]
          show some (d - 1 - (rest.count nb : Int)) = some (d - ((nb :: rest).count nb : Int))
          congr 1
          rw [hcnt_cons]
          push_cast
          ring
        · rw [if_neg hk, hcount_ne k hk]
      · intro k
        by_cases hk : nb = k
        · subst hk
          rw [hmemF nb]
          constructor
          · rintro ⟨hmem, hval⟩
            rw [hget₁ nb, if_pos rfl] at hval
            injection hval with hval
            refine ⟨List.mem_cons_self _ _, ?_⟩
            rw [hd, hcnt_cons]
            congr 1
            push_cast
            omega
          · rintro ⟨_, hval⟩
            rw [hd] at hval
            injection hval with hval
            rw [hcnt_cons] at hval
            push_cast at hval
            have hmem : nb ∈ rest := by
              rw [← List.count_pos_iff]
              omega
            refine ⟨hmem, ?_⟩
            rw [hget₁ nb, if_pos rfl]
            congr 1
            omega
        · rw [hmemF k]
          rw [hget₁ k, if_neg hk, hcount_ne k hk, List.mem_cons]
          constructor
          · rintro ⟨hmem, hval⟩
            exact ⟨Or.inr hmem, hval⟩
          · rintro ⟨hmem, hval⟩
            rcases hmem with h | h
            · exact absurd h.symm hk
            · exact ⟨h, hval⟩

/-! ### The Kahn loop invariant -/

structure KahnInv (g : Graph) (deg : List (String × Int))
    (queue result : List String) : Prop where
  keysNodup : (mapKeys deg).Nodup
  keysMem : ∀ k, k ∈ mapKeys deg ↔ k ∈ idList g ∨ k ∈ targetList g
  schedNodup : (result ++ queue).Nodup
  schedKeys : ∀ x ∈ result ++ queue, x ∈ mapKeys deg
  degSpec : ∀ k ∈ mapKeys deg,
    mapGet? deg k = some ((inCount g k : Int) - (procCount g result k : Int))
  queueZero : ∀ k ∈ queue, mapGet? deg k = some 0
  zeroSched : ∀ k ∈ mapKeys deg, mapGet? deg k = some 0 → k ∈ result ++ queue
  resultNonpos : ∀ k ∈ result, ∀ d, mapGet? deg k = some d → d ≤ 0
  ordOK : ∀ e ∈ g.edges, e.target ∈ result →
    e.source ∈ result ∧ posOf result e.source < posOf result e.target

theorem cntFromTo_eq_zero (g : Graph) (n k : String)
    (hsrc : ∀ e ∈ g.edges, e.source ∈ idList g) (hn : n ∉ idList g) :
    cntFromTo g n k = 0 := by
  unfold cntFromTo
  rw [List.countP_eq_zero]
  intro e he
  simp only [Bool.and_eq_true, decide_eq_true_eq, not_and]
  intro hs _
  exact hn (hs ▸ hsrc e he)

theorem count_nbs_eq_cntFromTo (g : Graph) (adj : List (String × List String))
    (hadj : ∀ k, adjGetD adj k = if k ∈ idList g then adjF g k else [])
    (hsrc : ∀ e ∈ g.edges, e.source ∈ idList g) (n k : String) :
    ((adjGetD adj n).count k : Nat) = cntFromTo g n k := by
  rw [hadj n]
  by_cases hn : n ∈ idList g
  · rw [if_pos hn, adjF_eq_srcTargets, count_srcTargets]
    rfl
  · rw [if_neg hn]
    rw [cntFromTo_eq_zero g n k hsrc hn]
    rfl

theorem nbs_subset_targets (g : Graph) (adj : List (String × List String))
    (hadj : ∀ k, adjGetD adj k = if k ∈ idList g then adjF g k else [])
    (n : String) : ∀ k ∈ adjGetD adj n, k ∈ targetList g := by
  rw [hadj n]
  by_cases hn : n ∈ idList g
  · rw [if_pos hn]
    intro k hk
    rw [adjF_eq_srcTargets, mem_srcTargets] at hk
    obtain ⟨e, he, _, ht⟩ := hk
    exact List.mem_map.mpr ⟨e, he, ht⟩
  · rw [if_neg hn]
    intro k hk
    exact absurd hk (List.not_mem_nil k)

/-- The full run of Kahn's queue loop: from any state satisfying the
invariant, with enough fuel, the loop completes with an empty queue and the
invariant transported to the final result list. -/
theorem kahnLoop_run (g : Graph) (adj : List (String × List String))
    (hadj : ∀ k, adjGetD adj k = if k ∈ idList g then adjF g k else [])
    (hsrc : ∀ e ∈ g.edges, e.source ∈ idList g) :
    ∀ (fuel : Nat) (deg : List (String × Int)) (queue result : List String),
      KahnInv g deg queue result →
      (mapKeys deg).length + 1 ≤ fuel + result.length →
      ∃ res deg', kahnLoop adj fuel deg queue result = some res ∧
        KahnInv g deg' [] res := by
  intro fuel
  induction fuel with
  | zero =>
    intro deg queue result hinv hfuel
    exfalso
    have h1 : result.Nodup := (List.nodup_append.mp hinv.schedNodup).1
    have h2 : result ⊆ mapKeys deg := fun x hx =>
      hinv.schedKeys x (List.mem_append_left _ hx)
    have h3 : result.length ≤ (mapKeys deg).length :=
      (List.subperm_of_subset h1 h2).length_le
    omega
  | succ fuel ih =>
    intro deg queue result hinv hfuel
    match queue with
    | [] =>
      exact ⟨result, deg, rfl, { hinv with
        schedNodup := hinv.schedNodup
        schedKeys := hinv.schedKeys }⟩
    | n :: rest =>
      have hnotresult : n ∉ result := by
        have h := hinv.schedNodup
        rw [List.nodup_append] at h
        exact fun hc => h.2.2 hc (List.mem_cons_self _ _)
      have hq0 : mapGet? deg n = some 0 := hinv.queueZero n (List.mem_cons_self _ _)
      have hnkeys : n ∈ mapKeys deg := (mem_mapKeys_iff _ _).mpr (by rw [hq0]; rfl)
      have hprocfull : procCount g result n = inCount g n := by
        have hds := hinv.degSpec n hnkeys
        rw [hq0] at hds
        injection hds with hds
        have hle := procCount_le_inCount g result n
        omega
      -- the decNbs precondition
      have hdechyp : ∀ k ∈ adjGetD adj n, ∃ d, mapGet? deg k = some d ∧
          ((adjGetD adj n).count k : Int) ≤ d := by
        intro k hk
        have hkt : k ∈ targetList g := nbs_subset_targets g adj hadj n k hk
        have hkkeys : k ∈ mapKeys deg := (hinv.keysMem k).mpr (Or.inr hkt)
        refine ⟨(inCount g k : Int) - (procCount g result k : Int),
          hinv.degSpec k hkkeys, ?_⟩
        have hcnt : ((adjGetD adj n).count k : Nat) = cntFromTo g n k :=
          count_nbs_eq_cntFromTo g adj hadj hsrc n k
        have hsum : procCount g result k + cntFromTo g n k ≤ inCount g k := by
          rw [← procCount_append g result n k hnotresult]
          exact procCount_le_inCount g (result ++ [n]) k
        omega
      obtain ⟨deg₁, pushed, hrun, hkeysEq, hgetF, hpushNodup, hpushMem⟩ :=
        decNbs_spec (adjGetD adj n) deg rest hdechyp
      -- facts about pushed elements
      have hpushPos : ∀ k ∈ pushed, ∃ c : Nat, 1 ≤ c ∧
          mapGet? deg k = some (c : Int) ∧ (adjGetD adj n).count k = c := by
        intro k hk
        obtain ⟨hknbs, hkval⟩ := (hpushMem k).mp hk
        exact ⟨(adjGetD adj n).count k, List.count_pos_iff.mpr hknbs, hkval, rfl⟩
      have hpushFresh : ∀ k ∈ pushed, k ∉ result ∧ k ≠ n ∧ k ∉ rest := by
        intro k hk
        obtain ⟨c, hc1, hcval, _⟩ := hpushPos k hk
        refine ⟨?_, ?_, ?_⟩
        · intro hc
          have := hinv.resultNonpos k hc _ hcval
          omega
        · intro hc
          subst hc
          rw [hq0] at hcval
          injection hcval with hcval
          omega
        · intro hc
          have := hinv.queueZero k (List.mem_cons_of_mem _ hc)
          rw [this] at hcval
          injection hcval with hcval
          omega
      -- count of neighbours is zero on old queue members
      have hrestCnt : ∀ k ∈ rest, (adjGetD adj n).count k = 0 := by
        intro k hk
        by_cases hknbs : k ∈ adjGetD adj n
        · obtain ⟨d, hd, hcd⟩ := hdechyp k hknbs
          have hz := hinv.queueZero k (List.mem_cons_of_mem _ hk)
          rw [hz] at hd
          injection hd with hd
          have := List.count_pos_iff.mpr hknbs
          omega
        · exact List.count_eq_zero.mpr hknbs
      -- the new invariant
      have hinv' : KahnInv g deg₁ (rest ++ pushed) (result ++ [n]) := by
        refine ⟨?_, ?_, ?_, ?_, ?_, ?_, ?_, ?_, ?_⟩
        · rw [hkeysEq]
          exact hinv.keysNodup
        · intro k
          rw [hkeysEq]
          exact hinv.keysMem k
        · -- Nodup of (result ++ [n]) ++ (rest ++ pushed)
          have hold : ((result ++ [n]) ++ rest).Nodup := by
            have h := hinv.schedNodup
            rwa [List.append_cons] at h
          rw [List.append_assoc] at hold ⊢
          rw [List.nodup_append] at hold ⊢
          refine ⟨hold.1, ?_, ?_⟩
          · rw [List.nodup_append]
            have hrest : ([n] ++ rest).Nodup := hold.2.1
            rw [List.nodup_append] at hrest
            refine ⟨hrest.1, ?_, ?_⟩
            · rw [List.nodup_append]
              refine ⟨hrest.2.1, hpushNodup, ?_⟩
              intro a ha hb
              exact (hpushFresh a hb).2.2 ha
            · intro a ha hb
              rw [List.mem_singleton] at ha
              subst ha
              rcases List.mem_append.mp hb with h' | h'
              · exact hrest.2.2 (List.mem_singleton_self _) h'
              · exact (hpushFresh a h').2.1 rfl
          · intro a ha hb
            rcases List.mem_append.mp hb with h' | h'
            · exact hold.2.2 ha (List.mem_append_left _ h')
            · rcases List.mem_append.mp h' with h'' | h''
              · exact hold.2.2 ha (List.mem_append_right _ h'')
              · exact (hpushFresh a h'').1 ha
        · intro x hx
          rw [hkeysEq]
          rcases List.mem_append.mp hx with h' | h'
          · rcases List.mem_append.mp h' with h'' | h''
            · exact hinv.schedKeys x (List.mem_append_left _ h'')
            · rw [List.mem_singleton] at h''
              subst h''
              exact hnkeys
          · rcases List.mem_append.mp h' with h'' | h''
            · exact hinv.schedKeys x (List.mem_append_right _ (List.mem_cons_of_mem _ h''))
            · obtain ⟨hknbs, _⟩ := (hpushMem x).mp h''
              exact (hinv.keysMem x).mpr (Or.inr (nbs_subset_targets g adj hadj n x hknbs))
        · intro k hk
          rw [hkeysEq] at hk
          rw [hgetF k, hinv.degSpec k hk]
          simp only [Option.map]
          congr 1
          rw [procCount_append g result n k hnotresult]
          have hcnt : ((adjGetD adj n).count k : Nat) = cntFromTo g n k :=
            count_nbs_eq_cntFromTo g adj hadj hsrc n k
          push_cast
          omega
        · intro k hk
          rcases List.mem_append.mp hk with h' | h'
          · have hz := hinv.queueZero k (List.mem_cons_of_mem _ h')
            rw [hgetF k, hz]
            simp only [Option.map]
            rw [hrestCnt k h']
            norm_num
          · obtain ⟨c, hc1, hcval, hccnt⟩ := hpushPos k h'
            rw [hgetF k, hcval]
            simp only [Option.map]
            rw [hccnt]
            norm_num
        · intro k hk hk0
          rw [hkeysEq] at hk
          rw [hgetF k] at hk0
          have hds := hinv.degSpec k hk
          rw [hds] at hk0
          simp only [Option.map] at hk0
          injection hk0 with hk0
          by_cases hcz : (adjGetD adj n).count k = 0
          · rw [hcz] at hk0
            have : mapGet? deg k = some 0 := by
              rw [hds]
              norm_num at hk0 ⊢
              omega
            have hsched := hinv.zeroSched k hk this
            rcases List.mem_append.mp hsched with h' | h'
            · exact List.mem_append_left _ (List.mem_append_left _ h')
            · rcases List.mem_cons.mp h' with h'' | h''
              · subst h''
                exact List.mem_append_left _ (List.mem_append_right _ (List.mem_singleton_self _))
              · exact List.mem_append_right _ (List.mem_append_left _ h'')
          · have hknbs : k ∈ adjGetD adj n := by
              rw [← List.count_pos_iff]
              omega
            have : mapGet? deg k = some (((adjGetD adj n).count k : Int)) := by
              rw [hds]
              congr 1
              omega
            exact List.mem_append_right _
              (List.mem_append_right _ ((hpushMem k).mpr ⟨hknbs, this⟩))
        · intro k hk d hd
          rw [hgetF k] at hd
          rcases List.mem_append.mp hk with h' | h'
          · cases hdk : mapGet? deg k with
            | none =>
              rw [hdk] at hd
              exact absurd hd (by simp)
            | some dk =>
              rw [hdk] at hd
              simp only [Option.map] at hd
              injection hd with hd
              have := hinv.resultNonpos k h' dk hdk
              omega
          · rw [List.mem_singleton] at h'
            subst h'
            rw [hq0] at hd
            simp only [Option.map] at hd
            injection hd with hd
            omega
        · intro e he htgt
          rcases List.mem_append.mp htgt with h' | h'
          · obtain ⟨hsrc', hpos⟩ := hinv.ordOK e he h'
            refine ⟨List.mem_append_left _ hsrc', ?_⟩
            rw [posOf_append_mem _ _ _ hsrc', posOf_append_mem _ _ _ h']
            exact hpos
          · rw [List.mem_singleton] at h'
            have hfull := countP_and_eq_full g.edges
              (fun e => decide (e.target = n)) (fun e => decide (e.source ∈ result))
              hprocfull
            have hsrcin : e.source ∈ result := by
              have := hfull e he (by simp [h'])
              simpa using this
            refine ⟨List.mem_append_left _ hsrcin, ?_⟩
            rw [posOf_append_mem _ _ _ hsrcin, h', posOf_append_self _ _ hnotresult]
            exact posOf_lt_length _ _ hsrcin
      -- run the loop one step and recurse
      have hkeysLen : (mapKeys deg₁).length = (mapKeys deg).length := by
        rw [hkeysEq]
      obtain ⟨res, deg', hloop, hfinal⟩ := ih deg₁ (rest ++ pushed) (result ++ [n]) hinv'
        (by rw [hkeysLen]; rw [List.length_append, List.length_singleton]; omega)
      refine ⟨res, deg', ?_, hfinal⟩
      rw [kahnLoop, hrun]
      exact hloop

/-! ### Initial state of Kahn's algorithm -/

theorem initFold_keys_length {α : Type} (c : α) (nodes : List GraphNode)
    (m₀ : List (String × α)) :
    (mapKeys (nodes.foldl (fun m n => mapSet m n.id c) m₀)).length ≤
      (mapKeys m₀).length + nodes.length := by
  induction nodes generalizing m₀ with
  | nil => simp
  | cons n rest ih =>
    have h1 := ih (mapSet m₀ n.id c)
    have h2 := mapKeys_mapSet_length m₀ n.id c
    simp only [List.foldl_cons, List.length_cons]
    omega

theorem countP_and_eq_of_imp {α : Type} (l : List α) (p q : α → Bool)
    (h : ∀ a ∈ l, p a = true → q a = true) :
    l.countP (fun a => p a && q a) = l.countP p := by
  induction l with
  | nil => rfl
  | cons a rest ih =>
    rw [List.countP_cons, List.countP_cons,
      ih (fun x hx => h x (List.mem_cons_of_mem _ hx))]
    by_cases hp : p a = true
    · rw [h a (List.mem_cons_self _ _) hp]
      simp [hp]
    · simp [hp]

theorem kahn_initial (g : Graph) (hsrc : ∀ e ∈ g.edges, e.source ∈ idList g) :
    ∃ adj deg,
      kahnBuild g.edges (kahnInitAdj g.nodes, kahnInitDeg g.nodes) = some (adj, deg) ∧
        (∀ k, adjGetD adj k = if k ∈ idList g then adjF g k else []) ∧
        KahnInv g deg ((deg.filter (fun kv => decide (kv.2 = 0))).map (fun kv => kv.1)) [] ∧
        (mapKeys deg).length + 1 ≤ kahnFuel g := by
  have hinitA : ∀ k, mapGet? (kahnInitAdj g.nodes) k =
      if k ∈ idList g then some [] else none := fun k => initFold_get [] g.nodes [] k
  have hinitD : ∀ k, mapGet? (kahnInitDeg g.nodes) k =
      if k ∈ idList g then some 0 else none := fun k => initFold_get 0 g.nodes [] k
  have hkeysA : ∀ e ∈ g.edges, e.source ∈ mapKeys (kahnInitAdj g.nodes) := by
    intro e he
    rw [mem_mapKeys_iff, hinitA, if_pos (hsrc e he)]
    rfl
  obtain ⟨⟨adj, deg⟩, hbuild⟩ :=
    kahnBuild_some g.edges (kahnInitAdj g.nodes, kahnInitDeg g.nodes) hkeysA
  have hadjD : ∀ k, adjGetD adj k = if k ∈ idList g then adjF g k else [] := by
    intro k
    unfold adjGetD
    have h := kahnBuild_adjGet g.edges _ _ hbuild k
    simp only at h
    rw [h, hinitA]
    by_cases hk : k ∈ idList g
    · rw [if_pos hk, if_pos hk]
      simp [adjF_eq_srcTargets]
    · rw [if_neg hk, if_neg hk]
      rfl
  have hdegGet : ∀ k, mapGet? deg k =
      match (if k ∈ idList g then some (0 : Int) else none) with
      | some d => some (d + (tcount g.edges k : Int))
      | none => if tcount g.edges k = 0 then none
          else some ((tcount g.edges k : Int)) := by
    intro k
    have h := kahnBuild_degGet g.edges _ _ hbuild k
    simp only at h
    rw [h, hinitD]
  have hdegSome : ∀ k, k ∈ mapKeys deg →
      mapGet? deg k = some ((inCount g k : Int)) := by
    intro k hk
    rw [mem_mapKeys_iff] at hk
    rw [hdegGet] at hk ⊢
    by_cases hid : k ∈ idList g
    · rw [if_pos hid] at hk ⊢
      rw [inCount_eq_tcount]
      norm_num
    · rw [if_neg hid] at hk ⊢
      by_cases ht : tcount g.edges k = 0
      · rw [if_pos ht] at hk
        simp at hk
      · rw [if_neg ht] at hk ⊢
        rw [inCount_eq_tcount]
  have hkeysMem : ∀ k, k ∈ mapKeys deg ↔ k ∈ idList g ∨ k ∈ targetList g := by
    intro k
    rw [mem_mapKeys_iff, hdegGet]
    by_cases hid : k ∈ idList g
    · rw [if_pos hid]
      simp [hid]
    · rw [if_neg hid]
      by_cases ht : tcount g.edges k = 0
      · rw [if_pos ht]
        constructor
        · intro h
          simp at h
        · intro h
          rcases h with h | h
          · exact absurd h hid
          · have hpos : 0 < tcount g.edges k := (tcount_pos_iff g.edges k).mpr h
            omega
      · rw [if_neg ht]
        constructor
        · intro _
          exact Or.inr ((tcount_pos_iff g.edges k).mp (by omega))
        · intro _
          rfl
  have hkeysNodup : (mapKeys deg).Nodup :=
    kahnBuild_degKeysNodup g.edges _ _ hbuild
      (initFold_keys_nodup 0 g.nodes [] (by simp [mapKeys]))
  have hqueue : ∀ k, k ∈ (deg.filter (fun kv => decide (kv.2 = 0))).map
      (fun kv => kv.1) ↔ (k, (0 : Int)) ∈ deg := by
    intro k
    constructor
    · intro h
      rcases List.mem_map.mp h with ⟨kv, hkv, hk1⟩
      rcases List.mem_filter.mp hkv with ⟨hmem, hval⟩
      simp only [decide_eq_true_eq] at hval
      obtain ⟨k', v⟩ := kv
      simp only at hk1 hval
      subst hk1
      subst hval
      exact hmem
    · intro h
      exact List.mem_map.mpr ⟨(k, 0), List.mem_filter.mpr ⟨h, by simp⟩, rfl⟩
  refine ⟨adj, deg, hbuild, hadjD, ⟨hkeysNodup, hkeysMem, ?_, ?_, ?_, ?_, ?_, ?_, ?_⟩, ?_⟩
  · -- nodup of [] ++ queue
    rw [List.nil_append]
    have hsub : ((deg.filter (fun kv => decide (kv.2 = 0))).map (fun kv => kv.1)).Sublist
        (mapKeys deg) := (List.filter_sublist deg).map (fun kv => kv.1)
    exact hkeysNodup.sublist hsub
  · intro x hx
    rw [List.nil_append] at hx
    have h := (hqueue x).mp hx
    exact (mem_mapKeys_iff _ _).mpr (by rw [mapGet?_eq_some_of_mem hkeysNodup h]; rfl)
  · intro k hk
    rw [hdegSome k hk]
    rw [procCount_nil]
    norm_num
  · intro k hk
    exact mapGet?_eq_some_of_mem hkeysNodup ((hqueue k).mp hk)
  · intro k hk h0
    rw [List.nil_append]
    exact (hqueue k).mpr (mem_of_mapGet?_eq_some h0)
  · intro k hk
    exact absurd hk (List.not_mem_nil k)
  · intro e he htgt
    exact absurd htgt (List.not_mem_nil _)
  · have h1 : (mapKeys deg).length ≤
        (mapKeys (kahnInitDeg g.nodes)).length + g.edges.length :=
      kahnBuild_degKeysLength g.edges _ _ hbuild
    have h2 : (mapKeys (kahnInitDeg g.nodes)).length ≤ g.nodes.length := by
      have h := initFold_keys_length (0 : Int) g.nodes []
      simp only [mapKeys, List.map_nil, List.length_nil, Nat.zero_add] at h
      exact h
    unfold kahnFuel
    omega

/-! ### C1 and C10 -/

theorem targets_subset_ids (g : Graph)
    (hends : ∀ e ∈ g.edges, e.source ∈ idList g ∧ e.target ∈ idList g) :
    ∀ k ∈ targetList g, k ∈ idList g := by
  intro k hk
  rcases List.mem_map.mp hk with ⟨e, he, ht⟩
  exact ht ▸ (hends e he).2

theorem topologicalSortE_eq (g : Graph)
    (hsrc : ∀ e ∈ g.edges, e.source ∈ idList g) :
    ∃ res deg', topologicalSortE g =
        some (if res.length = g.nodes.length then some res else none) ∧
      KahnInv g deg' [] res := by
  obtain ⟨adj, deg, hbuild, hadjD, hinv₀, hfuel₀⟩ := kahn_initial g hsrc
  obtain ⟨res, deg', hloop, hfin⟩ := kahnLoop_run g adj hadjD hsrc (kahnFuel g) deg
    _ [] hinv₀ (by simpa using hfuel₀)
  refine ⟨res, deg', ?_, hfin⟩
  simp only [topologicalSortE, hbuild, hloop]

/-- C1 — Under the GraphModel invariants, `topologicalSort` returns a
non-null sequence listing every node id exactly once with every edge's source
preceding its target **iff** the graph is acyclic; on a cyclic graph it
returns `null` (modelled as `some none`), never a partial ordering. -/
theorem topologicalSort_iff_acyclic (g : Graph) (hv : ValidGraph g) :
    ((∃ l, topologicalSortE g = some (some l) ∧ l.Perm (idList g) ∧
        ∀ e ∈ g.edges, posOf l e.source < posOf l e.target) ↔ Acyclic g) ∧
      (topologicalSortE g = some none ↔ ¬Acyclic g) := by
  obtain ⟨hnd, hends, -⟩ := hv
  have hsrc : ∀ e ∈ g.edges, e.source ∈ idList g := fun e he => (hends e he).1
  obtain ⟨res, deg', htopo, hfin⟩ := topologicalSortE_eq g hsrc
  have hkeysPerm : (mapKeys deg').Perm (idList g) := by
    rw [List.perm_ext_iff_of_nodup hfin.keysNodup hnd]
    intro k
    rw [hfin.keysMem k]
    constructor
    · rintro (h | h)
      · exact h
      · exact targets_subset_ids g hends k h
    · exact Or.inl
  have hkeysLen : (mapKeys deg').length = g.nodes.length := by
    rw [hkeysPerm.length_eq]
    exact List.length_map _ _
  have hresNodup : res.Nodup := by
    have h := hfin.schedNodup
    rwa [List.append_nil] at h
  have hresSub : res ⊆ mapKeys deg' := by
    intro x hx
    exact hfin.schedKeys x (by rwa [List.append_nil])
  by_cases hlen : res.length = g.nodes.length
  · -- complete run: a full topological order was produced
    rw [if_pos hlen] at htopo
    have hresPerm : res.Perm (idList g) := by
      refine ((List.subperm_of_subset hresNodup hresSub).perm_of_length_le ?_).trans
        hkeysPerm
      omega
    have hresp : ∀ e ∈ g.edges, posOf res e.source < posOf res e.target := by
      intro e he
      have htgt : e.target ∈ res := hresPerm.mem_iff.mpr (hends e he).2
      exact (hfin.ordOK e he htgt).2
    have hacyc : Acyclic g := by
      intro n hcyc
      exact lt_irrefl _ (transGen_posOf_lt g res hresp n n hcyc)
    constructor
    · exact ⟨fun _ => hacyc, fun _ => ⟨res, htopo, hresPerm, hresp⟩⟩
    · constructor
      · intro h
        rw [htopo] at h
        injection h with h
        exact absurd h (by simp)
      · intro h
        exact absurd hacyc h
  · -- incomplete run: the graph is cyclic and the code returns null
    rw [if_neg hlen] at htopo
    have hmiss : ∃ k, k ∈ mapKeys deg' ∧ k ∉ res := by
      by_contra h
      push_neg at h
      have hsub2 : mapKeys deg' ⊆ res := fun k hk => h k hk
      have h1 := (List.subperm_of_subset hfin.keysNodup hsub2).length_le
      have h2 := (List.subperm_of_subset hresNodup hresSub).length_le
      omega
    have hRmem : ∀ k, (k ∈ (mapKeys deg').filter (fun k => decide (k ∉ res))) ↔
        (k ∈ mapKeys deg' ∧ k ∉ res) := by
      intro k
      rw [List.mem_filter]
      simp
    have hRne : (mapKeys deg').filter (fun k => decide (k ∉ res)) ≠ [] := by
      obtain ⟨k, hk1, hk2⟩ := hmiss
      exact List.ne_nil_of_mem ((hRmem k).mpr ⟨hk1, hk2⟩)
    have hpred : ∀ r ∈ (mapKeys deg').filter (fun k => decide (k ∉ res)),
        ∃ r' ∈ (mapKeys deg').filter (fun k => decide (k ∉ res)), edgeRel g r' r := by
      intro r hr
      obtain ⟨hrkeys, hrres⟩ := (hRmem r).mp hr
      have hval := hfin.degSpec r hrkeys
      have hne0 : mapGet? deg' r ≠ some 0 := by
        intro h0
        have := hfin.zeroSched r hrkeys h0
        rw [List.append_nil] at this
        exact hrres this
      have hlt : procCount g res r < inCount g r := by
        have hle := procCount_le_inCount g res r
        rcases Nat.lt_or_ge (procCount g res r) (inCount g r) with h | h
        · exact h
        · exfalso
          have heq : procCount g res r = inCount g r := by omega
          apply hne0
          rw [hval, heq]
          norm_num
      obtain ⟨e, he, htgt, hsrcout⟩ :
          ∃ e ∈ g.edges, e.target = r ∧ e.source ∉ res := by
        by_contra h
        push_neg at h
        have himp : ∀ e ∈ g.edges, decide (e.target = r) = true →
            decide (e.source ∈ res) = true := by
          intro e he hd
          simp only [decide_eq_true_eq] at hd ⊢
          exact h e he hd
        have := countP_and_eq_of_imp g.edges _ _ himp
        unfold procCount inCount at hlt
        omega
      refine ⟨e.source, (hRmem e.source).mpr ⟨?_, hsrcout⟩, e, he, rfl, htgt⟩
      exact (hfin.keysMem e.source).mpr (Or.inl (hsrc e he))
    obtain ⟨x, hx⟩ := @cycle_of_all_pred (edgeRel g) _ hRne hpred
    have hncyc : ¬Acyclic g := fun hac => hac x hx
    constructor
    · constructor
      · rintro ⟨l, hl, -, -⟩
        rw [htopo] at hl
        injection hl with hl
        exact absurd hl.symm (by simp)
      · intro h
        exact absurd h hncyc
    · exact ⟨fun _ => hncyc, fun _ => htopo⟩

/-- Witness for C1: on a concrete valid acyclic two-node chain the theorem
yields acyclicity from the computed non-null ordering. -/
theorem topologicalSort_iff_acyclic_witness :
    Acyclic ⟨[⟨"u"⟩, ⟨"v"⟩], [⟨"u", "v"⟩]⟩ := by
  have h := topologicalSort_iff_acyclic ⟨[⟨"u"⟩, ⟨"v"⟩], [⟨"u", "v"⟩]⟩
    (by refine ⟨?_, ?_, ?_⟩ <;> decide)
  by_contra hc
  have h2 := h.2.mpr hc
  rw [show topologicalSortE ⟨[⟨"u"⟩, ⟨"v"⟩], [⟨"u", "v"⟩]⟩ =
      some (some ["u", "v"]) from by decide] at h2
  exact absurd h2 (by simp)

theorem sccBuild_some (edges : List GraphEdge)
    (st : List (String × List String) × List (String × List String))
    (h : ∀ e ∈ edges, e.source ∈ mapKeys st.1 ∧ e.target ∈ mapKeys st.2) :
    ∃ st', sccBuild edges st = some st' := by
  induction edges generalizing st with
  | nil => exact ⟨st, rfl⟩
  | cons e rest ih =>
    obtain ⟨hs, ht⟩ := h e (List.mem_cons_self _ _)
    obtain ⟨l, hl⟩ : ∃ l, mapGet? st.1 e.source = some l := by
      have h1 := (mem_mapKeys_iff st.1 e.source).mp hs
      cases hg : mapGet? st.1 e.source with
      | some l => exact ⟨l, rfl⟩
      | none => rw [hg] at h1; simp at h1
    obtain ⟨r, hrr⟩ : ∃ r, mapGet? st.2 e.target = some r := by
      have h1 := (mem_mapKeys_iff st.2 e.target).mp ht
      cases hg : mapGet? st.2 e.target with
      | some r => exact ⟨r, rfl⟩
      | none => rw [hg] at h1; simp at h1
    rw [sccBuild, sccAddEdge, hl, hrr]
    refine ih _ ?_
    intro e' he'
    simp only
    rw [mapKeys_mapSet_mem _ _ _ hs, mapKeys_mapSet_mem _ _ _ ht]
    exact h e' (List.mem_cons_of_mem _ he')

/-- C10 — When every edge endpoint is the id of some node, neither
`topologicalSort` nor `findStronglyConnectedComponents` ever reaches the
error branch of its unguarded `adjacency.get(...)!` accesses: both embeddings
return a value (`isSome`).  The precondition is needed because those accesses
assert non-null without a guard. -/
theorem unguarded_accesses_safe (g : Graph)
    (hends : ∀ e ∈ g.edges, e.source ∈ idList g ∧ e.target ∈ idList g) :
    (topologicalSortE g).isSome = true ∧ (findSCCE g).isSome = true := by
  constructor
  · obtain ⟨res, deg', htopo, -⟩ :=
      topologicalSortE_eq g (fun e he => (hends e he).1)
    rw [htopo]
    rfl
  · have hkeys : ∀ k, k ∈ mapKeys (sccInit g.nodes) ↔ k ∈ idList g := by
      intro k
      rw [mem_mapKeys_iff]
      have h := initFold_get ([] : List String) g.nodes [] k
      unfold sccInit
      rw [h]
      unfold idList
      by_cases hk : k ∈ List.map (fun n => n.id) g.nodes
      · rw [if_pos hk]
        simp [hk]
      · rw [if_neg hk]
        simp [hk, mapGet?]
    obtain ⟨st', hst'⟩ := sccBuild_some g.edges (sccInit g.nodes, sccInit g.nodes)
      (by
        intro e he
        constructor
        · exact (hkeys e.source).mpr (hends e he).1
        · exact (hkeys e.target).mpr (hends e he).2)
    unfold findSCCE
    rw [hst']
    obtain ⟨adj, radj⟩ := st'
    rfl

/-- Witness for C10 at a concrete two-node graph with one edge. -/
theorem unguarded_accesses_safe_witness :
    (topologicalSortE ⟨[⟨"p"⟩, ⟨"q"⟩], [⟨"p", "q"⟩]⟩).isSome = true ∧
      (findSCCE ⟨[⟨"p"⟩, ⟨"q"⟩], [⟨"p", "q"⟩]⟩).isSome = true :=
  unguarded_accesses_safe ⟨[⟨"p"⟩, ⟨"q"⟩], [⟨"p", "q"⟩]⟩ (by decide)

/-! ### Small lemmas shared by the DFS correctness proofs (C2) -/

theorem mem_addIfNew (x y : String) (s : List String) :
    y ∈ addIfNew x s ↔ y ∈ s ∨ y = x := by
  unfold addIfNew
  by_cases hx : x ∈ s
  · rw [if_pos hx]
    constructor
    · exact Or.inl
    · rintro (h | h)
      · exact h
      · exact h ▸ hx
  · rw [if_neg hx]
    simp

theorem addIfNew_not_mem (x : String) (s : List String) (h : x ∉ s) :
    addIfNew x s = s ++ [x] := by
  unfold addIfNew
  rw [if_neg h]

theorem erase_append_singleton (s : List String) (x : String) (h : x ∉ s) :
    (s ++ [x]).erase x = s := by
  induction s with
  | nil => simp
  | cons a r ih =>
    have ha : a ≠ x := fun hc => h (hc ▸ List.mem_cons_self _ _)
    have h' : x ∉ r := fun hc => h (List.mem_cons_of_mem _ hc)
    rw [List.cons_append, List.erase_cons_tail, ih h']
    simp [ha]

def unvisCount (univ vis : List String) : Nat :=
  univ.countP (fun x => !(decide (x ∈ vis)))

theorem unvisCount_mono (univ vis vis' : List String) (h : ∀ x ∈ vis, x ∈ vis') :
    unvisCount univ vis' ≤ unvisCount univ vis := by
  unfold unvisCount
  induction univ with
  | nil => simp
  | cons a r ih =>
    rw [List.countP_cons, List.countP_cons]
    have h1 : ((if (!(decide (a ∈ vis'))) = true then 1 else 0) : Nat) ≤
        (if (!(decide (a ∈ vis))) = true then 1 else 0) := by
      by_cases ha : a ∈ vis
      · simp [ha, h a ha]
      · by_cases ha' : a ∈ vis'
        · simp [ha, ha']
        · simp [ha, ha']
    omega

theorem unvisCount_strict (univ vis vis' : List String) (x : String)
    (hx : x ∈ univ) (hxv : x ∉ vis) (hxv' : x ∈ vis') (h : ∀ y ∈ vis, y ∈ vis') :
    unvisCount univ vis' < unvisCount univ vis := by
  unfold unvisCount
  induction univ with
  | nil => simp at hx
  | cons a r ih =>
    rw [List.countP_cons, List.countP_cons]
    have hmono : r.countP (fun y => !(decide (y ∈ vis'))) ≤
        r.countP (fun y => !(decide (y ∈ vis))) := by
      have hm := unvisCount_mono r vis vis' h
      unfold unvisCount at hm
      exact hm
    rcases List.mem_cons.mp hx with h' | h'
    · subst h'
      have h1 : ((if (!(decide (x ∈ vis'))) = true then 1 else 0) : Nat) = 0 := by
        simp [hxv']
      have h2 : ((if (!(decide (x ∈ vis))) = true then 1 else 0) : Nat) = 1 := by
        simp [hxv]
      omega
    · have hlt := ih h'
      have h1 : ((if (!(decide (a ∈ vis'))) = true then 1 else 0) : Nat) ≤
          (if (!(decide (a ∈ vis))) = true then 1 else 0) := by
        by_cases ha : a ∈ vis
        · simp [ha, h a ha]
        · by_cases ha' : a ∈ vis'
          · simp [ha, ha']
          · simp [ha, ha']
      omega

theorem posOf?_isSome_of_mem (l : List String) (x : String) (h : x ∈ l) :
    ∃ j, posOf? l x = some j := by
  induction l with
  | nil => simp at h
  | cons a r ih =>
    by_cases ha : a = x
    · exact ⟨0, by simp [posOf?, ha]⟩
    · rcases List.mem_cons.mp h with h' | h'
      · exact absurd h'.symm ha
      · obtain ⟨j, hj⟩ := ih h'
        exact ⟨j + 1, by simp [posOf?, ha, hj]⟩

theorem posOf_append_not_mem (l l' : List String) (x : String) (h : x ∉ l) :
    posOf (l ++ l') x = l.length + posOf l' x := by
  induction l with
  | nil => simp
  | cons a r ih =>
    have ha : a ≠ x := fun hc => h (hc ▸ List.mem_cons_self _ _)
    have h' : x ∉ r := fun hc => h (List.mem_cons_of_mem _ hc)
    simp [posOf, ha, ih h']
    omega

theorem posOf_reverse (l : List String) (hnd : l.Nodup) (x : String) (hx : x ∈ l) :
    posOf l.reverse x = l.length - 1 - posOf l x := by
  induction l with
  | nil => simp at hx
  | cons a r ih =>
    rw [List.reverse_cons]
    rcases List.mem_cons.mp hx with h' | h'
    · subst h'
      have har : x ∉ r := (List.nodup_cons.mp hnd).1
      have harr : x ∉ r.reverse := by
        rwa [List.mem_reverse]
      rw [posOf_append_self _ _ harr]
      simp [posOf, List.length_reverse]
    · have ha : a ≠ x := by
        intro hc
        subst hc
        exact (List.nodup_cons.mp hnd).1 h'
      have hxr : x ∈ r.reverse := by
        rwa [List.mem_reverse]
      rw [posOf_append_mem _ _ _ hxr, ih (List.nodup_cons.mp hnd).2 h']
      have hlt := posOf_lt_length r x h'
      rw [show posOf (a :: r) x = posOf r x + 1 from by simp [posOf, ha],
        List.length_cons]
      omega

/-- Positions strictly decrease along reachability when every edge's target
precedes its source in `l`. -/
theorem transGen_posOf_gt (g : Graph) (l : List String)
    (hresp : ∀ e ∈ g.edges, posOf l e.target < posOf l e.source) :
    ∀ a b, Relation.TransGen (edgeRel g) a b → posOf l b < posOf l a := by
  intro a b h
  induction h with
  | single h1 =>
    rcases h1 with ⟨e, he, hs, ht⟩
    exact hs ▸ ht ▸ hresp e he
  | tail _ h2 ih =>
    rcases h2 with ⟨e, he, hs, ht⟩
    exact lt_trans (hs ▸ ht ▸ hresp e he) ih

/-! ### Adjacency characterisation for detectCycles -/

theorem adjBuild_aux_get (edges : List GraphEdge)
    (m : List (String × List String)) (k : String) :
    mapGet? (edges.foldl
      (fun m e =>
        match mapGet? m e.source with
        | some l => mapSet m e.source (l ++ [e.target])
        | none => mapSet m e.source [e.target]) m) k =
      match mapGet? m k with
      | some l => some (l ++ srcTargets edges k)
      | none => if srcTargets edges k = [] then none else some (srcTargets edges k) := by
  induction edges generalizing m with
  | nil =>
    simp only [List.foldl_nil]
    cases h : mapGet? m k with
    | some l => simp [srcTargets]
    | none => simp [srcTargets]
  | cons e rest ih =>
    simp only [List.foldl_cons]
    rw [ih, srcTargets_cons]
    by_cases hkm : e.source = k
    · rw [if_pos hkm]
      cases hg : mapGet? m k with
      | some l =>
        have h1 : mapGet? m e.source = some l := by rw [hkm, hg]
        simp only [h1]
        have h2 : mapSet m e.source (l ++ [e.target]) = mapSet m k (l ++ [e.target]) := by
          rw [hkm]
        rw [h2, mapGet?_mapSet_self]
        simp [hkm]
      | none =>
        have h1 : mapGet? m e.source = none := by rw [hkm, hg]
        simp only [h1]
        have h2 : mapSet m e.source [e.target] = mapSet m k [e.target] := by
          rw [hkm]
        rw [h2, mapGet?_mapSet_self]
        simp [hkm]
    · rw [if_neg hkm]
      cases hg : mapGet? m e.source with
      | some l =>
        simp only [hg]
        rw [mapGet?_mapSet_ne _ _ _ _ hkm]
      | none =>
        simp only [hg]
        rw [mapGet?_mapSet_ne _ _ _ _ hkm]

theorem adjBuild_getD (edges : List GraphEdge) (k : String) :
    adjGetD (adjBuild edges) k = srcTargets edges k := by
  unfold adjGetD adjBuild
  rw [adjBuild_aux_get]
  simp only [mapGet?]
  by_cases h : srcTargets edges k = []
  · rw [if_pos h, h]
    rfl
  · rw [if_neg h]
    rfl

def detUniv (g : Graph) : List String :=
  idList g ++ targetList g

theorem adjBuild_targets_univ (g : Graph) (n x : String)
    (hx : x ∈ adjGetD (adjBuild g.edges) n) : x ∈ detUniv g := by
  rw [adjBuild_getD] at hx
  rcases (mem_srcTargets g.edges n x).mp hx with ⟨e, he, _, ht⟩
  exact List.mem_append_right _ (List.mem_map.mpr ⟨e, he, ht⟩)

/-- Finish-order soundness: every edge leaving a finished node points to an
earlier-finished node. -/
def POrdF (g : Graph) (F : List String) : Prop :=
  ∀ e ∈ g.edges, e.source ∈ F → e.target ∈ F ∧ posOf F e.target < posOf F e.source

/-- The invariant tying a `detectCycles` DFS state to its ghost finish
order `F`. -/
def DetInv (g : Graph) (st : DetSt) (F : List String) : Prop :=
  (∀ x, x ∈ st.visited ↔ (x ∈ F ∨ x ∈ st.recStack)) ∧
    F.Nodup ∧ (∀ x ∈ F, x ∉ st.recStack) ∧ POrdF g F ∧
    (∀ x ∈ st.visited, x ∈ detUniv g)

/-- Basic well-formedness of a `detectCycles` DFS state. -/
def DetBasic (g : Graph) (st : DetSt) : Prop :=
  st.recStack.Nodup ∧ (∀ x ∈ st.recStack, x ∈ st.visited) ∧
    (∀ x ∈ st.visited, x ∈ detUniv g)

theorem detVisitedStep_state (p : List String) (st : DetSt) (nb : String) :
    (detVisitedStep p st nb).recStack = st.recStack ∧
      (detVisitedStep p st nb).visited = st.visited ∧
      st.cycles <+: (detVisitedStep p st nb).cycles := by
  unfold detVisitedStep
  by_cases h : nb ∈ st.recStack
  · rw [if_pos h]
    cases posOf? p nb with
    | some j => exact ⟨rfl, rfl, List.prefix_append _ _⟩
    | none => exact ⟨rfl, rfl, List.prefix_refl _⟩
  · rw [if_neg h]
    exact ⟨rfl, rfl, List.prefix_refl _⟩

theorem dfsD_basic (g : Graph) : ∀ fuel : Nat,
    (∀ (node : String) (path : List String) (st : DetSt),
      unvisCount (detUniv g) st.visited < fuel →
      node ∉ st.visited → node ∈ detUniv g → DetBasic g st →
      ((dfsD (adjBuild g.edges) fuel node path st).recStack = st.recStack ∧
        (∀ x ∈ st.visited, x ∈ (dfsD (adjBuild g.edges) fuel node path st).visited) ∧
        node ∈ (dfsD (adjBuild g.edges) fuel node path st).visited ∧
        DetBasic g (dfsD (adjBuild g.edges) fuel node path st) ∧
        st.cycles <+: (dfsD (adjBuild g.edges) fuel node path st).cycles)) ∧
    (∀ (nbs : List String) (p : List String) (st : DetSt),
      (∀ nb ∈ nbs, nb ∈ detUniv g) →
      unvisCount (detUniv g) st.visited < fuel → DetBasic g st →
      ((nbs.foldl (fun st nb => if nb ∈ st.visited then detVisitedStep p st nb
          else dfsD (adjBuild g.edges) fuel nb p st) st).recStack = st.recStack ∧
        (∀ x ∈ st.visited, x ∈ (nbs.foldl (fun st nb => if nb ∈ st.visited then
          detVisitedStep p st nb else dfsD (adjBuild g.edges) fuel nb p st) st).visited) ∧
        (∀ nb ∈ nbs, nb ∈ (nbs.foldl (fun st nb => if nb ∈ st.visited then
          detVisitedStep p st nb else dfsD (adjBuild g.edges) fuel nb p st) st).visited) ∧
        DetBasic g (nbs.foldl (fun st nb => if nb ∈ st.visited then detVisitedStep p st nb
          else dfsD (adjBuild g.edges) fuel nb p st) st) ∧
        st.cycles <+: (nbs.foldl (fun st nb => if nb ∈ st.visited then detVisitedStep p st nb
          else dfsD (adjBuild g.edges) fuel nb p st) st).cycles)) := by
  intro fuel
  induction fuel with
  | zero =>
    constructor
    · intro node path st hfuel
      omega
    · intro nbs p st hU hfuel
      omega
  | succ f ih =>
    have hA : ∀ (node : String) (path : List String) (st : DetSt),
        unvisCount (detUniv g) st.visited < f + 1 →
        node ∉ st.visited → node ∈ detUniv g → DetBasic g st →
        ((dfsD (adjBuild g.edges) (f + 1) node path st).recStack = st.recStack ∧
          (∀ x ∈ st.visited, x ∈ (dfsD (adjBuild g.edges) (f + 1) node path st).visited) ∧
          node ∈ (dfsD (adjBuild g.edges) (f + 1) node path st).visited ∧
          DetBasic g (dfsD (adjBuild g.edges) (f + 1) node path st) ∧
          st.cycles <+: (dfsD (adjBuild g.edges) (f + 1) node path st).cycles) := by
      intro node path st hfuel hnode hnodeU hbasic
      obtain ⟨hrsnd, hrsvis, hvisU⟩ := hbasic
      have hnoderS : node ∉ st.recStack := fun hc => hnode (hrsvis node hc)
      simp only [dfsD]
      set st1 : DetSt := { st with visited := addIfNew node st.visited
                                   recStack := addIfNew node st.recStack } with hst1
      have hst1vis : ∀ x, x ∈ st1.visited ↔ x ∈ st.visited ∨ x = node := by
        intro x
        exact mem_addIfNew node x st.visited
      have hst1rs : st1.recStack = st.recStack ++ [node] := by
        rw [hst1]
        simp only
        exact addIfNew_not_mem node st.recStack hnoderS
      have hbasic1 : DetBasic g st1 := by
        refine ⟨?_, ?_, ?_⟩
        · rw [hst1rs, List.nodup_append]
          exact ⟨hrsnd, List.nodup_singleton node, by
            intro a ha hb
            rw [List.mem_singleton] at hb
            exact hnoderS (hb ▸ ha)⟩
        · intro x hx
          rw [hst1rs, List.mem_append] at hx
          rw [hst1vis]
          rcases hx with h | h
          · exact Or.inl (hrsvis x h)
          · rw [List.mem_singleton] at h
            exact Or.inr h
        · intro x hx
          rcases (hst1vis x).mp hx with h | h
          · exact hvisU x h
          · exact h ▸ hnodeU
      have hfuel1 : unvisCount (detUniv g) st1.visited < f := by
        have hstrict := unvisCount_strict (detUniv g) st.visited st1.visited node
          hnodeU hnode ((hst1vis node).mpr (Or.inr rfl))
          (fun y hy => (hst1vis y).mpr (Or.inl hy))
        omega
      have hnbU : ∀ nb ∈ adjGetD (adjBuild g.edges) node, nb ∈ detUniv g :=
        fun nb hnb => adjBuild_targets_univ g node nb hnb
      obtain ⟨hf1, hf2, hf3, hf4, hf5⟩ :=
        ih.2 (adjGetD (adjBuild g.edges) node) (path ++ [node]) st1 hnbU hfuel1 hbasic1
      refine ⟨?_, ?_, ?_, ?_, ?_⟩
      · rw [hf1, hst1rs]
        exact erase_append_singleton _ _ hnoderS
      · intro x hx
        exact hf2 x ((hst1vis x).mpr (Or.inl hx))
      · exact hf2 node ((hst1vis node).mpr (Or.inr rfl))
      · obtain ⟨hb1, hb2, hb3⟩ := hf4
        refine ⟨?_, ?_, ?_⟩
        · simp only
          rw [hf1, hst1rs]
          rw [erase_append_singleton _ _ hnoderS]
          exact hrsnd
        · intro x hx
          simp only at hx
          rw [hf1, hst1rs, erase_append_singleton _ _ hnoderS] at hx
          exact hf2 x ((hst1vis x).mpr (Or.inl (hrsvis x hx)))
        · exact hb3
      · exact hf5
    refine ⟨hA, ?_⟩
    intro nbs p st hU hfuel hbasic
    induction nbs generalizing st with
    | nil =>
      refine ⟨rfl, fun x hx => hx, ?_, hbasic, List.prefix_refl _⟩
      intro nb hnb
      exact absurd hnb (List.not_mem_nil nb)
    | cons nb rest ihn =>
      simp only [List.foldl_cons]
      by_cases hv : nb ∈ st.visited
      · rw [if_pos hv]
        obtain ⟨hd1, hd2, hd3⟩ := detVisitedStep_state p st nb
        have hbasic' : DetBasic g (detVisitedStep p st nb) := by
          obtain ⟨hb1, hb2, hb3⟩ := hbasic
          refine ⟨?_, ?_, ?_⟩
          · rw [hd1]; exact hb1
          · intro x hx
            rw [hd1] at hx
            rw [hd2]
            exact hb2 x hx
          · intro x hx
            rw [hd2] at hx
            exact hb3 x hx
        have hfuel' : unvisCount (detUniv g) (detVisitedStep p st nb).visited < f + 1 := by
          rw [hd2]
          exact hfuel
        obtain ⟨hr1, hr2, hr3, hr4, hr5⟩ :=
          ihn (detVisitedStep p st nb) (fun x hx => hU x (List.mem_cons_of_mem _ hx))
            hfuel' hbasic'
        refine ⟨by rw [hr1, hd1], ?_, ?_, hr4, hd3.trans hr5⟩
        · intro x hx
          exact hr2 x (by rw [hd2]; exact hx)
        · intro x hx
          rcases List.mem_cons.mp hx with h | h
          · subst h
            exact hr2 x (by rw [hd2]; exact hv)
          · exact hr3 x h
      · rw [if_neg hv]
        obtain ⟨ha1, ha2, ha3, ha4, ha5⟩ := hA nb p st hfuel hv
          (hU nb (List.mem_cons_self _ _)) hbasic
        have hfuel' : unvisCount (detUniv g) (dfsD (adjBuild g.edges) (f + 1) nb p st).visited <
            f + 1 := by
          have := unvisCount_mono (detUniv g) st.visited
            (dfsD (adjBuild g.edges) (f + 1) nb p st).visited ha2
          omega
        obtain ⟨hr1, hr2, hr3, hr4, hr5⟩ :=
          ihn _ (fun x hx => hU x (List.mem_cons_of_mem _ hx)) hfuel' ha4
        refine ⟨by rw [hr1, ha1], ?_, ?_, hr4, ha5.trans hr5⟩
        · intro x hx
          exact hr2 x (ha2 x hx)
        · intro x hx
          rcases List.mem_cons.mp hx with h | h
          · subst h
            exact hr2 x ha3
          · exact hr3 x h

theorem detVisitedStep_basic (g : Graph) (p : List String) (st : DetSt) (nb : String)
    (hbasic : DetBasic g st) : DetBasic g (detVisitedStep p st nb) := by
  obtain ⟨hd1, hd2, -⟩ := detVisitedStep_state p st nb
  obtain ⟨hb1, hb2, hb3⟩ := hbasic
  refine ⟨?_, ?_, ?_⟩
  · rw [hd1]
    exact hb1
  · intro x hx
    rw [hd1] at hx
    rw [hd2]
    exact hb2 x hx
  · intro x hx
    rw [hd2] at hx
    exact hb3 x hx

theorem detBasic_push (g : Graph) (st : DetSt) (node : String)
    (hnode : node ∉ st.visited) (hnodeU : node ∈ detUniv g) (hbasic : DetBasic g st) :
    DetBasic g { st with visited := addIfNew node st.visited
                         recStack := addIfNew node st.recStack } := by
  obtain ⟨hrsnd, hrsvis, hvisU⟩ := hbasic
  have hnoderS : node ∉ st.recStack := fun hc => hnode (hrsvis node hc)
  have hrs1 : addIfNew node st.recStack = st.recStack ++ [node] :=
    addIfNew_not_mem node st.recStack hnoderS
  refine ⟨?_, ?_, ?_⟩
  · show (addIfNew node st.recStack).Nodup
    rw [hrs1, List.nodup_append]
    exact ⟨hrsnd, List.nodup_singleton node, by
      intro a ha hb
      rw [List.mem_singleton] at hb
      exact hnoderS (hb ▸ ha)⟩
  · intro x hx
    show x ∈ addIfNew node st.visited
    have hx' : x ∈ addIfNew node st.recStack := hx
    rw [hrs1, List.mem_append, List.mem_singleton] at hx'
    rw [mem_addIfNew]
    rcases hx' with h | h
    · exact Or.inl (hrsvis x h)
    · exact Or.inr h
  · intro x hx
    have hx' : x ∈ addIfNew node st.visited := hx
    rw [mem_addIfNew] at hx'
    rcases hx' with h | h
    · exact hvisU x h
    · exact h ▸ hnodeU

theorem detInv_push (g : Graph) (st : DetSt) (F : List String) (node : String)
    (hnode : node ∉ st.visited) (hnodeU : node ∈ detUniv g)
    (hrsvis : ∀ x ∈ st.recStack, x ∈ st.visited)
    (hinv : DetInv g st F) :
    DetInv g { st with visited := addIfNew node st.visited
                       recStack := addIfNew node st.recStack } F := by
  obtain ⟨hiv, hnd, hdis, hord, hiu⟩ := hinv
  have hnoderS : node ∉ st.recStack := fun hc => hnode (hrsvis node hc)
  have hrs1 : addIfNew node st.recStack = st.recStack ++ [node] :=
    addIfNew_not_mem node st.recStack hnoderS
  refine ⟨?_, hnd, ?_, hord, ?_⟩
  · intro x
    show x ∈ addIfNew node st.visited ↔ x ∈ F ∨ x ∈ addIfNew node st.recStack
    rw [mem_addIfNew, hiv x, hrs1]
    simp only [List.mem_append, List.mem_singleton]
    tauto
  · intro x hx
    show x ∉ addIfNew node st.recStack
    rw [hrs1, List.mem_append, List.mem_singleton]
    rintro (h | h)
    · exact hdis x hx h
    · exact hnode (h ▸ (hiv x).mpr (Or.inl hx))
  · intro x hx
    have hx' : x ∈ addIfNew node st.visited := hx
    rw [mem_addIfNew] at hx'
    rcases hx' with h | h
    · exact hiu x h
    · exact h ▸ hnodeU

/-- Finishing a node: erasing it from the recursion stack while appending it
to the ghost finish order preserves the invariant, provided every successor
of the node already finished. -/
theorem detInv_finish (g : Graph) (st2 : DetSt) (F1 : List String) (node : String)
    (path : List String)
    (hinv : DetInv g st2 F1) (hrs2 : st2.recStack = path ++ [node])
    (hnodepath : node ∉ path)
    (hnb : ∀ e ∈ g.edges, e.source = node → e.target ∈ F1) :
    DetInv g { st2 with recStack := st2.recStack.erase node } (F1 ++ [node]) := by
  obtain ⟨hiv, hnd, hdis, hord, hiu⟩ := hinv
  have hnodeF1 : node ∉ F1 := fun hc => hdis node hc (by
    rw [hrs2]
    exact List.mem_append_right _ (List.mem_singleton_self node))
  have herase : st2.recStack.erase node = path := by
    rw [hrs2]
    exact erase_append_singleton path node hnodepath
  refine ⟨?_, ?_, ?_, ?_, ?_⟩
  · intro x
    show x ∈ st2.visited ↔ x ∈ F1 ++ [node] ∨ x ∈ st2.recStack.erase node
    rw [herase, hiv x, hrs2]
    simp only [List.mem_append, List.mem_singleton]
    tauto
  · show (F1 ++ [node]).Nodup
    rw [List.nodup_append]
    exact ⟨hnd, List.nodup_singleton node, by
      intro a ha hb
      rw [List.mem_singleton] at hb
      exact hnodeF1 (hb ▸ ha)⟩
  · intro x hx
    show x ∉ st2.recStack.erase node
    rw [herase]
    rcases List.mem_append.mp hx with h | h
    · intro hc
      exact hdis x h (by rw [hrs2]; exact List.mem_append_left _ hc)
    · rw [List.mem_singleton] at h
      exact h ▸ hnodepath
  · intro e he hsrc
    rcases List.mem_append.mp hsrc with h | h
    · obtain ⟨ht, hpos⟩ := hord e he h
      refine ⟨List.mem_append_left _ ht, ?_⟩
      rw [posOf_append_mem _ _ _ ht, posOf_append_mem _ _ _ h]
      exact hpos
    · rw [List.mem_singleton] at h
      have htF1 := hnb e he h
      refine ⟨List.mem_append_left _ htF1, ?_⟩
      rw [posOf_append_mem _ _ _ htF1, h, posOf_append_self F1 node hnodeF1]
      exact posOf_lt_length F1 e.target htF1
  · intro x hx
    exact hiu x hx

/-- The ghost finish order of the `detectCycles` DFS: when a call emits no
cycle, the invariant extends to a finish order containing the visited node,
so every edge out of a finished node points to an earlier finish. -/
theorem dfsD_ghost (g : Graph) : ∀ fuel : Nat,
    (∀ (node : String) (path : List String) (st : DetSt) (F : List String),
      unvisCount (detUniv g) st.visited < fuel →
      node ∉ st.visited → node ∈ detUniv g → DetBasic g st → DetInv g st F →
      st.recStack = path →
      ((dfsD (adjBuild g.edges) fuel node path st).cycles = st.cycles →
        ∃ F', F <+: F' ∧ DetInv g (dfsD (adjBuild g.edges) fuel node path st) F' ∧
          node ∈ F')) ∧
    (∀ (nbs : List String) (p : List String) (st : DetSt) (F : List String),
      (∀ nb ∈ nbs, nb ∈ detUniv g) →
      unvisCount (detUniv g) st.visited < fuel → DetBasic g st → DetInv g st F →
      st.recStack = p →
      ((nbs.foldl (fun st nb => if nb ∈ st.visited then detVisitedStep p st nb
          else dfsD (adjBuild g.edges) fuel nb p st) st).cycles = st.cycles →
        ∃ F', F <+: F' ∧
          DetInv g (nbs.foldl (fun st nb => if nb ∈ st.visited then detVisitedStep p st nb
            else dfsD (adjBuild g.edges) fuel nb p st) st) F' ∧
          (∀ nb ∈ nbs, nb ∈ F'))) := by
  intro fuel
  induction fuel with
  | zero =>
    constructor
    · intro node path st F hfuel
      omega
    · intro nbs p st F hU hfuel
      omega
  | succ f ih =>
    have hA : ∀ (node : String) (path : List String) (st : DetSt) (F : List String),
        unvisCount (detUniv g) st.visited < f + 1 →
        node ∉ st.visited → node ∈ detUniv g → DetBasic g st → DetInv g st F →
        st.recStack = path →
        ((dfsD (adjBuild g.edges) (f + 1) node path st).cycles = st.cycles →
          ∃ F', F <+: F' ∧ DetInv g (dfsD (adjBuild g.edges) (f + 1) node path st) F' ∧
            node ∈ F') := by
      intro node path st F hfuel hnode hnodeU hbasic hinv hrs
      obtain ⟨hrsnd, hrsvis, hvisU⟩ := hbasic
      have hnoderS : node ∉ st.recStack := fun hc => hnode (hrsvis node hc)
      have hnodepath : node ∉ path := hrs ▸ hnoderS
      simp only [dfsD]
      set st1 : DetSt := { st with visited := addIfNew node st.visited
                                   recStack := addIfNew node st.recStack } with hst1
      have hst1vis : ∀ x, x ∈ st1.visited ↔ x ∈ st.visited ∨ x = node := by
        intro x
        exact mem_addIfNew node x st.visited
      have hst1rs : st1.recStack = st.recStack ++ [node] := by
        rw [hst1]
        simp only
        exact addIfNew_not_mem node st.recStack hnoderS
      have hbasic1 : DetBasic g st1 :=
        detBasic_push g st node hnode hnodeU ⟨hrsnd, hrsvis, hvisU⟩
      have hinv1 : DetInv g st1 F :=
        detInv_push g st F node hnode hnodeU hrsvis hinv
      have hfuel1 : unvisCount (detUniv g) st1.visited < f := by
        have hstrict := unvisCount_strict (detUniv g) st.visited st1.visited node
          hnodeU hnode ((hst1vis node).mpr (Or.inr rfl))
          (fun y hy => (hst1vis y).mpr (Or.inl hy))
        omega
      have hnbU : ∀ nb ∈ adjGetD (adjBuild g.edges) node, nb ∈ detUniv g :=
        fun nb hnb => adjBuild_targets_univ g node nb hnb
      have hrs1 : st1.recStack = path ++ [node] := by rw [hst1rs, hrs]
      obtain ⟨hf1, hf2, hf3, hf4, hf5⟩ :=
        (dfsD_basic g f).2 (adjGetD (adjBuild g.edges) node) (path ++ [node]) st1
          hnbU hfuel1 hbasic1
      intro hnoem
      obtain ⟨F1, hpre1, hinvF1, hnbF1⟩ :=
        ih.2 (adjGetD (adjBuild g.edges) node) (path ++ [node]) st1 F hnbU hfuel1
          hbasic1 hinv1 hrs1 (hnoem.trans (rfl : st.cycles = st1.cycles))
      have hrs2 := hf1.trans hrs1
      have hnbedges : ∀ e ∈ g.edges, e.source = node → e.target ∈ F1 := by
        intro e he hsrc
        apply hnbF1
        rw [adjBuild_getD]
        exact (mem_srcTargets g.edges node e.target).mpr ⟨e, he, hsrc, rfl⟩
      refine ⟨F1 ++ [node], hpre1.trans (List.prefix_append F1 [node]), ?_,
        List.mem_append_right _ (List.mem_singleton_self node)⟩
      exact detInv_finish g _ F1 node path hinvF1 hrs2 hnodepath hnbedges
    refine ⟨hA, ?_⟩
    intro nbs p st F hU hfuel hbasic hinv hrs
    induction nbs generalizing st F with
    | nil =>
      intro _
      exact ⟨F, List.prefix_refl F, hinv, fun nb hnb => absurd hnb (List.not_mem_nil nb)⟩
    | cons nb rest ihn =>
      simp only [List.foldl_cons]
      by_cases hv : nb ∈ st.visited
      · rw [if_pos hv]
        intro hnoem
        obtain ⟨hd1, hd2, hd3⟩ := detVisitedStep_state p st nb
        have hbasic' : DetBasic g (detVisitedStep p st nb) :=
          detVisitedStep_basic g p st nb hbasic
        have hfuel' : unvisCount (detUniv g) (detVisitedStep p st nb).visited < f + 1 := by
          rw [hd2]
          exact hfuel
        have hpre2 := ((dfsD_basic g (f + 1)).2 rest p (detVisitedStep p st nb)
          (fun x hx => hU x (List.mem_cons_of_mem _ hx)) hfuel' hbasic').2.2.2.2
        have hmid : (detVisitedStep p st nb).cycles = st.cycles := by
          have h1 := hd3.length_le
          have h2 := hpre2.length_le
          have h3 := congrArg List.length hnoem
          have hlen : st.cycles.length = (detVisitedStep p st nb).cycles.length := by
            omega
          exact (hd3.eq_of_length hlen).symm
        have hnbrs : nb ∉ st.recStack := by
          intro hc
          obtain ⟨j, hj⟩ := posOf?_isSome_of_mem p nb (hrs ▸ hc)
          have hemit : (detVisitedStep p st nb).cycles = st.cycles ++ [p.drop j ++ [nb]] := by
            unfold detVisitedStep
            rw [if_pos hc, hj]
          rw [hemit] at hmid
          have hl := congrArg List.length hmid
          simp at hl
        have hnbF : nb ∈ F := by
          rcases (hinv.1 nb).mp hv with h | h
          · exact h
          · exact absurd h hnbrs
        have hstep : detVisitedStep p st nb = st := by
          unfold detVisitedStep
          rw [if_neg hnbrs]
        rw [hstep] at hnoem ⊢
        obtain ⟨F', hp, hi, hall⟩ :=
          ihn st F (fun x hx => hU x (List.mem_cons_of_mem _ hx)) hfuel hbasic hinv
            hrs hnoem
        refine ⟨F', hp, hi, ?_⟩
        intro x hx
        rcases List.mem_cons.mp hx with h | h
        · rw [h]
          exact hp.subset hnbF
        · exact hall x h
      · rw [if_neg hv]
        intro hnoem
        have hnbuniv : nb ∈ detUniv g := hU nb (List.mem_cons_self _ _)
        obtain ⟨ha1, ha2, ha3, ha4, ha5⟩ :=
          (dfsD_basic g (f + 1)).1 nb p st hfuel hv hnbuniv hbasic
        have hfuel' : unvisCount (detUniv g)
            (dfsD (adjBuild g.edges) (f + 1) nb p st).visited < f + 1 := by
          have := unvisCount_mono (detUniv g) st.visited
            (dfsD (adjBuild g.edges) (f + 1) nb p st).visited ha2
          omega
        have hpre2 := ((dfsD_basic g (f + 1)).2 rest p
          (dfsD (adjBuild g.edges) (f + 1) nb p st)
          (fun x hx => hU x (List.mem_cons_of_mem _ hx)) hfuel' ha4).2.2.2.2
        have hmid : (dfsD (adjBuild g.edges) (f + 1) nb p st).cycles = st.cycles := by
          have h1 := ha5.length_le
          have h2 := hpre2.length_le
          have h3 := congrArg List.length hnoem
          have hlen : st.cycles.length =
              (dfsD (adjBuild g.edges) (f + 1) nb p st).cycles.length := by
            omega
          exact (ha5.eq_of_length hlen).symm
        obtain ⟨F1, hpre1, hinvF1, hnbmem⟩ :=
          hA nb p st F hfuel hv hnbuniv hbasic hinv hrs hmid
        have hrs' : (dfsD (adjBuild g.edges) (f + 1) nb p st).recStack = p :=
          ha1.trans hrs
        obtain ⟨F', hp2, hi, hall⟩ :=
          ihn _ F1 (fun x hx => hU x (List.mem_cons_of_mem _ hx)) hfuel' ha4 hinvF1
            hrs' (hnoem.trans hmid.symm)
        refine ⟨F', hpre1.trans hp2, hi, ?_⟩
        intro x hx
        rcases List.mem_cons.mp hx with h | h
        · rw [h]
          exact hp2.subset hnbmem
        · exact hall x h

/-- The top-level loop of `detectCycles` over the node list. -/
def detectTop (g : Graph) (ns : List GraphNode) (st : DetSt) : DetSt :=
  ns.foldl
    (fun st n =>
      if n.id ∈ st.visited then st
      else dfsD (adjBuild g.edges) (detFuel g) n.id [] st) st

theorem detectRun_eq_top (g : Graph) :
    detectRun g = detectTop g g.nodes ⟨[], [], []⟩ := rfl

theorem detectTop_cons (g : Graph) (n : GraphNode) (ns : List GraphNode) (st : DetSt) :
    detectTop g (n :: ns) st =
      detectTop g ns (if n.id ∈ st.visited then st
        else dfsD (adjBuild g.edges) (detFuel g) n.id [] st) := rfl

theorem detUniv_length (g : Graph) :
    (detUniv g).length = g.nodes.length + g.edges.length := by
  unfold detUniv idList targetList
  rw [List.length_append, List.length_map, List.length_map]

theorem unvis_lt_detFuel (g : Graph) (vis : List String) :
    unvisCount (detUniv g) vis < detFuel g := by
  have h1 : unvisCount (detUniv g) vis ≤ (detUniv g).length := by
    unfold unvisCount
    exact List.countP_le_length _
  have h2 := detUniv_length g
  unfold detFuel
  omega

theorem detectTop_basic (g : Graph) : ∀ (ns : List GraphNode) (st : DetSt),
    (∀ n ∈ ns, n.id ∈ detUniv g) → DetBasic g st →
    (DetBasic g (detectTop g ns st) ∧
      st.cycles <+: (detectTop g ns st).cycles ∧
      (detectTop g ns st).recStack = st.recStack ∧
      (∀ x ∈ st.visited, x ∈ (detectTop g ns st).visited)) := by
  intro ns
  induction ns with
  | nil =>
    intro st _ hbasic
    exact ⟨hbasic, List.prefix_refl _, rfl, fun x hx => hx⟩
  | cons n rest ih =>
    intro st hns hbasic
    rw [detectTop_cons]
    by_cases hv : n.id ∈ st.visited
    · rw [if_pos hv]
      exact ih st (fun m hm => hns m (List.mem_cons_of_mem _ hm)) hbasic
    · rw [if_neg hv]
      obtain ⟨ha1, ha2, ha3, ha4, ha5⟩ :=
        (dfsD_basic g (detFuel g)).1 n.id [] st (unvis_lt_detFuel g st.visited) hv
          (hns n (List.mem_cons_self _ _)) hbasic
      obtain ⟨hb, hc, hr, hm⟩ :=
        ih _ (fun m hm => hns m (List.mem_cons_of_mem _ hm)) ha4
      exact ⟨hb, ha5.trans hc, hr.trans ha1, fun x hx => hm x (ha2 x hx)⟩

theorem detectTop_ghost (g : Graph) : ∀ (ns : List GraphNode) (st : DetSt) (F : List String),
    (∀ n ∈ ns, n.id ∈ detUniv g) → DetBasic g st → DetInv g st F → st.recStack = [] →
    ((detectTop g ns st).cycles = st.cycles →
      ∃ F', F <+: F' ∧ DetInv g (detectTop g ns st) F' ∧ ∀ n ∈ ns, n.id ∈ F') := by
  intro ns
  induction ns with
  | nil =>
    intro st F _ _ hinv _ _
    exact ⟨F, List.prefix_refl F, hinv, fun n hn => absurd hn (List.not_mem_nil n)⟩
  | cons n rest ih =>
    intro st F hns hbasic hinv hrs
    rw [detectTop_cons]
    by_cases hv : n.id ∈ st.visited
    · rw [if_pos hv]
      intro hnoem
      have hnF : n.id ∈ F := by
        rcases (hinv.1 n.id).mp hv with h | h
        · exact h
        · rw [hrs] at h
          exact absurd h (List.not_mem_nil _)
      obtain ⟨F', hp, hi, hall⟩ :=
        ih st F (fun m hm => hns m (List.mem_cons_of_mem _ hm)) hbasic hinv hrs hnoem
      refine ⟨F', hp, hi, ?_⟩
      intro m hm
      rcases List.mem_cons.mp hm with h | h
      · rw [h]
        exact hp.subset hnF
      · exact hall m h
    · rw [if_neg hv]
      intro hnoem
      have hnuniv := hns n (List.mem_cons_self _ _)
      obtain ⟨ha1, ha2, ha3, ha4, ha5⟩ :=
        (dfsD_basic g (detFuel g)).1 n.id [] st (unvis_lt_detFuel g st.visited) hv
          hnuniv hbasic
      obtain ⟨-, hpre2, -, -⟩ :=
        detectTop_basic g rest _ (fun m hm => hns m (List.mem_cons_of_mem _ hm)) ha4
      have hmid : (dfsD (adjBuild g.edges) (detFuel g) n.id [] st).cycles = st.cycles := by
        have h1 := ha5.length_le
        have h2 := hpre2.length_le
        have h3 := congrArg List.length hnoem
        have hlen : st.cycles.length =
            (dfsD (adjBuild g.edges) (detFuel g) n.id [] st).cycles.length := by
          omega
        exact (ha5.eq_of_length hlen).symm
      obtain ⟨F1, hpre1, hinv1, hnmem⟩ :=
        (dfsD_ghost g (detFuel g)).1 n.id [] st F (unvis_lt_detFuel g st.visited) hv
          hnuniv hbasic hinv hrs hmid
      have hrs1 : (dfsD (adjBuild g.edges) (detFuel g) n.id [] st).recStack = [] :=
        ha1.trans hrs
      obtain ⟨F', hp2, hi, hall⟩ :=
        ih _ F1 (fun m hm => hns m (List.mem_cons_of_mem _ hm)) ha4 hinv1 hrs1
          (hnoem.trans hmid.symm)
      refine ⟨F', hpre1.trans hp2, hi, ?_⟩
      intro m hm
      rcases List.mem_cons.mp hm with h | h
      · rw [h]
        exact hp2.subset hnmem
      · exact hall m h

/-- Part A of the C2 correction: on a valid graph an empty cycle report
implies acyclicity, via the ghost finish order of the DFS. -/
theorem detect_nil_acyclic (g : Graph) (hval : ValidGraph g)
    (h : detectCyclesRun g = []) : Acyclic g := by
  obtain ⟨hids, hends, hpairs⟩ := hval
  have hbasic0 : DetBasic g (⟨[], [], []⟩ : DetSt) :=
    ⟨List.nodup_nil, fun x hx => absurd hx (List.not_mem_nil x),
      fun x hx => absurd hx (List.not_mem_nil x)⟩
  have hinv0 : DetInv g ⟨[], [], []⟩ [] := by
    refine ⟨?_, List.nodup_nil, ?_, ?_, ?_⟩
    · intro x
      simp
    · intro x hx
      exact absurd hx (List.not_mem_nil x)
    · intro e he hs
      exact absurd hs (List.not_mem_nil _)
    · intro x hx
      exact absurd hx (List.not_mem_nil x)
  have hns : ∀ n ∈ g.nodes, n.id ∈ detUniv g := by
    intro n hn
    exact List.mem_append_left _ (List.mem_map.mpr ⟨n, hn, rfl⟩)
  unfold detectCyclesRun at h
  rw [detectRun_eq_top] at h
  obtain ⟨F, -, hinvF, hallF⟩ :=
    detectTop_ghost g g.nodes ⟨[], [], []⟩ [] hns hbasic0 hinv0 rfl h
  have hord : POrdF g F := hinvF.2.2.2.1
  have hsrcF : ∀ e ∈ g.edges, e.source ∈ F := by
    intro e he
    have hs : e.source ∈ g.nodes.map (fun n => n.id) := (hends e he).1
    rcases List.mem_map.mp hs with ⟨n, hn, hid⟩
    exact hid ▸ hallF n hn
  have hresp : ∀ e ∈ g.edges, posOf F e.target < posOf F e.source := by
    intro e he
    exact (hord e he (hsrcF e he)).2
  intro n hTG
  exact absurd (transGen_posOf_gt g F hresp n n hTG) (lt_irrefl _)

/-! ### Characterisation of the Kosaraju adjacency build (C2, part B) -/

def tgtSources (edges : List GraphEdge) (k : String) : List String :=
  (edges.filter (fun e => decide (e.target = k))).map (fun e => e.source)

theorem tgtSources_cons (e : GraphEdge) (rest : List GraphEdge) (k : String) :
    tgtSources (e :: rest) k =
      if e.target = k then e.source :: tgtSources rest k else tgtSources rest k := by
  unfold tgtSources
  by_cases h : e.target = k
  · simp [List.filter_cons, h]
  · simp [List.filter_cons, h]

theorem mem_tgtSources (edges : List GraphEdge) (n k : String) :
    k ∈ tgtSources edges n ↔ ∃ e ∈ edges, e.target = n ∧ e.source = k := by
  unfold tgtSources
  constructor
  · intro h
    rcases List.mem_map.mp h with ⟨e, he, hk⟩
    rcases List.mem_filter.mp he with ⟨he', hs⟩
    exact ⟨e, he', by simpa using hs, hk⟩
  · rintro ⟨e, he, hs, ht⟩
    exact List.mem_map.mpr ⟨e, List.mem_filter.mpr ⟨he, by simpa using hs⟩, ht⟩

theorem srcTargets_nil_of (edges : List GraphEdge) (k : String)
    (h : ∀ e ∈ edges, e.source ≠ k) : srcTargets edges k = [] := by
  induction edges with
  | nil => rfl
  | cons e rest ih =>
    rw [srcTargets_cons, if_neg (h e (List.mem_cons_self _ _)),
      ih (fun e' he' => h e' (List.mem_cons_of_mem _ he'))]

theorem tgtSources_nil_of (edges : List GraphEdge) (k : String)
    (h : ∀ e ∈ edges, e.target ≠ k) : tgtSources edges k = [] := by
  induction edges with
  | nil => rfl
  | cons e rest ih =>
    rw [tgtSources_cons, if_neg (h e (List.mem_cons_self _ _)),
      ih (fun e' he' => h e' (List.mem_cons_of_mem _ he'))]

theorem sccBuild_get (edges : List GraphEdge) :
    ∀ (st st' : List (String × List String) × List (String × List String)),
      sccBuild edges st = some st' →
      (∀ k, mapGet? st'.1 k =
        (mapGet? st.1 k).map (fun l => l ++ srcTargets edges k)) ∧
      (∀ k, mapGet? st'.2 k =
        (mapGet? st.2 k).map (fun r => r ++ tgtSources edges k)) := by
  induction edges with
  | nil =>
    intro st st' h
    rw [sccBuild] at h
    have hst : st = st' := by
      injection h
    subst hst
    constructor
    · intro k
      cases hm : mapGet? st.1 k with
      | none => simp
      | some l => simp [srcTargets]
    · intro k
      cases hm : mapGet? st.2 k with
      | none => simp
      | some l => simp [tgtSources]
  | cons e rest ih =>
    intro st st' h
    rw [sccBuild] at h
    cases hadd : sccAddEdge st e with
    | none =>
      rw [hadd] at h
      exact absurd h (by simp)
    | some st1 =>
      rw [hadd] at h
      unfold sccAddEdge at hadd
      cases hg1 : mapGet? st.1 e.source with
      | none =>
        rw [hg1] at hadd
        exact absurd hadd (by simp)
      | some l0 =>
        rw [hg1] at hadd
        cases hg2 : mapGet? st.2 e.target with
        | none =>
          rw [hg2] at hadd
          exact absurd hadd (by simp)
        | some r0 =>
          rw [hg2] at hadd
          have hst1 : st1 = (mapSet st.1 e.source (l0 ++ [e.target]),
              mapSet st.2 e.target (r0 ++ [e.source])) := by
            injection hadd with h'
            exact h'.symm
          subst hst1
          obtain ⟨ih1, ih2⟩ := ih _ st' h
          have ih1' : ∀ k, mapGet? st'.1 k =
              (mapGet? (mapSet st.1 e.source (l0 ++ [e.target])) k).map
                (fun l => l ++ srcTargets rest k) := ih1
          have ih2' : ∀ k, mapGet? st'.2 k =
              (mapGet? (mapSet st.2 e.target (r0 ++ [e.source])) k).map
                (fun r => r ++ tgtSources rest k) := ih2
          constructor
          · intro k
            rw [ih1' k]
            by_cases hk : e.source = k
            · have h1 : mapSet st.1 e.source (l0 ++ [e.target]) =
                  mapSet st.1 k (l0 ++ [e.target]) := by rw [hk]
              have h2 : mapGet? st.1 k = some l0 := by rw [← hk]; exact hg1
              rw [h1, mapGet?_mapSet_self, h2, srcTargets_cons, if_pos hk]
              simp [List.append_assoc]
            · rw [mapGet?_mapSet_ne _ _ _ _ hk, srcTargets_cons, if_neg hk]
          · intro k
            rw [ih2' k]
            by_cases hk : e.target = k
            · have h1 : mapSet st.2 e.target (r0 ++ [e.source]) =
                  mapSet st.2 k (r0 ++ [e.source]) := by rw [hk]
              have h2 : mapGet? st.2 k = some r0 := by rw [← hk]; exact hg2
              rw [h1, mapGet?_mapSet_self, h2, tgtSources_cons, if_pos hk]
              simp [List.append_assoc]
            · rw [mapGet?_mapSet_ne _ _ _ _ hk, tgtSources_cons, if_neg hk]

/-- Under valid endpoints the Kosaraju build succeeds and its two maps
denote forward successors and reverse predecessors. -/
theorem findSCCE_char (g : Graph)
    (hends : ∀ e ∈ g.edges, e.source ∈ idList g ∧ e.target ∈ idList g) :
    ∃ adj radj, sccBuild g.edges (sccInit g.nodes, sccInit g.nodes) = some (adj, radj) ∧
      (∀ k, adjGetD adj k = srcTargets g.edges k) ∧
      (∀ k, adjGetD radj k = tgtSources g.edges k) := by
  have hget : ∀ k, mapGet? (sccInit g.nodes) k =
      if k ∈ idList g then some [] else none := by
    intro k
    unfold sccInit
    rw [initFold_get]
    unfold idList
    by_cases hk : k ∈ g.nodes.map (fun n => n.id)
    · rw [if_pos hk, if_pos hk]
    · rw [if_neg hk, if_neg hk]
      rfl
  obtain ⟨st', hb⟩ := sccBuild_some g.edges (sccInit g.nodes, sccInit g.nodes) (by
    intro e he
    constructor
    · show e.source ∈ mapKeys (sccInit g.nodes)
      rw [mem_mapKeys_iff, hget, if_pos (hends e he).1]
      rfl
    · show e.target ∈ mapKeys (sccInit g.nodes)
      rw [mem_mapKeys_iff, hget, if_pos (hends e he).2]
      rfl)
  obtain ⟨adj, radj⟩ := st'
  obtain ⟨h1, h2⟩ := sccBuild_get g.edges (sccInit g.nodes, sccInit g.nodes) (adj, radj) hb
  have h1' : ∀ k, mapGet? adj k =
      (mapGet? (sccInit g.nodes) k).map (fun l => l ++ srcTargets g.edges k) := h1
  have h2' : ∀ k, mapGet? radj k =
      (mapGet? (sccInit g.nodes) k).map (fun r => r ++ tgtSources g.edges k) := h2
  refine ⟨adj, radj, hb, ?_, ?_⟩
  · intro k
    unfold adjGetD
    rw [h1' k, hget]
    by_cases hk : k ∈ idList g
    · rw [if_pos hk]
      simp
    · rw [if_neg hk]
      have hnil : srcTargets g.edges k = [] := srcTargets_nil_of g.edges k (by
        intro e he hc
        exact hk (hc ▸ (hends e he).1))
      rw [hnil]
      rfl
  · intro k
    unfold adjGetD
    rw [h2' k, hget]
    by_cases hk : k ∈ idList g
    · rw [if_pos hk]
      simp
    · rw [if_neg hk]
      have hnil : tgtSources g.edges k = [] := tgtSources_nil_of g.edges k (by
        intro e he hc
        exact hk (hc ▸ (hends e he).2))
      rw [hnil]
      rfl

theorem findSCCE_eq (g : Graph)
    (adj radj : List (String × List String))
    (hbuild : sccBuild g.edges (sccInit g.nodes, sccInit g.nodes) = some (adj, radj)) :
    findSCCE g = some (pass2 radj (sccFuel g)
      (g.nodes.foldl
        (fun vs n => if n.id ∈ vs.1 then vs else dfs1 adj (sccFuel g) n.id vs)
        ([], [])).2.reverse [] []) := by
  unfold findSCCE
  rw [hbuild]

/-! ### The first Kosaraju pass on an acyclic graph (C2, part B) -/

/-- The invariant tying a `dfs1` state to the in-progress call chain `C`:
the visited set splits into the finished stack and the chain, and the stack
is ordered like a finish order. -/
def Inv1 (g : Graph) (vs : List String × List String) (C : List String) : Prop :=
  (∀ x, x ∈ vs.1 ↔ x ∈ vs.2 ∨ x ∈ C) ∧
    vs.2.Nodup ∧ (∀ x ∈ vs.2, x ∉ C) ∧ POrdF g vs.2 ∧
    (∀ x ∈ vs.1, x ∈ idList g)

theorem inv1_push (g : Graph) (vs : List String × List String) (C : List String)
    (node : String) (hnode : node ∉ vs.1) (hnodeU : node ∈ idList g)
    (hinv : Inv1 g vs C) :
    Inv1 g (addIfNew node vs.1, vs.2) (C ++ [node]) := by
  obtain ⟨hiv, hnd, hdis, hord, hiu⟩ := hinv
  refine ⟨?_, hnd, ?_, hord, ?_⟩
  · intro x
    show x ∈ addIfNew node vs.1 ↔ x ∈ vs.2 ∨ x ∈ C ++ [node]
    rw [mem_addIfNew, hiv x]
    simp only [List.mem_append, List.mem_singleton]
    tauto
  · intro x hx
    show x ∉ C ++ [node]
    rw [List.mem_append, List.mem_singleton]
    rintro (h | h)
    · exact hdis x hx h
    · exact hnode (h ▸ (hiv x).mpr (Or.inl hx))
  · intro x hx
    have hx' : x ∈ addIfNew node vs.1 := hx
    rw [mem_addIfNew] at hx'
    rcases hx' with h | h
    · exact hiu x h
    · exact h ▸ hnodeU

/-- Finishing a `dfs1` node: in an acyclic graph every successor is already
on the stack, so appending the node keeps the stack finish-ordered. -/
theorem inv1_finish (g : Graph) (hac : Acyclic g)
    (vs2 : List String × List String) (C : List String) (node : String)
    (hinv : Inv1 g vs2 (C ++ [node])) (hnodeC : node ∉ C)
    (hC : ∀ c ∈ C ++ [node], Relation.ReflTransGen (edgeRel g) c node)
    (hnb : ∀ e ∈ g.edges, e.source = node → e.target ∈ vs2.1) :
    Inv1 g (vs2.1, vs2.2 ++ [node]) C ∧ node ∉ vs2.2 := by
  obtain ⟨hiv, hnd, hdis, hord, hiu⟩ := hinv
  have hnodemem : node ∈ C ++ [node] :=
    List.mem_append_right _ (List.mem_singleton_self node)
  have hnodeS : node ∉ vs2.2 := fun hc => hdis node hc hnodemem
  have htgt : ∀ e ∈ g.edges, e.source = node → e.target ∈ vs2.2 := by
    intro e he hs
    rcases (hiv e.target).mp (hnb e he hs) with h | h
    · exact h
    · exact absurd (Relation.TransGen.tail' (hC e.target h) ⟨e, he, hs, rfl⟩)
        (hac e.target)
  refine ⟨⟨?_, ?_, ?_, ?_, ?_⟩, hnodeS⟩
  · intro x
    show x ∈ vs2.1 ↔ x ∈ vs2.2 ++ [node] ∨ x ∈ C
    rw [hiv x]
    simp only [List.mem_append, List.mem_singleton]
    tauto
  · show (vs2.2 ++ [node]).Nodup
    rw [List.nodup_append]
    exact ⟨hnd, List.nodup_singleton node, by
      intro a ha hb
      rw [List.mem_singleton] at hb
      exact hnodeS (hb ▸ ha)⟩
  · intro x hx
    show x ∉ C
    rcases List.mem_append.mp hx with h | h
    · intro hc
      exact hdis x h (List.mem_append_left _ hc)
    · rw [List.mem_singleton] at h
      exact h ▸ hnodeC
  · intro e he hsrc
    rcases List.mem_append.mp hsrc with h | h
    · obtain ⟨ht, hpos⟩ := hord e he h
      refine ⟨List.mem_append_left _ ht, ?_⟩
      rw [posOf_append_mem _ _ _ ht, posOf_append_mem _ _ _ h]
      exact hpos
    · rw [List.mem_singleton] at h
      have htS := htgt e he h
      refine ⟨List.mem_append_left _ htS, ?_⟩
      rw [posOf_append_mem _ _ _ htS, h, posOf_append_self vs2.2 node hnodeS]
      exact posOf_lt_length vs2.2 e.target htS
  · intro x hx
    exact hiu x hx

theorem unvis_lt_sccFuel (g : Graph) (vis : List String) :
    unvisCount (idList g) vis < sccFuel g := by
  have h1 : unvisCount (idList g) vis ≤ (idList g).length := by
    unfold unvisCount
    exact List.countP_le_length _
  have h2 : (idList g).length = g.nodes.length := by
    unfold idList
    exact List.length_map _ _
  unfold sccFuel
  omega

/-- `dfs1` on an acyclic graph: the finished stack grows by appending, keeps
the finish-order property, and ends containing the visited node. -/
theorem dfs1_spec (g : Graph) (adj : List (String × List String))
    (hadj : ∀ k, adjGetD adj k = srcTargets g.edges k) (hac : Acyclic g)
    (hends : ∀ e ∈ g.edges, e.target ∈ idList g) : ∀ fuel : Nat,
    (∀ (node : String) (vs : List String × List String) (C : List String),
      unvisCount (idList g) vs.1 < fuel → node ∉ vs.1 → node ∈ idList g →
      Inv1 g vs C → (∀ c ∈ C, Relation.ReflTransGen (edgeRel g) c node) →
      (vs.2 <+: (dfs1 adj fuel node vs).2 ∧
        (∀ x ∈ vs.1, x ∈ (dfs1 adj fuel node vs).1) ∧
        Inv1 g (dfs1 adj fuel node vs) C ∧
        node ∈ (dfs1 adj fuel node vs).2)) ∧
    (∀ (nbs : List String) (node : String) (vs : List String × List String)
        (C : List String),
      (∀ nb ∈ nbs, edgeRel g node nb) →
      unvisCount (idList g) vs.1 < fuel → Inv1 g vs C → node ∈ C →
      (∀ c ∈ C, Relation.ReflTransGen (edgeRel g) c node) →
      (vs.2 <+: (nbs.foldl (fun vs nb => if nb ∈ vs.1 then vs
          else dfs1 adj fuel nb vs) vs).2 ∧
        (∀ x ∈ vs.1, x ∈ (nbs.foldl (fun vs nb => if nb ∈ vs.1 then vs
          else dfs1 adj fuel nb vs) vs).1) ∧
        Inv1 g (nbs.foldl (fun vs nb => if nb ∈ vs.1 then vs
          else dfs1 adj fuel nb vs) vs) C ∧
        (∀ nb ∈ nbs, nb ∈ (nbs.foldl (fun vs nb => if nb ∈ vs.1 then vs
          else dfs1 adj fuel nb vs) vs).1))) := by
  intro fuel
  induction fuel with
  | zero =>
    constructor
    · intro node vs C hfuel
      omega
    · intro nbs node vs C hU hfuel
      omega
  | succ f ih =>
    have hA : ∀ (node : String) (vs : List String × List String) (C : List String),
        unvisCount (idList g) vs.1 < f + 1 → node ∉ vs.1 → node ∈ idList g →
        Inv1 g vs C → (∀ c ∈ C, Relation.ReflTransGen (edgeRel g) c node) →
        (vs.2 <+: (dfs1 adj (f + 1) node vs).2 ∧
          (∀ x ∈ vs.1, x ∈ (dfs1 adj (f + 1) node vs).1) ∧
          Inv1 g (dfs1 adj (f + 1) node vs) C ∧
          node ∈ (dfs1 adj (f + 1) node vs).2) := by
      intro node vs C hfuel hnode hnodeU hinv hC
      simp only [dfs1]
      have hinv1 : Inv1 g (addIfNew node vs.1, vs.2) (C ++ [node]) :=
        inv1_push g vs C node hnode hnodeU hinv
      have hstrict := unvisCount_strict (idList g) vs.1 (addIfNew node vs.1) node
        hnodeU hnode ((mem_addIfNew node node vs.1).mpr (Or.inr rfl))
        (fun y hy => (mem_addIfNew node y vs.1).mpr (Or.inl hy))
      have hfuel1 : unvisCount (idList g) (addIfNew node vs.1) < f := by
        omega
      have hCnode : ∀ c ∈ C ++ [node], Relation.ReflTransGen (edgeRel g) c node := by
        intro c hc
        rcases List.mem_append.mp hc with h | h
        · exact hC c h
        · rw [List.mem_singleton] at h
          exact h ▸ Relation.ReflTransGen.refl
      have hnbs : ∀ nb ∈ adjGetD adj node, edgeRel g node nb := by
        intro nb hnb
        rw [hadj] at hnb
        rcases (mem_srcTargets g.edges node nb).mp hnb with ⟨e, he, hs, ht⟩
        exact ⟨e, he, hs, ht⟩
      have hnodemem : node ∈ C ++ [node] :=
        List.mem_append_right _ (List.mem_singleton_self node)
      obtain ⟨hp, hm, hi, hall⟩ :=
        ih.2 (adjGetD adj node) node (addIfNew node vs.1, vs.2) (C ++ [node])
          hnbs hfuel1 hinv1 hnodemem hCnode
      have hnodeC : node ∉ C := fun hc => hnode ((hinv.1 node).mpr (Or.inr hc))
      obtain ⟨hifin, hnodeS⟩ := inv1_finish g hac _ C node hi hnodeC hCnode
        (fun e he hs => hall e.target (by
          rw [hadj]
          exact (mem_srcTargets g.edges node e.target).mpr ⟨e, he, hs, rfl⟩))
      refine ⟨?_, ?_, hifin, ?_⟩
      · exact hp.trans (List.prefix_append _ _)
      · exact fun x hx => hm x ((mem_addIfNew node x vs.1).mpr (Or.inl hx))
      · exact List.mem_append_right _ (List.mem_singleton_self node)
    refine ⟨hA, ?_⟩
    intro nbs node vs C hU hfuel hinv hnodeC hC
    induction nbs generalizing vs with
    | nil =>
      exact ⟨List.prefix_refl _, fun x hx => hx, hinv,
        fun nb hnb => absurd hnb (List.not_mem_nil nb)⟩
    | cons nb rest ihn =>
      simp only [List.foldl_cons]
      by_cases hv : nb ∈ vs.1
      · rw [if_pos hv]
        obtain ⟨hp, hm, hi, hall⟩ :=
          ihn vs (fun x hx => hU x (List.mem_cons_of_mem _ hx)) hfuel hinv
        refine ⟨hp, hm, hi, ?_⟩
        intro x hx
        rcases List.mem_cons.mp hx with h | h
        · rw [h]
          exact hm nb hv
        · exact hall x h
      · rw [if_neg hv]
        have hnbU : nb ∈ idList g := by
          obtain ⟨e, he, hs, ht⟩ := hU nb (List.mem_cons_self _ _)
          exact ht ▸ hends e he
        have hCnb : ∀ c ∈ C, Relation.ReflTransGen (edgeRel g) c nb := by
          intro c hc
          exact Relation.ReflTransGen.tail (hC c hc) (hU nb (List.mem_cons_self _ _))
        obtain ⟨ha1, ha2, ha3, ha4⟩ := hA nb vs C hfuel hv hnbU hinv hCnb
        have hfuel' : unvisCount (idList g) (dfs1 adj (f + 1) nb vs).1 < f + 1 := by
          have := unvisCount_mono (idList g) vs.1 (dfs1 adj (f + 1) nb vs).1 ha2
          omega
        obtain ⟨hp, hm, hi, hall⟩ :=
          ihn _ (fun x hx => hU x (List.mem_cons_of_mem _ hx)) hfuel' ha3
        refine ⟨ha1.trans hp, fun x hx => hm x (ha2 x hx), hi, ?_⟩
        intro x hx
        rcases List.mem_cons.mp hx with h | h
        · rw [h]
          exact hm nb ((ha3.1 nb).mpr (Or.inl ha4))
        · exact hall x h

/-- The first Kosaraju pass over the node list: on a valid acyclic graph it
produces a duplicate-free finish stack, ordered by `POrdF`, containing every
visited node, with every node id visited. -/
theorem pass1_fold (g : Graph) (adj : List (String × List String))
    (hadj : ∀ k, adjGetD adj k = srcTargets g.edges k) (hac : Acyclic g)
    (hends : ∀ e ∈ g.edges, e.target ∈ idList g) :
    ∀ (ns : List GraphNode) (vs : List String × List String),
      (∀ n ∈ ns, n.id ∈ idList g) → Inv1 g vs [] →
      (Inv1 g (ns.foldl (fun vs n => if n.id ∈ vs.1 then vs
          else dfs1 adj (sccFuel g) n.id vs) vs) [] ∧
        (∀ x ∈ vs.1, x ∈ (ns.foldl (fun vs n => if n.id ∈ vs.1 then vs
          else dfs1 adj (sccFuel g) n.id vs) vs).1) ∧
        (∀ n ∈ ns, n.id ∈ (ns.foldl (fun vs n => if n.id ∈ vs.1 then vs
          else dfs1 adj (sccFuel g) n.id vs) vs).1)) := by
  intro ns
  induction ns with
  | nil =>
    intro vs _ hinv
    exact ⟨hinv, fun x hx => hx, fun n hn => absurd hn (List.not_mem_nil n)⟩
  | cons n rest ih =>
    intro vs hns hinv
    simp only [List.foldl_cons]
    by_cases hv : n.id ∈ vs.1
    · rw [if_pos hv]
      obtain ⟨hi, hmono, hall⟩ :=
        ih vs (fun m hm => hns m (List.mem_cons_of_mem _ hm)) hinv
      refine ⟨hi, hmono, ?_⟩
      intro m hm
      rcases List.mem_cons.mp hm with h | h
      · rw [h]
        exact hmono _ hv
      · exact hall m h
    · rw [if_neg hv]
      obtain ⟨hp, hm, hi1, hstk⟩ :=
        (dfs1_spec g adj hadj hac hends (sccFuel g)).1 n.id vs []
          (unvis_lt_sccFuel g vs.1) hv (hns n (List.mem_cons_self _ _)) hinv
          (fun c hc => absurd hc (List.not_mem_nil c))
      obtain ⟨hi, hmono, hall⟩ :=
        ih _ (fun m hm => hns m (List.mem_cons_of_mem _ hm)) hi1
      refine ⟨hi, fun x hx => hmono x (hm x hx), ?_⟩
      intro m hm2
      rcases List.mem_cons.mp hm2 with h | h
      · rw [h]
        exact hmono _ ((hi1.1 n.id).mpr (Or.inl hstk))
      · exact hall m h

/-! ### The second Kosaraju pass on an acyclic graph (C2, part B) -/

theorem dfs2_skip (radj : List (String × List String)) (fuel : Nat) :
    ∀ (nbs : List String) (vc : List String × List String),
      (∀ nb ∈ nbs, nb ∈ vc.1) →
      nbs.foldl (fun vc nb => if nb ∈ vc.1 then vc else dfs2 radj fuel nb vc) vc = vc := by
  intro nbs
  induction nbs with
  | nil =>
    intro vc _
    rfl
  | cons nb rest ih =>
    intro vc h
    simp only [List.foldl_cons]
    rw [if_pos (h nb (List.mem_cons_self _ _))]
    exact ih vc (fun x hx => h x (List.mem_cons_of_mem _ hx))

theorem dfs2_all_visited (radj : List (String × List String)) (f : Nat) (n : String)
    (visited : List String) (h : ∀ nb ∈ adjGetD radj n, nb ∈ visited) :
    dfs2 radj (f + 1) n (visited, []) = (addIfNew n visited, [n]) := by
  simp only [dfs2]
  have hmem : ∀ nb ∈ adjGetD radj n,
      nb ∈ ((addIfNew n visited, ([] : List String) ++ [n])).1 :=
    fun nb hnb => (mem_addIfNew n nb visited).mpr (Or.inl (h nb hnb))
  exact (dfs2_skip radj f (adjGetD radj n) _ hmem).trans (by rfl)

/-- Popping a finish-ordered stack in reverse on an acyclic graph: every
reverse-neighbour of the popped node is already visited, so each component
is a singleton and nothing is reported. -/
theorem pass2_nil (g : Graph) (radj : List (String × List String))
    (hradj : ∀ k, adjGetD radj k = tgtSources g.edges k)
    (S : List String) (hnd : S.Nodup) (hord : POrdF g S)
    (hsrc : ∀ e ∈ g.edges, e.source ∈ S) (f : Nat) :
    ∀ (L : List String), ∀ (visited P : List String),
      S.reverse = P ++ L → (∀ x, x ∈ visited ↔ x ∈ P) →
      pass2 radj (f + 1) L visited [] = [] := by
  intro L
  induction L with
  | nil =>
    intro visited P _ _
    rfl
  | cons n rest ih =>
    intro visited P hSP hvis
    simp only [pass2]
    by_cases hv : n ∈ visited
    · rw [if_pos hv]
      refine ih visited (P ++ [n]) (by rw [List.append_assoc]; exact hSP) ?_
      intro x
      rw [hvis x, List.mem_append, List.mem_singleton]
      constructor
      · exact Or.inl
      · rintro (h | h)
        · exact h
        · rw [h]
          exact (hvis n).mp hv
    · rw [if_neg hv]
      have hnP : n ∉ P := fun hc => hv ((hvis n).mpr hc)
      have hnS : n ∈ S := by
        rw [← List.mem_reverse, hSP]
        exact List.mem_append_right _ (List.mem_cons_self _ _)
      have hposn : posOf S.reverse n = P.length := by
        rw [hSP, posOf_append_not_mem P (n :: rest) n hnP]
        simp [posOf]
      have hnball : ∀ nb ∈ adjGetD radj n, nb ∈ visited := by
        intro nb hnb
        rw [hradj] at hnb
        rcases (mem_tgtSources g.edges n nb).mp hnb with ⟨e, he, ht, hs⟩
        have hsS : e.source ∈ S := hsrc e he
        obtain ⟨htS, hpos⟩ := hord e he hsS
        have hposS : posOf S n < posOf S nb := by
          rw [← ht, ← hs]
          exact hpos
        have hnbS : nb ∈ S := hs ▸ hsS
        have h1 := posOf_reverse S hnd n hnS
        have h2 := posOf_reverse S hnd nb hnbS
        have h3 := posOf_lt_length S nb hnbS
        have h4 := posOf_lt_length S n hnS
        have hrev : posOf S.reverse nb < posOf S.reverse n := by
          omega
        rw [hposn] at hrev
        have hnbP : nb ∈ P := by
          by_contra hc
          rw [hSP, posOf_append_not_mem P (n :: rest) nb hc] at hrev
          omega
        exact (hvis nb).mpr hnbP
      rw [dfs2_all_visited radj f n visited hnball]
      rw [if_neg (by simp : ¬ 1 < ([n] : List String).length)]
      refine ih (addIfNew n visited) (P ++ [n])
        (by rw [List.append_assoc]; exact hSP) ?_
      intro x
      rw [mem_addIfNew, List.mem_append, List.mem_singleton, hvis x]

/-- Part B of the C2 correction: on a valid acyclic graph the Kosaraju pass
reports no component at all. -/
theorem acyclic_scc_nil (g : Graph) (hval : ValidGraph g) (hac : Acyclic g) :
    findSCCE g = some [] := by
  obtain ⟨hids, hends, hpairs⟩ := hval
  obtain ⟨adj, radj, hbuild, hadj, hradj⟩ := findSCCE_char g hends
  rw [findSCCE_eq g adj radj hbuild]
  have hinv0 : Inv1 g ([], []) [] := by
    refine ⟨?_, List.nodup_nil, ?_, ?_, ?_⟩
    · intro x
      simp
    · intro x hx
      exact absurd hx (List.not_mem_nil x)
    · intro e he hs
      exact absurd hs (List.not_mem_nil _)
    · intro x hx
      exact absurd hx (List.not_mem_nil x)
  have htrg : ∀ e ∈ g.edges, e.target ∈ idList g := fun e he => (hends e he).2
  have hnids : ∀ n ∈ g.nodes, n.id ∈ idList g :=
    fun n hn => List.mem_map.mpr ⟨n, hn, rfl⟩
  obtain ⟨hinvf, -, hallf⟩ :=
    pass1_fold g adj hadj hac htrg g.nodes ([], []) hnids hinv0
  obtain ⟨hivf, hndf, -, hordf, -⟩ := hinvf
  have hvisS : ∀ x, x ∈ (g.nodes.foldl
      (fun vs n => if n.id ∈ vs.1 then vs else dfs1 adj (sccFuel g) n.id vs)
      ([], [])).1 ↔ x ∈ (g.nodes.foldl
      (fun vs n => if n.id ∈ vs.1 then vs else dfs1 adj (sccFuel g) n.id vs)
      ([], [])).2 := by
    intro x
    rw [hivf x]
    simp
  have hsrcS : ∀ e ∈ g.edges, e.source ∈ (g.nodes.foldl
      (fun vs n => if n.id ∈ vs.1 then vs else dfs1 adj (sccFuel g) n.id vs)
      ([], [])).2 := by
    intro e he
    have h2 : e.source ∈ g.nodes.map (fun n => n.id) := (hends e he).1
    rcases List.mem_map.mp h2 with ⟨n, hn, hid⟩
    exact (hvisS _).mp (hid ▸ hallf n hn)
  refine congrArg some
    (pass2_nil g radj hradj _ hndf hordf hsrcS g.nodes.length _ [] [] ?_ ?_)
  · rw [List.nil_append]
  · intro x
    exact Iff.rfl

/-! ### General (cyclic) correctness machinery for the C2 sharing conjunct -/

/-- Reachability along graph edges. -/
def Reach (g : Graph) (a b : String) : Prop :=
  Relation.ReflTransGen (edgeRel g) a b

theorem posOf_inj (S : List String) (hnd : S.Nodup) (x y : String)
    (hx : x ∈ S) (hy : y ∈ S) (h : posOf S x = posOf S y) : x = y := by
  induction S with
  | nil => exact absurd hx (List.not_mem_nil x)
  | cons a r ih =>
    obtain ⟨har, hrnd⟩ := List.nodup_cons.mp hnd
    by_cases hax : a = x
    · by_cases hay : a = y
      · rw [← hax, ← hay]
      · rw [show posOf (a :: r) x = 0 from by simp [posOf, hax],
          show posOf (a :: r) y = posOf r y + 1 from by simp [posOf, hay]] at h
        omega
    · by_cases hay : a = y
      · rw [show posOf (a :: r) y = 0 from by simp [posOf, hay],
          show posOf (a :: r) x = posOf r x + 1 from by simp [posOf, hax]] at h
        omega
      · have hx' : x ∈ r := by
          rcases List.mem_cons.mp hx with h' | h'
          · exact absurd h'.symm hax
          · exact h'
        have hy' : y ∈ r := by
          rcases List.mem_cons.mp hy with h' | h'
          · exact absurd h'.symm hay
          · exact h'
        refine ih hrnd hx' hy' ?_
        rw [show posOf (a :: r) x = posOf r x + 1 from by simp [posOf, hax],
          show posOf (a :: r) y = posOf r y + 1 from by simp [posOf, hay]] at h
        omega

theorem nodup_decomp_facts (A B : List String) (v : String) (R : List String)
    (hnd : (A ++ (B ++ v :: R)).Nodup) : v ∉ A ∧ v ∉ B := by
  constructor
  · intro hc
    have h1 : v ∈ B ++ v :: R :=
      List.mem_append_right _ (List.mem_cons_self v R)
    exact (List.disjoint_of_nodup_append hnd) hc h1
  · intro hc
    have h2 : (B ++ v :: R).Nodup := (List.nodup_append.mp hnd).2.1
    have h1 : v ∈ v :: R := List.mem_cons_self v R
    exact (List.disjoint_of_nodup_append h2) hc h1

theorem pos_decomp_self (A B : List String) (v : String) (R : List String)
    (hnd : (A ++ (B ++ v :: R)).Nodup) :
    posOf (A ++ (B ++ v :: R)) v = A.length + B.length := by
  obtain ⟨hvA, hvB⟩ := nodup_decomp_facts A B v R hnd
  rw [posOf_append_not_mem _ _ _ hvA, posOf_append_not_mem _ _ _ hvB]
  simp [posOf]

theorem pos_decomp_left (A B : List String) (v : String) (R : List String)
    (y : String) (hy : y ∈ A ∨ y ∈ B) :
    posOf (A ++ (B ++ v :: R)) y < A.length + B.length := by
  by_cases hyA : y ∈ A
  · rw [posOf_append_mem _ _ _ hyA]
    have := posOf_lt_length A y hyA
    omega
  · rcases hy with h | h
    · exact absurd h hyA
    · rw [posOf_append_not_mem _ _ _ hyA, posOf_append_mem _ _ _ h]
      have := posOf_lt_length B y h
      omega

theorem pos_decomp_right (A B : List String) (v : String) (R : List String)
    (y : String) (h1 : y ∉ A) (h2 : y ∉ B) (h3 : y ≠ v) :
    A.length + B.length < posOf (A ++ (B ++ v :: R)) y := by
  rw [posOf_append_not_mem _ _ _ h1, posOf_append_not_mem _ _ _ h2]
  have h4 : v ≠ y := fun hc => h3 hc.symm
  simp [posOf, h4]

theorem posOf?_lt_length (l : List String) (x : String) (j : Nat)
    (h : posOf? l x = some j) : j < l.length := by
  induction l generalizing j with
  | nil => simp [posOf?] at h
  | cons a r ih =>
    rw [posOf?] at h
    by_cases ha : a = x
    · rw [if_pos ha] at h
      injection h with h
      simp [← h]
    · rw [if_neg ha] at h
      cases hr : posOf? r x with
      | none => rw [hr] at h; simp at h
      | some j' =>
        rw [hr] at h
        simp at h
        have := ih j' hr
        simp [List.length_cons]
        omega

/-- Every node reachable from `node` is inside the finished region `S` or
is reached through an element of the chain `C`. -/
theorem reach_closure (g : Graph) (S C : List String) (node : String)
    (hnode : node ∈ S)
    (H1 : ∀ w y, w ∈ S → edgeRel g w y → y ∈ S ∨ y ∈ C) :
    ∀ y, Reach g node y →
      y ∈ S ∨ ∃ c ∈ C, Reach g node c ∧ Reach g c y := by
  intro y hy
  induction hy with
  | refl => exact Or.inl hnode
  | tail h1 h2 ih =>
    rcases ih with hb | ⟨c, hcC, h3, h4⟩
    · rcases H1 _ _ hb h2 with h | h
      · exact Or.inl h
      · exact Or.inr ⟨_, h, Relation.ReflTransGen.tail h1 h2, Relation.ReflTransGen.refl⟩
    · exact Or.inr ⟨c, hcC, h3, Relation.ReflTransGen.tail h4 h2⟩

/-- Positions strictly decrease along the transitive closure of any
edge relation that is position-decreasing. -/
theorem transGen_lt {E : String → String → Prop} (l : List String)
    (hresp : ∀ a b, E a b → posOf l b < posOf l a) :
    ∀ a b, Relation.TransGen E a b → posOf l b < posOf l a := by
  intro a b h
  induction h with
  | single h1 => exact hresp _ _ h1
  | tail _ h2 ih => exact lt_trans (hresp _ _ h2) ih

/-- A non-trivial closed walk restricted to the strongly connected class of
`n`: every step's endpoints are mutually reachable with `n`. -/
theorem transGen_restrict (g : Graph) (n : String) :
    ∀ a b, Relation.TransGen (edgeRel g) a b →
      Reach g n a → Reach g b n →
      Relation.TransGen (fun x y => edgeRel g x y ∧
        (Reach g n x ∧ Reach g x n) ∧ (Reach g n y ∧ Reach g y n)) a b := by
  intro a b h
  induction h with
  | single h1 =>
    intro hna hbn
    exact Relation.TransGen.single
      ⟨h1, ⟨hna, Relation.ReflTransGen.head h1 hbn⟩,
        ⟨hna.tail h1, hbn⟩⟩
  | tail h1 h2 ih =>
    intro hna hcn
    have hbn : Reach g _ n := Relation.ReflTransGen.head h2 hcn
    have h3 := ih hna hbn
    have hnb : Reach g n _ := hna.trans h1.to_reflTransGen
    exact h3.tail ⟨h2, ⟨hnb, hbn⟩, ⟨hnb.tail h2, hcn⟩⟩

/-- The collection ghost of `dfs2`: the component grows by appending newly
visited nodes, each of which reaches the collection target, and every
collected node has all its reverse neighbours visited at the end. -/
theorem dfs2_ghost (g : Graph) (radj : List (String × List String))
    (hradj : ∀ k, adjGetD radj k = tgtSources g.edges k)
    (hsrc : ∀ e ∈ g.edges, e.source ∈ idList g) : ∀ fuel : Nat,
    (∀ (node t : String) (vc : List String × List String),
      unvisCount (idList g) vc.1 < fuel → node ∉ vc.1 → node ∈ idList g →
      Reach g node t → (∀ x ∈ vc.1, x ∈ idList g) →
      ∃ E, (dfs2 radj fuel node vc).2 = vc.2 ++ [node] ++ E ∧
        (∀ x, x ∈ (dfs2 radj fuel node vc).1 ↔ x ∈ vc.1 ∨ x = node ∨ x ∈ E) ∧
        (∀ x ∈ E, x ∉ vc.1 ∧ x ≠ node ∧ x ∈ idList g ∧ Reach g x t) ∧
        (∀ x, (x = node ∨ x ∈ E) →
          ∀ nb ∈ adjGetD radj x, nb ∈ (dfs2 radj fuel node vc).1)) ∧
    (∀ (nbs : List String) (t : String) (vc : List String × List String),
      (∀ nb ∈ nbs, Reach g nb t) → (∀ nb ∈ nbs, nb ∈ idList g) →
      unvisCount (idList g) vc.1 < fuel → (∀ x ∈ vc.1, x ∈ idList g) →
      ∃ E, (nbs.foldl (fun vc nb => if nb ∈ vc.1 then vc
          else dfs2 radj fuel nb vc) vc).2 = vc.2 ++ E ∧
        (∀ x, x ∈ (nbs.foldl (fun vc nb => if nb ∈ vc.1 then vc
          else dfs2 radj fuel nb vc) vc).1 ↔ x ∈ vc.1 ∨ x ∈ E) ∧
        (∀ x ∈ E, x ∉ vc.1 ∧ x ∈ idList g ∧ Reach g x t) ∧
        (∀ x ∈ E, ∀ nb ∈ adjGetD radj x, nb ∈ (nbs.foldl
          (fun vc nb => if nb ∈ vc.1 then vc else dfs2 radj fuel nb vc) vc).1) ∧
        (∀ nb ∈ nbs, nb ∈ (nbs.foldl (fun vc nb => if nb ∈ vc.1 then vc
          else dfs2 radj fuel nb vc) vc).1)) := by
  intro fuel
  induction fuel with
  | zero =>
    constructor
    · intro node t vc hfuel
      omega
    · intro nbs t vc h1 h2 hfuel
      omega
  | succ f ih =>
    have hA : ∀ (node t : String) (vc : List String × List String),
        unvisCount (idList g) vc.1 < f + 1 → node ∉ vc.1 → node ∈ idList g →
        Reach g node t → (∀ x ∈ vc.1, x ∈ idList g) →
        ∃ E, (dfs2 radj (f + 1) node vc).2 = vc.2 ++ [node] ++ E ∧
          (∀ x, x ∈ (dfs2 radj (f + 1) node vc).1 ↔ x ∈ vc.1 ∨ x = node ∨ x ∈ E) ∧
          (∀ x ∈ E, x ∉ vc.1 ∧ x ≠ node ∧ x ∈ idList g ∧ Reach g x t) ∧
          (∀ x, (x = node ∨ x ∈ E) →
            ∀ nb ∈ adjGetD radj x, nb ∈ (dfs2 radj (f + 1) node vc).1) := by
      intro node t vc hfuel hnode hnodeU ht hvc
      simp only [dfs2]
      have hst1vis : ∀ x, x ∈ addIfNew node vc.1 ↔ x ∈ vc.1 ∨ x = node :=
        fun x => mem_addIfNew node x vc.1
      have hfuel1 : unvisCount (idList g) (addIfNew node vc.1) < f := by
        have hstrict := unvisCount_strict (idList g) vc.1 (addIfNew node vc.1) node
          hnodeU hnode ((hst1vis node).mpr (Or.inr rfl))
          (fun y hy => (hst1vis y).mpr (Or.inl hy))
        omega
      have hnbsR : ∀ nb ∈ adjGetD radj node, Reach g nb t := by
        intro nb hnb
        rw [hradj] at hnb
        rcases (mem_tgtSources g.edges node nb).mp hnb with ⟨e, he, htg, hs⟩
        exact Relation.ReflTransGen.head ⟨e, he, hs, htg⟩ ht
      have hnbsI : ∀ nb ∈ adjGetD radj node, nb ∈ idList g := by
        intro nb hnb
        rw [hradj] at hnb
        rcases (mem_tgtSources g.edges node nb).mp hnb with ⟨e, he, htg, hs⟩
        exact hs ▸ hsrc e he
      have hvc1 : ∀ x ∈ addIfNew node vc.1, x ∈ idList g := by
        intro x hx
        rcases (hst1vis x).mp hx with h | h
        · exact hvc x h
        · exact h ▸ hnodeU
      obtain ⟨E, hE2, hiff, hEf, hEcl, hnbs⟩ :=
        ih.2 (adjGetD radj node) t (addIfNew node vc.1, vc.2 ++ [node])
          hnbsR hnbsI hfuel1 hvc1
      refine ⟨E, hE2, ?_, ?_, ?_⟩
      · intro x
        rw [hiff x]
        have : x ∈ (addIfNew node vc.1, vc.2 ++ [node]).1 ↔ x ∈ vc.1 ∨ x = node :=
          hst1vis x
        rw [this]
        tauto
      · intro x hx
        obtain ⟨h1, h2, h3⟩ := hEf x hx
        have h4 : ¬(x ∈ vc.1 ∨ x = node) := fun hc => h1 ((hst1vis x).mpr hc)
        exact ⟨fun hc => h4 (Or.inl hc), fun hc => h4 (Or.inr hc), h2, h3⟩
      · intro x hx nb hnb
        rcases hx with h | h
        · rw [h] at hnb
          exact hnbs nb hnb
        · exact hEcl x h nb hnb
    refine ⟨hA, ?_⟩
    intro nbs t vc h1 h2 hfuel hvc
    induction nbs generalizing vc with
    | nil =>
      refine ⟨[], (List.append_nil _).symm, ?_, ?_, ?_, ?_⟩
      · intro x
        simp
      · intro x hx
        exact absurd hx (List.not_mem_nil x)
      · intro x hx
        exact absurd hx (List.not_mem_nil x)
      · intro nb hnb
        exact absurd hnb (List.not_mem_nil nb)
    | cons nb rest ihn =>
      simp only [List.foldl_cons]
      by_cases hv : nb ∈ vc.1
      · rw [if_pos hv]
        obtain ⟨E, hE2, hiff, hEf, hEcl, hnbs⟩ :=
          ihn vc (fun x hx => h1 x (List.mem_cons_of_mem _ hx))
            (fun x hx => h2 x (List.mem_cons_of_mem _ hx)) hfuel hvc
        refine ⟨E, hE2, hiff, hEf, hEcl, ?_⟩
        intro x hx
        rcases List.mem_cons.mp hx with h | h
        · rw [h]
          exact (hiff nb).mpr (Or.inl hv)
        · exact hnbs x h
      · rw [if_neg hv]
        obtain ⟨E1, hA2, hAiff, hAEf, hAcl⟩ :=
          hA nb t vc hfuel hv (h2 nb (List.mem_cons_self _ _))
            (h1 nb (List.mem_cons_self _ _)) hvc
        have hsub : ∀ x ∈ vc.1, x ∈ (dfs2 radj (f + 1) nb vc).1 :=
          fun x hx => (hAiff x).mpr (Or.inl hx)
        have hfuel' : unvisCount (idList g) (dfs2 radj (f + 1) nb vc).1 < f + 1 := by
          have := unvisCount_mono (idList g) vc.1 (dfs2 radj (f + 1) nb vc).1 hsub
          omega
        have hvc' : ∀ x ∈ (dfs2 radj (f + 1) nb vc).1, x ∈ idList g := by
          intro x hx
          rcases (hAiff x).mp hx with h | h | h
          · exact hvc x h
          · exact h ▸ h2 nb (List.mem_cons_self _ _)
          · exact (hAEf x h).2.2.1
        obtain ⟨E2, hB2, hBiff, hBEf, hBcl, hBnbs⟩ :=
          ihn _ (fun x hx => h1 x (List.mem_cons_of_mem _ hx))
            (fun x hx => h2 x (List.mem_cons_of_mem _ hx)) hfuel' hvc'
        refine ⟨nb :: (E1 ++ E2), ?_, ?_, ?_, ?_, ?_⟩
        · rw [hB2, hA2]
          simp [List.append_assoc]
        · intro x
          rw [hBiff x, hAiff x]
          simp only [List.mem_cons, List.mem_append]
          tauto
        · intro x hx
          rcases List.mem_cons.mp hx with h | h
          · rw [h]
            exact ⟨hv, h2 nb (List.mem_cons_self _ _), h1 nb (List.mem_cons_self _ _)⟩
          · rcases List.mem_append.mp h with h' | h'
            · obtain ⟨ha, -, hb, hc⟩ := hAEf x h'
              exact ⟨ha, hb, hc⟩
            · obtain ⟨ha, hb, hc⟩ := hBEf x h'
              exact ⟨fun hc' => ha (hsub x hc'), hb, hc⟩
        · intro x hx nb' hnb'
          rcases List.mem_cons.mp hx with h | h
          · exact (hBiff nb').mpr (Or.inl (hAcl x (Or.inl h) nb' hnb'))
          · rcases List.mem_append.mp h with h' | h'
            · exact (hBiff nb').mpr (Or.inl (hAcl x (Or.inr h') nb' hnb'))
            · exact hBcl x h' nb' hnb'
        · intro x hx
          rcases List.mem_cons.mp hx with h | h
          · rw [h]
            exact (hBiff nb).mpr (Or.inl ((hAiff nb).mpr (Or.inr (Or.inl rfl))))
          · exact hBnbs x h

/-- Completeness of a `dfs2` collection: with a mutually-closed prior
visited set, every node mutually reachable with the collection root is
collected. -/
theorem comp_complete (g : Graph) (radj : List (String × List String))
    (hradj : ∀ k, adjGetD radj k = tgtSources g.edges k)
    (V : List String) (n : String) (E : List String) (res : List String)
    (hiff : ∀ x, x ∈ res ↔ x ∈ V ∨ x = n ∨ x ∈ E)
    (hcl : ∀ x, (x = n ∨ x ∈ E) → ∀ nb ∈ adjGetD radj x, nb ∈ res)
    (hVmc : ∀ y ∈ V, ∀ z, Reach g y z → Reach g z y → z ∈ V)
    (hnV : n ∉ V) :
    ∀ z, Reach g z n → Reach g n z → z = n ∨ z ∈ E := by
  intro z hzn
  refine Relation.ReflTransGen.head_induction_on hzn ?_ ?_
  · intro _
    exact Or.inl rfl
  · intro a c hac hcn ihc hna
    have hnc : Reach g n c := hna.tail hac
    have hexp := hcl c (ihc hnc)
    have ha : a ∈ adjGetD radj c := by
      rw [hradj]
      obtain ⟨e, he, hs, htg⟩ := hac
      exact (mem_tgtSources g.edges c a).mpr ⟨e, he, htg, hs⟩
    have haR := hexp a ha
    rcases (hiff a).mp haR with h | h
    · exfalso
      have han : Reach g a n := Relation.ReflTransGen.head hac hcn
      exact hnV (hVmc a h n han hna)
    · exact h

/-- The per-node call record of `dfs1`: the stack splits into the part
finished before the node's call, the subtree finished within it, the node
and the rest; chain ancestors at call time reach the node; and everything
reachable from the node lies in its past-or-subtree or escapes through an
ancestor lying on the reaching path. -/
def RecOf (g : Graph) (vis S : List String) (v : String) : Prop :=
  ∃ (A B C R : List String), S = A ++ (B ++ v :: R) ∧
    (∀ c ∈ C, Reach g c v ∧ c ∉ A ∧ c ∉ B ∧ c ≠ v ∧ c ∈ vis) ∧
    (∀ y, Reach g v y →
      (y ∈ A ∨ y ∈ B ∨ y = v) ∨ ∃ c ∈ C, Reach g v c ∧ Reach g c y)

theorem recOf_vis_mono (g : Graph) (vis vis' S : List String) (v : String)
    (h : RecOf g vis S v) (hm : ∀ x ∈ vis, x ∈ vis') : RecOf g vis' S v := by
  obtain ⟨A, B, C, R, hS, hC, hcl⟩ := h
  exact ⟨A, B, C, R, hS, fun c hc =>
    ⟨(hC c hc).1, (hC c hc).2.1, (hC c hc).2.2.1, (hC c hc).2.2.2.1,
      hm c (hC c hc).2.2.2.2⟩, hcl⟩

theorem recOf_append (g : Graph) (vis S E : List String) (v : String)
    (h : RecOf g vis S v) : RecOf g vis (S ++ E) v := by
  obtain ⟨A, B, C, R, hS, hC, hcl⟩ := h
  refine ⟨A, B, C, R ++ E, ?_, hC, hcl⟩
  rw [hS]
  simp [List.append_assoc]

/-- The general `dfs1` state invariant: visited splits into finished stack
and chain, the stack nodes have all successors visited, and every stack
node carries its call record. -/
def Inv1G (g : Graph) (vs : List String × List String) (C : List String) : Prop :=
  (∀ x, x ∈ vs.1 ↔ x ∈ vs.2 ∨ x ∈ C) ∧
    vs.2.Nodup ∧ (∀ x ∈ vs.2, x ∉ C) ∧
    (∀ x ∈ vs.1, x ∈ idList g) ∧
    (∀ v ∈ vs.2, ∀ e ∈ g.edges, e.source = v → e.target ∈ vs.1) ∧
    (∀ v ∈ vs.2, RecOf g vs.1 vs.2 v)

theorem inv1G_push (g : Graph) (vs : List String × List String) (C : List String)
    (node : String) (hnode : node ∉ vs.1) (hnodeU : node ∈ idList g)
    (hinv : Inv1G g vs C) :
    Inv1G g (addIfNew node vs.1, vs.2) (C ++ [node]) := by
  obtain ⟨hiv, hnd, hdis, hiu, hncl, hrec⟩ := hinv
  refine ⟨?_, hnd, ?_, ?_, ?_, ?_⟩
  · intro x
    show x ∈ addIfNew node vs.1 ↔ x ∈ vs.2 ∨ x ∈ C ++ [node]
    rw [mem_addIfNew, hiv x]
    simp only [List.mem_append, List.mem_singleton]
    tauto
  · intro x hx
    show x ∉ C ++ [node]
    rw [List.mem_append, List.mem_singleton]
    rintro (h | h)
    · exact hdis x hx h
    · exact hnode (h ▸ (hiv x).mpr (Or.inl hx))
  · intro x hx
    have hx' : x ∈ addIfNew node vs.1 := hx
    rw [mem_addIfNew] at hx'
    rcases hx' with h | h
    · exact hiu x h
    · exact h ▸ hnodeU
  · intro v hv e he hs
    show e.target ∈ addIfNew node vs.1
    rw [mem_addIfNew]
    exact Or.inl (hncl v hv e he hs)
  · intro v hv
    exact recOf_vis_mono g vs.1 _ vs.2 v (hrec v hv)
      (fun x hx => (mem_addIfNew node x vs.1).mpr (Or.inl hx))

theorem inv1G_finish (g : Graph) (vs0 : List String)
    (vsF : List String × List String) (C : List String) (node : String)
    (E : List String)
    (hinv : Inv1G g vsF (C ++ [node]))
    (hstack : vsF.2 = vs0 ++ E)
    (hnodeC : node ∉ C)
    (hC : ∀ c ∈ C, Reach g c node)
    (htargets : ∀ e ∈ g.edges, e.source = node → e.target ∈ vsF.1) :
    Inv1G g (vsF.1, vsF.2 ++ [node]) C := by
  obtain ⟨hiv, hnd, hdis, hiu, hncl, hrec⟩ := hinv
  have hnodemem : node ∈ C ++ [node] :=
    List.mem_append_right _ (List.mem_singleton_self node)
  have hnodeS : node ∉ vsF.2 := fun hc => hdis node hc hnodemem
  have H1 : ∀ w y, w ∈ vsF.2 ++ [node] → edgeRel g w y →
      y ∈ vsF.2 ++ [node] ∨ y ∈ C := by
    intro w y hw hwy
    obtain ⟨e, he, hs, htg⟩ := hwy
    have hyvis : y ∈ vsF.1 := by
      rcases List.mem_append.mp hw with h | h
      · exact htg ▸ hncl w h e he hs
      · rw [List.mem_singleton] at h
        exact htg ▸ htargets e he (h ▸ hs)
    rcases (hiv y).mp hyvis with h | h
    · exact Or.inl (List.mem_append_left _ h)
    · rcases List.mem_append.mp h with h' | h'
      · exact Or.inr h'
      · exact Or.inl (List.mem_append_right _ h')
  have hclosure := reach_closure g (vsF.2 ++ [node]) C node
    (List.mem_append_right _ (List.mem_singleton_self node)) H1
  refine ⟨?_, ?_, ?_, ?_, ?_, ?_⟩
  · intro x
    show x ∈ vsF.1 ↔ x ∈ vsF.2 ++ [node] ∨ x ∈ C
    rw [hiv x]
    simp only [List.mem_append, List.mem_singleton]
    tauto
  · show (vsF.2 ++ [node]).Nodup
    rw [List.nodup_append]
    exact ⟨hnd, List.nodup_singleton node, by
      intro a ha hb
      rw [List.mem_singleton] at hb
      exact hnodeS (hb ▸ ha)⟩
  · intro x hx
    show x ∉ C
    rcases List.mem_append.mp hx with h | h
    · intro hc
      exact hdis x h (List.mem_append_left _ hc)
    · rw [List.mem_singleton] at h
      exact h ▸ hnodeC
  · exact hiu
  · intro v hv e he hs
    rcases List.mem_append.mp hv with h | h
    · exact hncl v h e he hs
    · rw [List.mem_singleton] at h
      exact htargets e he (h ▸ hs)
  · intro v hv
    rcases List.mem_append.mp hv with h | h
    · exact recOf_append g vsF.1 vsF.2 [node] v (hrec v h)
    · rw [List.mem_singleton] at h
      subst h
      refine ⟨vs0, E, C, [], ?_, ?_, ?_⟩
      · rw [hstack]
        simp [List.append_assoc]
      · intro c hc
        have hcC' : c ∈ C ++ [v] := List.mem_append_left _ hc
        have hcS : c ∉ vsF.2 := fun hcs => hdis c hcs hcC'
        refine ⟨hC c hc, ?_, ?_, ?_, (hiv c).mpr (Or.inr hcC')⟩
        · intro hcA
          exact hcS (by rw [hstack]; exact List.mem_append_left _ hcA)
        · intro hcB
          exact hcS (by rw [hstack]; exact List.mem_append_right _ hcB)
        · intro hcv
          exact hnodeC (hcv ▸ hc)
      · intro y hy
        rcases hclosure y hy with h | ⟨c, hcC, h1, h2⟩
        · rcases List.mem_append.mp h with h' | h'
          · rw [hstack] at h'
            rcases List.mem_append.mp h' with h'' | h''
            · exact Or.inl (Or.inl h'')
            · exact Or.inl (Or.inr (Or.inl h''))
          · rw [List.mem_singleton] at h'
            exact Or.inl (Or.inr (Or.inr h'))
        · exact Or.inr ⟨c, hcC, h1, h2⟩

/-- The general `dfs1` specification on arbitrary (possibly cyclic)
graphs: the stack grows by appending, the invariant with call records is
maintained, and the node ends on the stack. -/
theorem dfs1_specG (g : Graph) (adj : List (String × List String))
    (hadj : ∀ k, adjGetD adj k = srcTargets g.edges k)
    (hends : ∀ e ∈ g.edges, e.target ∈ idList g) : ∀ fuel : Nat,
    (∀ (node : String) (vs : List String × List String) (C : List String),
      unvisCount (idList g) vs.1 < fuel → node ∉ vs.1 → node ∈ idList g →
      Inv1G g vs C → (∀ c ∈ C, Reach g c node) → node ∉ C →
      ∃ E, (dfs1 adj fuel node vs).2 = vs.2 ++ E ++ [node] ∧
        Inv1G g (dfs1 adj fuel node vs) C ∧
        (∀ x, x ∈ (dfs1 adj fuel node vs).1 ↔ x ∈ vs.1 ∨ x ∈ E ∨ x = node) ∧
        (∀ x ∈ E, x ∉ vs.1)) ∧
    (∀ (nbs : List String) (node : String) (vs : List String × List String)
        (C : List String),
      (∀ nb ∈ nbs, edgeRel g node nb) →
      unvisCount (idList g) vs.1 < fuel → Inv1G g vs C →
      (∀ c ∈ C, Reach g c node) →
      ∃ E, (nbs.foldl (fun vs nb => if nb ∈ vs.1 then vs
          else dfs1 adj fuel nb vs) vs).2 = vs.2 ++ E ∧
        Inv1G g (nbs.foldl (fun vs nb => if nb ∈ vs.1 then vs
          else dfs1 adj fuel nb vs) vs) C ∧
        (∀ x, x ∈ (nbs.foldl (fun vs nb => if nb ∈ vs.1 then vs
          else dfs1 adj fuel nb vs) vs).1 ↔ x ∈ vs.1 ∨ x ∈ E) ∧
        (∀ x ∈ E, x ∉ vs.1) ∧
        (∀ nb ∈ nbs, nb ∈ (nbs.foldl (fun vs nb => if nb ∈ vs.1 then vs
          else dfs1 adj fuel nb vs) vs).1)) := by
  intro fuel
  induction fuel with
  | zero =>
    constructor
    · intro node vs C hfuel
      omega
    · intro nbs node vs C hU hfuel
      omega
  | succ f ih =>
    have hA : ∀ (node : String) (vs : List String × List String) (C : List String),
        unvisCount (idList g) vs.1 < f + 1 → node ∉ vs.1 → node ∈ idList g →
        Inv1G g vs C → (∀ c ∈ C, Reach g c node) → node ∉ C →
        ∃ E, (dfs1 adj (f + 1) node vs).2 = vs.2 ++ E ++ [node] ∧
          Inv1G g (dfs1 adj (f + 1) node vs) C ∧
          (∀ x, x ∈ (dfs1 adj (f + 1) node vs).1 ↔ x ∈ vs.1 ∨ x ∈ E ∨ x = node) ∧
          (∀ x ∈ E, x ∉ vs.1) := by
      intro node vs C hfuel hnode hnodeU hinv hC hnodeC
      simp only [dfs1]
      have hinv1 : Inv1G g (addIfNew node vs.1, vs.2) (C ++ [node]) :=
        inv1G_push g vs C node hnode hnodeU hinv
      have hstrict := unvisCount_strict (idList g) vs.1 (addIfNew node vs.1) node
        hnodeU hnode ((mem_addIfNew node node vs.1).mpr (Or.inr rfl))
        (fun y hy => (mem_addIfNew node y vs.1).mpr (Or.inl hy))
      have hfuel1 : unvisCount (idList g) (addIfNew node vs.1) < f := by
        omega
      have hCnode : ∀ c ∈ C ++ [node], Reach g c node := by
        intro c hc
        rcases List.mem_append.mp hc with h | h
        · exact hC c h
        · rw [List.mem_singleton] at h
          exact h ▸ Relation.ReflTransGen.refl
      have hnbs : ∀ nb ∈ adjGetD adj node, edgeRel g node nb := by
        intro nb hnb
        rw [hadj] at hnb
        rcases (mem_srcTargets g.edges node nb).mp hnb with ⟨e, he, hs, ht⟩
        exact ⟨e, he, hs, ht⟩
      obtain ⟨E, hE2, hiG, hiff, hnew, hall⟩ :=
        ih.2 (adjGetD adj node) node (addIfNew node vs.1, vs.2) (C ++ [node])
          hnbs hfuel1 hinv1 hCnode
      have htg : ∀ e ∈ g.edges, e.source = node →
          e.target ∈ ((adjGetD adj node).foldl (fun vs nb => if nb ∈ vs.1 then vs
            else dfs1 adj f nb vs) (addIfNew node vs.1, vs.2)).1 := by
        intro e he hs
        exact hall e.target (by
          rw [hadj]
          exact (mem_srcTargets g.edges node e.target).mpr ⟨e, he, hs, rfl⟩)
      have hfin := inv1G_finish g vs.2 _ C node E hiG hE2 hnodeC hC htg
      refine ⟨E, ?_, hfin, ?_, ?_⟩
      · rw [hE2]
      · intro x
        rw [hiff x]
        have hax : x ∈ (addIfNew node vs.1, vs.2).1 ↔ x ∈ vs.1 ∨ x = node :=
          mem_addIfNew node x vs.1
        rw [hax]
        tauto
      · intro x hx
        intro hc
        exact hnew x hx ((mem_addIfNew node x vs.1).mpr (Or.inl hc))
    refine ⟨hA, ?_⟩
    intro nbs node vs C h1 hfuel hinv hC
    induction nbs generalizing vs with
    | nil =>
      refine ⟨[], (List.append_nil _).symm, hinv, ?_, ?_, ?_⟩
      · intro x
        simp
      · intro x hx
        exact absurd hx (List.not_mem_nil x)
      · intro nb hnb
        exact absurd hnb (List.not_mem_nil nb)
    | cons nb rest ihn =>
      simp only [List.foldl_cons]
      by_cases hv : nb ∈ vs.1
      · rw [if_pos hv]
        obtain ⟨E, hE2, hiG, hiff, hnew, hall⟩ :=
          ihn vs (fun x hx => h1 x (List.mem_cons_of_mem _ hx)) hfuel hinv
        refine ⟨E, hE2, hiG, hiff, hnew, ?_⟩
        intro x hx
        rcases List.mem_cons.mp hx with h | h
        · rw [h]
          exact (hiff nb).mpr (Or.inl hv)
        · exact hall x h
      · rw [if_neg hv]
        have hnbid : nb ∈ idList g := by
          obtain ⟨e, he, hs, ht⟩ := h1 nb (List.mem_cons_self _ _)
          exact ht ▸ hends e he
        have hCnb : ∀ c ∈ C, Reach g c nb := fun c hc =>
          Relation.ReflTransGen.tail (hC c hc) (h1 nb (List.mem_cons_self _ _))
        have hnbC : nb ∉ C := fun hc => hv ((hinv.1 nb).mpr (Or.inr hc))
        obtain ⟨E1, hA2, hAinv, hAiff, hAnew⟩ :=
          hA nb vs C hfuel hv hnbid hinv hCnb hnbC
        have hsub : ∀ x ∈ vs.1, x ∈ (dfs1 adj (f + 1) nb vs).1 :=
          fun x hx => (hAiff x).mpr (Or.inl hx)
        have hfuel' : unvisCount (idList g) (dfs1 adj (f + 1) nb vs).1 < f + 1 := by
          have := unvisCount_mono (idList g) vs.1 (dfs1 adj (f + 1) nb vs).1 hsub
          omega
        obtain ⟨E2, hB2, hBinv, hBiff, hBnew, hBnbs⟩ :=
          ihn _ (fun x hx => h1 x (List.mem_cons_of_mem _ hx)) hfuel' hAinv
        refine ⟨E1 ++ nb :: E2, ?_, hBinv, ?_, ?_, ?_⟩
        · rw [hB2, hA2]
          simp [List.append_assoc]
        · intro x
          rw [hBiff x, hAiff x]
          simp only [List.mem_append, List.mem_cons]
          tauto
        · intro x hx
          rcases List.mem_append.mp hx with h | h
          · exact hAnew x h
          · rcases List.mem_cons.mp h with h' | h'
            · rw [h']
              exact hv
            · intro hc
              exact hBnew x h' (hsub x hc)
        · intro x hx
          rcases List.mem_cons.mp hx with h | h
          · rw [h]
            exact (hBiff nb).mpr (Or.inl ((hAiff nb).mpr (Or.inr (Or.inr rfl))))
          · exact hBnbs x h

/-- The first Kosaraju pass over the node list, general version carrying
the call records. -/
theorem pass1_foldG (g : Graph) (adj : List (String × List String))
    (hadj : ∀ k, adjGetD adj k = srcTargets g.edges k)
    (hends : ∀ e ∈ g.edges, e.target ∈ idList g) :
    ∀ (ns : List GraphNode) (vs : List String × List String),
      (∀ n ∈ ns, n.id ∈ idList g) → Inv1G g vs [] →
      (Inv1G g (ns.foldl (fun vs n => if n.id ∈ vs.1 then vs
          else dfs1 adj (sccFuel g) n.id vs) vs) [] ∧
        (∀ x ∈ vs.1, x ∈ (ns.foldl (fun vs n => if n.id ∈ vs.1 then vs
          else dfs1 adj (sccFuel g) n.id vs) vs).1) ∧
        (∀ n ∈ ns, n.id ∈ (ns.foldl (fun vs n => if n.id ∈ vs.1 then vs
          else dfs1 adj (sccFuel g) n.id vs) vs).1)) := by
  intro ns
  induction ns with
  | nil =>
    intro vs _ hinv
    exact ⟨hinv, fun x hx => hx, fun n hn => absurd hn (List.not_mem_nil n)⟩
  | cons n rest ih =>
    intro vs hns hinv
    simp only [List.foldl_cons]
    by_cases hv : n.id ∈ vs.1
    · rw [if_pos hv]
      obtain ⟨hi, hmono, hall⟩ :=
        ih vs (fun m hm => hns m (List.mem_cons_of_mem _ hm)) hinv
      refine ⟨hi, hmono, ?_⟩
      intro m hm
      rcases List.mem_cons.mp hm with h | h
      · rw [h]
        exact hmono _ hv
      · exact hall m h
    · rw [if_neg hv]
      obtain ⟨E, hE2, hAinv, hAiff, hAnew⟩ :=
        (dfs1_specG g adj hadj hends (sccFuel g)).1 n.id vs []
          (unvis_lt_sccFuel g vs.1) hv (hns n (List.mem_cons_self _ _)) hinv
          (fun c hc => absurd hc (List.not_mem_nil c))
          (List.not_mem_nil n.id)
      obtain ⟨hi, hmono, hall⟩ :=
        ih _ (fun m hm => hns m (List.mem_cons_of_mem _ hm)) hAinv
      refine ⟨hi, fun x hx => hmono x ((hAiff x).mpr (Or.inl hx)), ?_⟩
      intro m hm2
      rcases List.mem_cons.mp hm2 with h | h
      · rw [h]
        exact hmono _ ((hAiff n.id).mpr (Or.inr (Or.inr rfl)))
      · exact hall m h

/-- The hard direction of Kosaraju's correctness at a pass-2 root: with
complete call records and a mutually-closed visited set, every unprocessed
node reaching the maximal-finish root is reached back by it. -/
theorem claim_step (g : Graph) (S : List String) (hnd : S.Nodup)
    (hrec : ∀ v ∈ S, RecOf g S S v)
    (V : List String)
    (hVmc : ∀ y ∈ V, ∀ z, Reach g y z → Reach g z y → z ∈ V)
    (n : String) (hnS : n ∈ S) (hnV : n ∉ V)
    (habove : ∀ y ∈ S, posOf S n < posOf S y → y ∈ V) :
    ∀ x ∈ S, x ∉ V → Reach g x n → Reach g n x := by
  suffices h : ∀ k, ∀ x ∈ S, x ∉ V → Reach g x n →
      posOf S n - posOf S x < k → Reach g n x by
    intro x hx hxV hr
    exact h (posOf S n + 1) x hx hxV hr (by omega)
  intro k
  induction k with
  | zero =>
    intro x hx hxV hr habs
    omega
  | succ k ih =>
    intro x hxS hxV hxn hmeas
    by_cases hxeq : x = n
    · rw [hxeq]
      exact Relation.ReflTransGen.refl
    · have hposx : posOf S x < posOf S n := by
        have h1 : ¬ posOf S n < posOf S x := fun hc => hxV (habove x hxS hc)
        have h2 : posOf S x ≠ posOf S n := by
          intro hc
          exact hxeq (posOf_inj S hnd x n hxS hnS hc)
        omega
      obtain ⟨A, B, C, R, hS, hC, hcl⟩ := hrec x hxS
      have hxpos : posOf S x = A.length + B.length := by
        rw [hS]
        exact pos_decomp_self A B x R (hS ▸ hnd)
      rcases hcl n hxn with h | ⟨c, hcC, hxc, hcn⟩
      · exfalso
        rcases h with h | h | h
        · have hlt := pos_decomp_left A B x R n (Or.inl h)
          rw [← hS] at hlt
          omega
        · have hlt := pos_decomp_left A B x R n (Or.inr h)
          rw [← hS] at hlt
          omega
        · exact hxeq h.symm
      · obtain ⟨hcx, hcA, hcB, hcne, hcS⟩ := hC c hcC
        have hposc : posOf S x < posOf S c := by
          have hgt := pos_decomp_right A B x R c hcA hcB hcne
          rw [← hS] at hgt
          omega
        by_cases hceq : c = n
        · exact hceq ▸ hcx
        · by_cases hcV : c ∈ V
          · exact absurd (hVmc c hcV x hcx hxc) hxV
          · have hposcn : posOf S c < posOf S n := by
              have h1 : ¬ posOf S n < posOf S c := fun hc => hcV (habove c hcS hc)
              have h2 : posOf S c ≠ posOf S n := fun hc =>
                hceq (posOf_inj S hnd c n hcS hnS hc)
              omega
            have hrec2 := ih c hcS hcV hcn (by omega)
            exact hrec2.trans hcx

/-- A reported component is headed by a root with which every member is
mutually reachable, contains a second member, and is closed under mutual
reachability with the root. -/
def GoodComp (g : Graph) (c : List String) : Prop :=
  ∃ n m, n ∈ c ∧ m ∈ c ∧ m ≠ n ∧
    (∀ x ∈ c, Reach g x n ∧ Reach g n x) ∧
    (∀ w, Reach g w n → Reach g n w → w ∈ c)

theorem habove_of_prefix (S P L : List String) (n : String) (V : List String)
    (hnd : S.Nodup) (hrev : S.reverse = P ++ n :: L) (hnP : n ∉ P)
    (hPV : ∀ y ∈ P, y ∈ V) :
    ∀ y ∈ S, posOf S n < posOf S y → y ∈ V := by
  have hnS : n ∈ S := by
    rw [← List.mem_reverse, hrev]
    exact List.mem_append_right _ (List.mem_cons_self _ _)
  intro y hyS hpos
  have h1 := posOf_reverse S hnd y hyS
  have h2 := posOf_reverse S hnd n hnS
  have h3 := posOf_lt_length S y hyS
  have h4 := posOf_lt_length S n hnS
  have h5 : posOf S.reverse n = P.length := by
    rw [hrev, posOf_append_not_mem _ _ _ hnP]
    simp [posOf]
  have h6 : posOf S.reverse y < P.length := by
    omega
  have h7 : y ∈ P := by
    by_contra hc
    rw [hrev, posOf_append_not_mem _ _ _ hc] at h6
    omega
  exact hPV y h7

/-- The second Kosaraju pass, general version: every reported component is
the full mutual-reachability class of its root and has a second member. -/
theorem pass2_scc (g : Graph) (radj : List (String × List String))
    (hradj : ∀ k, adjGetD radj k = tgtSources g.edges k)
    (hsrc : ∀ e ∈ g.edges, e.source ∈ idList g)
    (S : List String) (hnd : S.Nodup)
    (hrec : ∀ v ∈ S, RecOf g S S v)
    (hSid : ∀ x ∈ S, x ∈ idList g)
    (hidS : ∀ x, x ∈ idList g → x ∈ S) :
    ∀ (L V P : List String) (comps : List (List String)),
      S.reverse = P ++ L →
      (∀ y ∈ P, y ∈ V) →
      (∀ y ∈ V, y ∈ idList g) →
      (∀ y ∈ V, ∀ z, Reach g y z → Reach g z y → z ∈ V) →
      (∀ c ∈ comps, GoodComp g c) →
      ∀ c ∈ pass2 radj (sccFuel g) L V comps, GoodComp g c := by
  intro L
  induction L with
  | nil =>
    intro V P comps _ _ _ _ hcomps c hc
    exact hcomps c hc
  | cons n rest ih =>
    intro V P comps hrev hPV hVid hVmc hcomps
    simp only [pass2]
    by_cases hv : n ∈ V
    · rw [if_pos hv]
      refine ih V (P ++ [n]) comps ?_ ?_ hVid hVmc hcomps
      · rw [List.append_assoc]
        exact hrev
      · intro y hy
        rcases List.mem_append.mp hy with h | h
        · exact hPV y h
        · rw [List.mem_singleton] at h
          exact h ▸ hv
    · rw [if_neg hv]
      have hnP : n ∉ P := fun hc => hv (hPV n hc)
      have hnS : n ∈ S := by
        rw [← List.mem_reverse, hrev]
        exact List.mem_append_right _ (List.mem_cons_self _ _)
      have hnid : n ∈ idList g := hSid n hnS
      have habove := habove_of_prefix S P rest n V hnd hrev hnP hPV
      obtain ⟨E, hE2, hEiff, hEf, hEcl⟩ :=
        (dfs2_ghost g radj hradj hsrc (sccFuel g)).1 n n (V, [])
          (unvis_lt_sccFuel g V) hv hnid Relation.ReflTransGen.refl hVid
      have hmut : ∀ x ∈ E, Reach g n x := by
        intro x hx
        obtain ⟨hxV, hxn, hxid, hxr⟩ := hEf x hx
        exact claim_step g S hnd hrec V hVmc n hnS hv habove x (hidS x hxid) hxV hxr
      have hcomp := comp_complete g radj hradj V n E _ hEiff hEcl hVmc hv
      have hE2' : (dfs2 radj (sccFuel g) n (V, [])).2 = n :: E := hE2
      have hVmc' : ∀ y ∈ (dfs2 radj (sccFuel g) n (V, [])).1, ∀ z,
          Reach g y z → Reach g z y → z ∈ (dfs2 radj (sccFuel g) n (V, [])).1 := by
        intro y hy z h1 h2
        rcases (hEiff y).mp hy with h | h | h
        · exact (hEiff z).mpr (Or.inl (hVmc y h z h1 h2))
        · subst h
          rcases hcomp z h2 h1 with h' | h'
          · exact (hEiff z).mpr (Or.inr (Or.inl h'))
          · exact (hEiff z).mpr (Or.inr (Or.inr h'))
        · have hyn : Reach g y n := (hEf y h).2.2.2
          have hny : Reach g n y := hmut y h
          have hzn : Reach g z n := h2.trans hyn
          have hnz : Reach g n z := hny.trans h1
          rcases hcomp z hzn hnz with h' | h'
          · exact (hEiff z).mpr (Or.inr (Or.inl h'))
          · exact (hEiff z).mpr (Or.inr (Or.inr h'))
      refine ih (dfs2 radj (sccFuel g) n (V, [])).1 (P ++ [n]) _ ?_ ?_ ?_ hVmc' ?_
      · rw [List.append_assoc]
        exact hrev
      · intro y hy
        rcases List.mem_append.mp hy with h | h
        · exact (hEiff y).mpr (Or.inl (hPV y h))
        · rw [List.mem_singleton] at h
          exact (hEiff y).mpr (Or.inr (Or.inl h))
      · intro y hy
        rcases (hEiff y).mp hy with h | h | h
        · exact hVid y h
        · exact h ▸ hnid
        · exact (hEf y h).2.2.1
      · intro c hc
        by_cases hlen : 1 < (dfs2 radj (sccFuel g) n (V, [])).2.length
        · rw [if_pos hlen] at hc
          rcases List.mem_append.mp hc with h | h
          · exact hcomps c h
          · rw [List.mem_singleton] at h
            subst h
            rw [hE2']
            rw [hE2'] at hlen
            cases E with
            | nil => simp at hlen
            | cons m E' =>
              refine ⟨n, m, List.mem_cons_self _ _,
                List.mem_cons_of_mem _ (List.mem_cons_self _ _), ?_, ?_, ?_⟩
              · exact (hEf m (List.mem_cons_self _ _)).2.1
              · intro x hx
                rcases List.mem_cons.mp hx with h | h
                · rw [h]
                  exact ⟨Relation.ReflTransGen.refl, Relation.ReflTransGen.refl⟩
                · exact ⟨(hEf x h).2.2.2, hmut x h⟩
              · intro w h1 h2
                rcases hcomp w h1 h2 with h | h
                · rw [h]
                  exact List.mem_cons_self _ _
                · exact List.mem_cons_of_mem _ h
        · rw [if_neg hlen] at hc
          exact hcomps c hc

/-- Some reported cycle contains both endpoints. -/
def TouchEsc (cycles : List (List String)) (a b : String) : Prop :=
  ∃ c ∈ cycles, a ∈ c ∧ b ∈ c

theorem touchEsc_mono (cycles cycles' : List (List String)) (a b : String)
    (h : TouchEsc cycles a b) (hpre : cycles <+: cycles') : TouchEsc cycles' a b := by
  obtain ⟨c, hc, h1, h2⟩ := h
  exact ⟨c, hpre.subset hc, h1, h2⟩

/-- The general finish-order of `detectCycles`: along every edge out of a
finished node the finish position decreases, unless some emitted cycle
contains both endpoints. -/
def POrdT (g : Graph) (F : List String) (cycles : List (List String)) : Prop :=
  ∀ e ∈ g.edges, e.source ∈ F →
    (e.target ∈ F ∧ posOf F e.target < posOf F e.source) ∨
      TouchEsc cycles e.source e.target

/-- The unconditional ghost invariant of the `detectCycles` DFS. -/
def DetInvT (g : Graph) (st : DetSt) (F : List String) : Prop :=
  (∀ x, x ∈ st.visited ↔ x ∈ F ∨ x ∈ st.recStack) ∧
    F.Nodup ∧ (∀ x ∈ F, x ∉ st.recStack) ∧ POrdT g F st.cycles ∧
    (∀ x ∈ st.visited, x ∈ detUniv g)

theorem detInvT_push (g : Graph) (st : DetSt) (F : List String) (node : String)
    (hnode : node ∉ st.visited) (hnodeU : node ∈ detUniv g)
    (hrsvis : ∀ x ∈ st.recStack, x ∈ st.visited)
    (hinv : DetInvT g st F) :
    DetInvT g { st with visited := addIfNew node st.visited
                        recStack := addIfNew node st.recStack } F := by
  obtain ⟨hiv, hnd, hdis, hord, hiu⟩ := hinv
  have hnoderS : node ∉ st.recStack := fun hc => hnode (hrsvis node hc)
  have hrs1 : addIfNew node st.recStack = st.recStack ++ [node] :=
    addIfNew_not_mem node st.recStack hnoderS
  refine ⟨?_, hnd, ?_, hord, ?_⟩
  · intro x
    show x ∈ addIfNew node st.visited ↔ x ∈ F ∨ x ∈ addIfNew node st.recStack
    rw [mem_addIfNew, hiv x, hrs1]
    simp only [List.mem_append, List.mem_singleton]
    tauto
  · intro x hx
    show x ∉ addIfNew node st.recStack
    rw [hrs1, List.mem_append, List.mem_singleton]
    rintro (h | h)
    · exact hdis x hx h
    · exact hnode (h ▸ (hiv x).mpr (Or.inl hx))
  · intro x hx
    have hx' : x ∈ addIfNew node st.visited := hx
    rw [mem_addIfNew] at hx'
    rcases hx' with h | h
    · exact hiu x h
    · exact h ▸ hnodeU

theorem detInvT_visitedStep (g : Graph) (p : List String) (st : DetSt) (nb : String)
    (F : List String) (hinv : DetInvT g st F) :
    DetInvT g (detVisitedStep p st nb) F := by
  obtain ⟨hd1, hd2, hd3⟩ := detVisitedStep_state p st nb
  obtain ⟨hiv, hnd, hdis, hord, hiu⟩ := hinv
  refine ⟨?_, hnd, ?_, ?_, ?_⟩
  · intro x
    rw [hd2, hd1]
    exact hiv x
  · intro x hx
    rw [hd1]
    exact hdis x hx
  · intro e he hs
    rcases hord e he hs with h | h
    · exact Or.inl h
    · exact Or.inr (touchEsc_mono _ _ _ _ h hd3)
  · intro x hx
    rw [hd2] at hx
    exact hiu x hx

theorem detInvT_finish (g : Graph) (st2 : DetSt) (F1 : List String) (node : String)
    (path : List String)
    (hinv : DetInvT g st2 F1) (hrs2 : st2.recStack = path ++ [node])
    (hnodepath : node ∉ path)
    (hnb : ∀ e ∈ g.edges, e.source = node →
      e.target ∈ F1 ∨ TouchEsc st2.cycles node e.target) :
    DetInvT g { st2 with recStack := st2.recStack.erase node } (F1 ++ [node]) := by
  obtain ⟨hiv, hnd, hdis, hord, hiu⟩ := hinv
  have hnodeF1 : node ∉ F1 := fun hc => hdis node hc (by
    rw [hrs2]
    exact List.mem_append_right _ (List.mem_singleton_self node))
  have herase : st2.recStack.erase node = path := by
    rw [hrs2]
    exact erase_append_singleton path node hnodepath
  refine ⟨?_, ?_, ?_, ?_, ?_⟩
  · intro x
    show x ∈ st2.visited ↔ x ∈ F1 ++ [node] ∨ x ∈ st2.recStack.erase node
    rw [herase, hiv x, hrs2]
    simp only [List.mem_append, List.mem_singleton]
    tauto
  · show (F1 ++ [node]).Nodup
    rw [List.nodup_append]
    exact ⟨hnd, List.nodup_singleton node, by
      intro a ha hb
      rw [List.mem_singleton] at hb
      exact hnodeF1 (hb ▸ ha)⟩
  · intro x hx
    show x ∉ st2.recStack.erase node
    rw [herase]
    rcases List.mem_append.mp hx with h | h
    · intro hc
      exact hdis x h (by rw [hrs2]; exact List.mem_append_left _ hc)
    · rw [List.mem_singleton] at h
      exact h ▸ hnodepath
  · intro e he hsrc
    rcases List.mem_append.mp hsrc with h | h
    · rcases hord e he h with ⟨ht, hpos⟩ | htch
      · refine Or.inl ⟨List.mem_append_left _ ht, ?_⟩
        rw [posOf_append_mem _ _ _ ht, posOf_append_mem _ _ _ h]
        exact hpos
      · exact Or.inr htch
    · rw [List.mem_singleton] at h
      rcases hnb e he h with htF1 | htch
      · refine Or.inl ⟨List.mem_append_left _ htF1, ?_⟩
        rw [posOf_append_mem _ _ _ htF1, h, posOf_append_self F1 node hnodeF1]
        exact posOf_lt_length F1 e.target htF1
      · rw [h]
        exact Or.inr htch
  · intro x hx
    exact hiu x hx

/-- The unconditional ghost of the `detectCycles` DFS: a finish order always
exists in which every processed edge either decreases the finish position or
is covered by an emitted cycle containing both its endpoints. -/
theorem dfsD_ghostT (g : Graph) : ∀ fuel : Nat,
    (∀ (node : String) (path : List String) (st : DetSt) (F : List String),
      unvisCount (detUniv g) st.visited < fuel →
      node ∉ st.visited → node ∈ detUniv g → DetBasic g st → DetInvT g st F →
      st.recStack = path →
      ∃ F', F <+: F' ∧
        DetInvT g (dfsD (adjBuild g.edges) fuel node path st) F' ∧ node ∈ F') ∧
    (∀ (nbs : List String) (path0 : List String) (node : String) (st : DetSt)
        (F : List String),
      (∀ nb ∈ nbs, nb ∈ detUniv g) →
      unvisCount (detUniv g) st.visited < fuel → DetBasic g st → DetInvT g st F →
      st.recStack = path0 ++ [node] →
      ∃ F', F <+: F' ∧
        DetInvT g (nbs.foldl (fun st nb => if nb ∈ st.visited then
          detVisitedStep (path0 ++ [node]) st nb
          else dfsD (adjBuild g.edges) fuel nb (path0 ++ [node]) st) st) F' ∧
        (∀ nb ∈ nbs, nb ∈ F' ∨
          TouchEsc (nbs.foldl (fun st nb => if nb ∈ st.visited then
            detVisitedStep (path0 ++ [node]) st nb
            else dfsD (adjBuild g.edges) fuel nb (path0 ++ [node]) st) st).cycles
            node nb)) := by
  intro fuel
  induction fuel with
  | zero =>
    constructor
    · intro node path st F hfuel
      omega
    · intro nbs path0 node st F hU hfuel
      omega
  | succ f ih =>
    have hA : ∀ (node : String) (path : List String) (st : DetSt) (F : List String),
        unvisCount (detUniv g) st.visited < f + 1 →
        node ∉ st.visited → node ∈ detUniv g → DetBasic g st → DetInvT g st F →
        st.recStack = path →
        ∃ F', F <+: F' ∧
          DetInvT g (dfsD (adjBuild g.edges) (f + 1) node path st) F' ∧
          node ∈ F' := by
      intro node path st F hfuel hnode hnodeU hbasic hinvT hrs
      obtain ⟨hrsnd, hrsvis, hvisU⟩ := hbasic
      have hnoderS : node ∉ st.recStack := fun hc => hnode (hrsvis node hc)
      have hnodepath : node ∉ path := hrs ▸ hnoderS
      simp only [dfsD]
      set st1 : DetSt := { st with visited := addIfNew node st.visited
                                   recStack := addIfNew node st.recStack } with hst1
      have hst1vis : ∀ x, x ∈ st1.visited ↔ x ∈ st.visited ∨ x = node := by
        intro x
        exact mem_addIfNew node x st.visited
      have hst1rs : st1.recStack = st.recStack ++ [node] := by
        rw [hst1]
        simp only
        exact addIfNew_not_mem node st.recStack hnoderS
      have hbasic1 : DetBasic g st1 :=
        detBasic_push g st node hnode hnodeU ⟨hrsnd, hrsvis, hvisU⟩
      have hinvT1 : DetInvT g st1 F :=
        detInvT_push g st F node hnode hnodeU hrsvis hinvT
      have hfuel1 : unvisCount (detUniv g) st1.visited < f := by
        have hstrict := unvisCount_strict (detUniv g) st.visited st1.visited node
          hnodeU hnode ((hst1vis node).mpr (Or.inr rfl))
          (fun y hy => (hst1vis y).mpr (Or.inl hy))
        omega
      have hnbU : ∀ nb ∈ adjGetD (adjBuild g.edges) node, nb ∈ detUniv g :=
        fun nb hnb => adjBuild_targets_univ g node nb hnb
      have hrs1 : st1.recStack = path ++ [node] := by
        rw [hst1rs, hrs]
      obtain ⟨hf1, hf2, hf3, hf4, hf5⟩ :=
        (dfsD_basic g f).2 (adjGetD (adjBuild g.edges) node) (path ++ [node]) st1
          hnbU hfuel1 hbasic1
      obtain ⟨F1, hpre1, hinvF1, hnbd⟩ :=
        ih.2 (adjGetD (adjBuild g.edges) node) path node st1 F hnbU hfuel1
          hbasic1 hinvT1 hrs1
      have hrs2 := hf1.trans hrs1
      have hnbedges : ∀ e ∈ g.edges, e.source = node →
          e.target ∈ F1 ∨ TouchEsc ((adjGetD (adjBuild g.edges) node).foldl
            (fun st nb => if nb ∈ st.visited then detVisitedStep (path ++ [node]) st nb
              else dfsD (adjBuild g.edges) f nb (path ++ [node]) st) st1).cycles
            node e.target := by
        intro e he hsrc
        apply hnbd
        rw [adjBuild_getD]
        exact (mem_srcTargets g.edges node e.target).mpr ⟨e, he, hsrc, rfl⟩
      refine ⟨F1 ++ [node], hpre1.trans (List.prefix_append F1 [node]), ?_,
        List.mem_append_right _ (List.mem_singleton_self node)⟩
      exact detInvT_finish g _ F1 node path hinvF1 hrs2 hnodepath hnbedges
    refine ⟨hA, ?_⟩
    intro nbs path0 node st F hU hfuel hbasic hinvT hrs
    induction nbs generalizing st F with
    | nil =>
      exact ⟨F, List.prefix_refl F, hinvT,
        fun nb hnb => absurd hnb (List.not_mem_nil nb)⟩
    | cons nb rest ihn =>
      simp only [List.foldl_cons]
      by_cases hv : nb ∈ st.visited
      · rw [if_pos hv]
        obtain ⟨hd1, hd2, hd3⟩ := detVisitedStep_state (path0 ++ [node]) st nb
        have hbasic' : DetBasic g (detVisitedStep (path0 ++ [node]) st nb) :=
          detVisitedStep_basic g _ st nb hbasic
        have hfuel' : unvisCount (detUniv g)
            (detVisitedStep (path0 ++ [node]) st nb).visited < f + 1 := by
          rw [hd2]
          exact hfuel
        have hinv' : DetInvT g (detVisitedStep (path0 ++ [node]) st nb) F :=
          detInvT_visitedStep g _ st nb F hinvT
        have hrs' : (detVisitedStep (path0 ++ [node]) st nb).recStack =
            path0 ++ [node] := hd1.trans hrs
        have hpre2 := ((dfsD_basic g (f + 1)).2 rest (path0 ++ [node])
          (detVisitedStep (path0 ++ [node]) st nb)
          (fun x hx => hU x (List.mem_cons_of_mem _ hx)) hfuel' hbasic').2.2.2.2
        obtain ⟨F', hpre, hinvF, hall⟩ :=
          ihn _ F (fun x hx => hU x (List.mem_cons_of_mem _ hx)) hfuel' hbasic'
            hinv' hrs'
        refine ⟨F', hpre, hinvF, ?_⟩
        intro x hx
        rcases List.mem_cons.mp hx with h | h
        · rw [h]
          by_cases hnbrs : nb ∈ st.recStack
          · right
            obtain ⟨j, hj⟩ := posOf?_isSome_of_mem (path0 ++ [node]) nb (hrs ▸ hnbrs)
            have hjlt := posOf?_lt_length _ nb j hj
            have hjle : j ≤ path0.length := by
              rw [List.length_append, List.length_singleton] at hjlt
              omega
            have hdropeq : (path0 ++ [node]).drop j = path0.drop j ++ [node] :=
              List.drop_append_of_le_length hjle
            have hemit : (detVisitedStep (path0 ++ [node]) st nb).cycles =
                st.cycles ++ [(path0 ++ [node]).drop j ++ [nb]] := by
              unfold detVisitedStep
              rw [if_pos hnbrs, hj]
            have htouch : TouchEsc (detVisitedStep (path0 ++ [node]) st nb).cycles
                node nb := by
              refine ⟨(path0 ++ [node]).drop j ++ [nb], ?_, ?_, ?_⟩
              · rw [hemit]
                exact List.mem_append_right _ (List.mem_singleton_self _)
              · rw [hdropeq]
                exact List.mem_append_left _
                  (List.mem_append_right _ (List.mem_singleton_self node))
              · exact List.mem_append_right _ (List.mem_singleton_self nb)
            exact touchEsc_mono _ _ _ _ htouch hpre2
          · left
            have hnbF : nb ∈ F := by
              rcases (hinvT.1 nb).mp hv with h' | h'
              · exact h'
              · exact absurd h' hnbrs
            exact hpre.subset hnbF
        · exact hall x h
      · rw [if_neg hv]
        have hnbuniv : nb ∈ detUniv g := hU nb (List.mem_cons_self _ _)
        obtain ⟨ha1, ha2, ha3, ha4, ha5⟩ :=
          (dfsD_basic g (f + 1)).1 nb (path0 ++ [node]) st hfuel hv hnbuniv hbasic
        obtain ⟨F1, hpre1, hinv1, hnbF1⟩ :=
          hA nb (path0 ++ [node]) st F hfuel hv hnbuniv hbasic hinvT hrs
        have hfuel' : unvisCount (detUniv g)
            (dfsD (adjBuild g.edges) (f + 1) nb (path0 ++ [node]) st).visited <
            f + 1 := by
          have := unvisCount_mono (detUniv g) st.visited
            (dfsD (adjBuild g.edges) (f + 1) nb (path0 ++ [node]) st).visited ha2
          omega
        have hrs' : (dfsD (adjBuild g.edges) (f + 1) nb (path0 ++ [node]) st).recStack =
            path0 ++ [node] := ha1.trans hrs
        obtain ⟨F', hpre2, hinvF, hall⟩ :=
          ihn _ F1 (fun x hx => hU x (List.mem_cons_of_mem _ hx)) hfuel' ha4
            hinv1 hrs'
        refine ⟨F', hpre1.trans hpre2, hinvF, ?_⟩
        intro x hx
        rcases List.mem_cons.mp hx with h | h
        · rw [h]
          exact Or.inl (hpre2.subset hnbF1)
        · exact hall x h

theorem detectTop_ghostT (g : Graph) :
    ∀ (ns : List GraphNode) (st : DetSt) (F : List String),
    (∀ n ∈ ns, n.id ∈ detUniv g) → DetBasic g st → DetInvT g st F →
    st.recStack = [] →
    ∃ F', F <+: F' ∧ DetInvT g (detectTop g ns st) F' ∧ ∀ n ∈ ns, n.id ∈ F' := by
  intro ns
  induction ns with
  | nil =>
    intro st F _ _ hinv _
    exact ⟨F, List.prefix_refl F, hinv, fun n hn => absurd hn (List.not_mem_nil n)⟩
  | cons n rest ih =>
    intro st F hns hbasic hinv hrs
    rw [detectTop_cons]
    by_cases hv : n.id ∈ st.visited
    · rw [if_pos hv]
      have hnF : n.id ∈ F := by
        rcases (hinv.1 n.id).mp hv with h | h
        · exact h
        · rw [hrs] at h
          exact absurd h (List.not_mem_nil _)
      obtain ⟨F', hp, hi, hall⟩ :=
        ih st F (fun m hm => hns m (List.mem_cons_of_mem _ hm)) hbasic hinv hrs
      refine ⟨F', hp, hi, ?_⟩
      intro m hm
      rcases List.mem_cons.mp hm with h | h
      · rw [h]
        exact hp.subset hnF
      · exact hall m h
    · rw [if_neg hv]
      have hnuniv := hns n (List.mem_cons_self _ _)
      obtain ⟨ha1, ha2, ha3, ha4, ha5⟩ :=
        (dfsD_basic g (detFuel g)).1 n.id [] st (unvis_lt_detFuel g st.visited) hv
          hnuniv hbasic
      obtain ⟨F1, hpre1, hinv1, hnmem⟩ :=
        (dfsD_ghostT g (detFuel g)).1 n.id [] st F (unvis_lt_detFuel g st.visited)
          hv hnuniv hbasic hinv hrs
      have hrs1 : (dfsD (adjBuild g.edges) (detFuel g) n.id [] st).recStack = [] :=
        ha1.trans hrs
      obtain ⟨F', hp2, hi, hall⟩ :=
        ih _ F1 (fun m hm => hns m (List.mem_cons_of_mem _ hm)) ha4 hinv1 hrs1
      refine ⟨F', hpre1.trans hp2, hi, ?_⟩
      intro m hm
      rcases List.mem_cons.mp hm with h | h
      · rw [h]
        exact hp2.subset hnmem
      · exact hall m h

/-- The global finish order of a `detectCycles` run, covering every node id,
with the edge dichotomy against the final cycle report. -/
theorem detect_pOrdT (g : Graph) :
    ∃ F, POrdT g F (detectCyclesRun g) ∧ ∀ k ∈ idList g, k ∈ F := by
  have hbasic0 : DetBasic g (⟨[], [], []⟩ : DetSt) :=
    ⟨List.nodup_nil, fun x hx => absurd hx (List.not_mem_nil x),
      fun x hx => absurd hx (List.not_mem_nil x)⟩
  have hinv0 : DetInvT g ⟨[], [], []⟩ [] := by
    refine ⟨?_, List.nodup_nil, ?_, ?_, ?_⟩
    · intro x
      simp
    · intro x hx
      exact absurd hx (List.not_mem_nil x)
    · intro e he hs
      exact absurd hs (List.not_mem_nil _)
    · intro x hx
      exact absurd hx (List.not_mem_nil x)
  have hns : ∀ n ∈ g.nodes, n.id ∈ detUniv g := by
    intro n hn
    exact List.mem_append_left _ (List.mem_map.mpr ⟨n, hn, rfl⟩)
  obtain ⟨F, -, hinvF, hallF⟩ :=
    detectTop_ghostT g g.nodes ⟨[], [], []⟩ [] hns hbasic0 hinv0 rfl
  refine ⟨F, ?_, ?_⟩
  · have h := hinvF.2.2.2.1
    unfold detectCyclesRun
    rw [detectRun_eq_top]
    exact h
  · intro k hk
    have hk' : k ∈ g.nodes.map (fun n => n.id) := hk
    rcases List.mem_map.mp hk' with ⟨n, hn, hid⟩
    exact hid ▸ hallF n hn

/-- Every reported strongly connected component shares a node with some
reported cycle: a non-trivial mutually-reachable class yields a closed
non-empty walk inside the class, and along such a walk the `detectCycles`
finish position cannot always decrease, so some edge of the walk is covered
by an emitted cycle, whose source endpoint lies in the class. -/
theorem comp_sharing (g : Graph) (F : List String) (cycles : List (List String))
    (hord : POrdT g F cycles)
    (hsrc : ∀ e ∈ g.edges, e.source ∈ idList g)
    (hidF : ∀ k ∈ idList g, k ∈ F)
    (c : List String) (hgc : GoodComp g c) :
    ∃ cyc ∈ cycles, ∃ x, x ∈ cyc ∧ x ∈ c := by
  by_contra hno
  push_neg at hno
  obtain ⟨n, m, hn, hm, hmn, hmut, hcomplete⟩ := hgc
  obtain ⟨hmrn, hnrm⟩ := hmut m hm
  have htg : Relation.TransGen (edgeRel g) n n := by
    rcases Relation.reflTransGen_iff_eq_or_transGen.mp hnrm with heq | htg
    · exact absurd heq hmn
    · exact Relation.TransGen.trans_left htg hmrn
  have hres := transGen_restrict g n n n htg Relation.ReflTransGen.refl
    Relation.ReflTransGen.refl
  have hresp : ∀ a b, (edgeRel g a b ∧
      (Reach g n a ∧ Reach g a n) ∧ (Reach g n b ∧ Reach g b n)) →
      posOf F b < posOf F a := by
    intro a b hstep
    obtain ⟨hab, ⟨hna, han⟩, -⟩ := hstep
    obtain ⟨e, he, hes, het⟩ := hab
    have haC : a ∈ c := hcomplete a han hna
    have haF : a ∈ F := hidF _ (hes ▸ hsrc e he)
    rcases hord e he (hes ▸ haF) with ⟨-, hlt⟩ | ⟨cyc, hcyc, h1, h2⟩
    · rw [hes, het] at hlt
      exact hlt
    · exact absurd haC (hno cyc hcyc a (hes ▸ h1))
  exact absurd (transGen_lt F hresp n n hres) (lt_irrefl _)

/-- Every component reported by `findStronglyConnectedComponents` is a full
non-trivial mutual-reachability class: assembled from the pass-1 call
records and the pass-2 ghost. -/
theorem scc_comps_good (g : Graph) (hval : ValidGraph g)
    (comps : List (List String)) (hfs : findSCCE g = some comps) :
    ∀ c ∈ comps, GoodComp g c := by
  obtain ⟨hids, hends, hpairs⟩ := hval
  obtain ⟨adj, radj, hbuild, hadj, hradj⟩ := findSCCE_char g hends
  rw [findSCCE_eq g adj radj hbuild] at hfs
  injection hfs with hfs
  have hinv0 : Inv1G g ([], []) [] := by
    refine ⟨?_, List.nodup_nil, ?_, ?_, ?_, ?_⟩
    · intro x
      simp
    · intro x hx
      exact absurd hx (List.not_mem_nil x)
    · intro x hx
      exact absurd hx (List.not_mem_nil x)
    · intro v hv
      exact absurd hv (List.not_mem_nil v)
    · intro v hv
      exact absurd hv (List.not_mem_nil v)
  have hns : ∀ n ∈ g.nodes, n.id ∈ idList g :=
    fun n hn => List.mem_map.mpr ⟨n, hn, rfl⟩
  obtain ⟨hinvF, hmono, hall⟩ :=
    pass1_foldG g adj hadj (fun e he => (hends e he).2) g.nodes ([], []) hns hinv0
  obtain ⟨hiff, hnd, hdisC, hiu, hncl, hrecs⟩ := hinvF
  have hvs : ∀ x ∈ (g.nodes.foldl (fun vs n => if n.id ∈ vs.1 then vs
      else dfs1 adj (sccFuel g) n.id vs) ([], [])).1,
      x ∈ (g.nodes.foldl (fun vs n => if n.id ∈ vs.1 then vs
      else dfs1 adj (sccFuel g) n.id vs) ([], [])).2 := by
    intro x hx
    rcases (hiff x).mp hx with h | h
    · exact h
    · exact absurd h (List.not_mem_nil x)
  have hrec : ∀ v ∈ (g.nodes.foldl (fun vs n => if n.id ∈ vs.1 then vs
      else dfs1 adj (sccFuel g) n.id vs) ([], [])).2,
      RecOf g (g.nodes.foldl (fun vs n => if n.id ∈ vs.1 then vs
        else dfs1 adj (sccFuel g) n.id vs) ([], [])).2
        (g.nodes.foldl (fun vs n => if n.id ∈ vs.1 then vs
        else dfs1 adj (sccFuel g) n.id vs) ([], [])).2 v :=
    fun v hv => recOf_vis_mono g _ _ _ v (hrecs v hv) hvs
  have hSid : ∀ x ∈ (g.nodes.foldl (fun vs n => if n.id ∈ vs.1 then vs
      else dfs1 adj (sccFuel g) n.id vs) ([], [])).2, x ∈ idList g :=
    fun x hx => hiu x ((hiff x).mpr (Or.inl hx))
  have hidS : ∀ x, x ∈ idList g →
      x ∈ (g.nodes.foldl (fun vs n => if n.id ∈ vs.1 then vs
      else dfs1 adj (sccFuel g) n.id vs) ([], [])).2 := by
    intro x hx
    rcases List.mem_map.mp hx with ⟨nd, hnd2, hid⟩
    exact hvs x (hid ▸ hall nd hnd2)
  have hpass := pass2_scc g radj hradj (fun e he => (hends e he).1) _ hnd hrec
    hSid hidS ((g.nodes.foldl (fun vs n => if n.id ∈ vs.1 then vs
      else dfs1 adj (sccFuel g) n.id vs) ([], [])).2.reverse) [] [] []
    (List.nil_append _).symm
    (fun y hy => absurd hy (List.not_mem_nil y))
    (fun y hy => absurd hy (List.not_mem_nil y))
    (fun y hy => absurd hy (List.not_mem_nil y))
    (fun c hc => absurd hc (List.not_mem_nil c))
  intro c hc
  exact hpass c (hfs ▸ hc)

/-- C2 (amended) — On every graph satisfying the GraphModel invariants, if
`detectCycles` reports no cycle then `findStronglyConnectedComponents`
returns exactly the empty component list (contrapositively a non-empty SCC
report implies at least one reported cycle), and every reported component
shares at least one node with some reported cycle.  The converse direction
of the originally claimed equivalence is refuted by
`selfloop_cycle_without_scc`: a self-loop yields a reported cycle while its
singleton component is filtered out by `component.length > 1`. -/
theorem scc_cycle_relation (g : Graph) (hval : ValidGraph g) :
    (detectCyclesRun g = [] → findSCCE g = some []) ∧
      (∀ comps, findSCCE g = some comps →
        ∀ c ∈ comps, ∃ cyc ∈ detectCyclesRun g, ∃ x, x ∈ cyc ∧ x ∈ c) := by
  refine ⟨fun h => acyclic_scc_nil g hval (detect_nil_acyclic g hval h), ?_⟩
  intro comps hfs c hc
  obtain ⟨F, hord, hidF⟩ := detect_pOrdT g
  exact comp_sharing g F (detectCyclesRun g) hord
    (fun e he => (hval.2.1 e he).1) hidF c (scc_comps_good g hval comps hfs c hc)

/-- Witness for C2 at a concrete valid two-node cycle. -/
theorem scc_cycle_relation_witness :
    (detectCyclesRun ⟨[⟨"u"⟩, ⟨"v"⟩], [⟨"u", "v"⟩, ⟨"v", "u"⟩]⟩ = [] →
      findSCCE ⟨[⟨"u"⟩, ⟨"v"⟩], [⟨"u", "v"⟩, ⟨"v", "u"⟩]⟩ = some []) ∧
      (∀ comps, findSCCE ⟨[⟨"u"⟩, ⟨"v"⟩], [⟨"u", "v"⟩, ⟨"v", "u"⟩]⟩ = some comps →
        ∀ c ∈ comps, ∃ cyc ∈ detectCyclesRun ⟨[⟨"u"⟩, ⟨"v"⟩], [⟨"u", "v"⟩, ⟨"v", "u"⟩]⟩,
          ∃ x, x ∈ cyc ∧ x ∈ c) :=
  scc_cycle_relation ⟨[⟨"u"⟩, ⟨"v"⟩], [⟨"u", "v"⟩, ⟨"v", "u"⟩]⟩
    (by refine ⟨?_, ?_, ?_⟩ <;> decide)

end LdesignAnalyzer
